import Mathlib

/-!
# KFS `DynamicArray` (src/cc/common/DynamicArray.h)

A shallow embedding of the segmented array `KFS::DynamicArray<T, Log2FirstBufferSize>`.

* `size_t` is a natural number below `2 ^ 64`; `+`, `-` and `++` wrap (`wadd`, `wsub`).
* `size_t(1) << k` is defined only for `k < 64` (`shl1`); a larger shift count is
  undefined behaviour.
* The member array `mBuffersPtr` is a list of `MaxBufferCount` entries; an entry is
  `none` (the null pointer) or `some b`, a buffer the array owns exclusively, with the
  address it was allocated at and its cells.
* The free store is a `Heap`: the next fresh address and the number of elements that
  can still be allocated. `new T[n]` throws when `n` exceeds it.
* A member function returns an `Outcome`: a normal return, a `std::bad_alloc` thrown
  (with the object state at the throw), undefined behaviour (an index outside
  `mBuffersPtr`, a null or out-of-range dereference, an oversized shift), or a loop
  that does not exit.
-/

namespace KFS

/-- The number of values of a 64-bit `size_t`. -/
abbrev sizeMod : Nat := 18446744073709551616

/-- Wrapping `size_t` addition. -/
def wadd (a b : Nat) : Nat := (a + b) % sizeMod

/-- Wrapping `size_t` subtraction. -/
def wsub (a b : Nat) : Nat := (a + sizeMod - b % sizeMod) % sizeMod

/-- One heap buffer `new T[n]`: where it lives and what its `n` cells hold. -/
structure Buffer (T : Type) where
  addr : Nat
  cells : List T
deriving DecidableEq, Repr

/-- The free store: the address the next allocation gets and how many elements it can
still hand out. -/
structure Heap where
  next : Nat
  avail : Nat
deriving DecidableEq, Repr

/-- The data members of `DynamicArray<T, Log2FirstBufferSize>`. -/
structure DynamicArray (T : Type) where
  mSize : Nat
  mBufferCount : Nat
  mLastBufferIdx : Nat
  mBuffersPtr : List (Option (Buffer T))
deriving DecidableEq, Repr

/-- A `T&` into a buffer: the buffer it points into, the element offset, and the value
stored there when the reference was formed. -/
structure ElemRef (T : Type) where
  addr : Nat
  off : Nat
  val : T
deriving DecidableEq, Repr

/-- How a member function call ends. -/
inductive Outcome (T : Type) (α : Type) where
  | ok (a : α)
  | badAlloc (h : Heap) (st : DynamicArray T)
  | undefined
  | diverge
deriving DecidableEq, Repr

namespace Outcome

/-- Sequencing: the first abnormal end is the end of the whole call. -/
def bind {T α β : Type} (x : Outcome T α) (f : α → Outcome T β) : Outcome T β :=
  match x with
  | ok a => f a
  | badAlloc h st => badAlloc h st
  | undefined => undefined
  | diverge => diverge

instance {T : Type} : Monad (Outcome T) where
  pure := ok
  bind := bind

end Outcome

/-- The value of `size_t(1) << k`. -/
def shl1 {T : Type} (k : Nat) : Outcome T Nat :=
  if k < 64 then .ok (2 ^ k) else .undefined

/-- The static member `BufSize(inIdx)`: `size_t(1) << (Log2FirstBufferSize + inIdx)`. -/
def BufSize {T : Type} (Log2FirstBufferSize inIdx : Nat) : Outcome T Nat :=
  shl1 (wadd Log2FirstBufferSize inIdx)

/-- The static member `FirstBufSize()`. -/
def FirstBufSize {T : Type} (Log2FirstBufferSize : Nat) : Outcome T Nat :=
  BufSize Log2FirstBufferSize 0

/-- The static member `Capacity(inBufCount)`:
`(size_t(1) << (Log2FirstBufferSize + inBufCount)) - (size_t(1) << Log2FirstBufferSize)`. -/
def Capacity {T : Type} (Log2FirstBufferSize inBufCount : Nat) : Outcome T Nat := do
  let hi ← shl1 (wadd Log2FirstBufferSize inBufCount)
  let lo ← shl1 Log2FirstBufferSize
  pure (wsub hi lo)

/-- The member `MaxBufferCount()`: the number of entries of
`T* mBuffersPtr[sizeof(size_t) * 8 - Log2FirstBufferSize]`. -/
def MaxBufferCount (Log2FirstBufferSize : Nat) : Nat := 64 - Log2FirstBufferSize

/-- The default constructor: no elements, no buffers, every table entry null. -/
def empty (T : Type) (Log2FirstBufferSize : Nat) : DynamicArray T :=
  { mSize := 0, mBufferCount := 0, mLastBufferIdx := 0,
    mBuffersPtr := List.replicate (MaxBufferCount Log2FirstBufferSize) none }

/-- The expression `new T[n]`: a fresh buffer of `n` default-constructed cells, or
`none` when it throws (not enough memory, or `n` elements exceed `PTRDIFF_MAX` bytes). -/
def newArray {T : Type} [Inhabited T] (h : Heap) (n : Nat) : Option (Heap × Buffer T) :=
  if n ≤ h.avail ∧ n < 2 ^ 63 then
    some ({ next := h.next + 1, avail := h.avail - n },
          { addr := h.next, cells := List.replicate n default })
  else none

/-- The expression `delete [] p`: nothing for a null pointer, else the cells go back to
the free store. -/
def deleteArray {T : Type} (h : Heap) (p : Option (Buffer T)) : Heap :=
  match p with
  | none => h
  | some b => { h with avail := h.avail + b.cells.length }

/-- Reading the table entry `mBuffersPtr[i]`. -/
def ptrAt {T : Type} (tbl : List (Option (Buffer T))) (i : Nat) :
    Outcome T (Option (Buffer T)) :=
  match tbl[i]? with
  | some p => .ok p
  | none => .undefined

/-- The lvalue `*(p + off)`: defined when `p` is a live buffer and `off` is inside it. -/
def deref {T : Type} (p : Option (Buffer T)) (off : Nat) : Outcome T (ElemRef T) :=
  match p with
  | none => .undefined
  | some b =>
    match b.cells[off]? with
    | some v => .ok { addr := b.addr, off := off, val := v }
    | none => .undefined

/-- GetSize(): the logical size. -/
def GetSize {T : Type} (a : DynamicArray T) : Nat := a.mSize

/-- IsEmpty(): `mSize <= 0`. -/
def IsEmpty {T : Type} (a : DynamicArray T) : Bool := decide (a.mSize ≤ 0)

/-- The loop of `operator[]` (and, with the same three variables, of `RemoveBack`):
`while (theIdx >= theBufSize) { theIdx -= theBufSize; theBufSize += theBufSize;
theBufIdx++; }`, returning `(theBufIdx, theIdx)` at exit. Sixty-four doublings turn any
`theBufSize` into zero, after which the loop can no longer exit: running out of the
fuel is the loop not terminating. -/
def indexLoop : Nat → Nat → Nat → Nat → Option (Nat × Nat)
  | 0, _, _, _ => none
  | fuel + 1, theIdx, theBufSize, theBufIdx =>
    if theIdx ≥ theBufSize then
      indexLoop fuel (wsub theIdx theBufSize) (wadd theBufSize theBufSize) (wadd theBufIdx 1)
    else some (theBufIdx, theIdx)

/-- The decomposition `operator[]` computes for `inIndex`: buffer index and offset. -/
def locate {T : Type} (Log2FirstBufferSize inIndex : Nat) : Outcome T (Nat × Nat) := do
  let theBufSize ← FirstBufSize Log2FirstBufferSize
  match indexLoop 65 inIndex theBufSize 0 with
  | some r => pure r
  | none => .diverge

/-- The member `operator[](inIndex)`: `*(mBuffersPtr[theBufIdx] + theIdx)`. -/
def index {T : Type} (Log2FirstBufferSize : Nat) (a : DynamicArray T) (inIndex : Nat) :
    Outcome T (ElemRef T) := do
  let (theBufIdx, theIdx) ← locate Log2FirstBufferSize inIndex
  let p ← ptrAt a.mBuffersPtr theBufIdx
  deref p theIdx

/-- The statement `mBuffersPtr[mBufferCount] = new T[n]; mBufferCount++` (in `Resize` and
`operator=` written `mBuffersPtr[mBufferCount++] = new T[n]`). When `new` throws the
object is as it was on entry to the statement. -/
def allocBuffer {T : Type} [Inhabited T] (h : Heap) (a : DynamicArray T) (n : Nat) :
    Outcome T (Heap × DynamicArray T) :=
  match newArray h n with
  | none => .badAlloc h a
  | some (h1, buf) =>
    if a.mBufferCount < a.mBuffersPtr.length then
      .ok (h1, { a with mBuffersPtr := a.mBuffersPtr.set a.mBufferCount (some buf),
                        mBufferCount := wadd a.mBufferCount 1 })
    else .undefined

/-- The statement `if (i >= mBufferCount) { mBuffersPtr[mBufferCount++] = new T[n]; }` of
`Resize` and `operator=`. -/
def allocIfBeyond {T : Type} [Inhabited T] (h : Heap) (a : DynamicArray T) (i n : Nat) :
    Outcome T (Heap × DynamicArray T) :=
  if i ≥ a.mBufferCount then allocBuffer h a n else .ok (h, a)

/-- The loop of `DeleteBuffers`:
`while (mBufferCount > inCnt) { delete [] mBuffersPtr[--mBufferCount];
mBuffersPtr[mBufferCount] = 0; }`. It runs `mBufferCount - inCnt` times, so a fuel of
`mBufferCount` is never used up. -/
def DeleteBuffersLoop {T : Type} :
    Nat → Heap → DynamicArray T → Nat → Outcome T (Heap × DynamicArray T)
  | 0, h, a, inCnt => if a.mBufferCount > inCnt then .diverge else .ok (h, a)
  | fuel + 1, h, a, inCnt =>
    if a.mBufferCount > inCnt then do
      let theCnt := wsub a.mBufferCount 1
      let p ← ptrAt a.mBuffersPtr theCnt
      DeleteBuffersLoop fuel (deleteArray h p)
        { a with mBufferCount := theCnt, mBuffersPtr := a.mBuffersPtr.set theCnt none } inCnt
    else .ok (h, a)

/-- The private member `DeleteBuffers(inCnt)`. -/
def DeleteBuffers {T : Type} (h : Heap) (a : DynamicArray T) (inCnt : Nat) :
    Outcome T (Heap × DynamicArray T) :=
  DeleteBuffersLoop a.mBufferCount h a inCnt

/-- The member `Clear()`. -/
def Clear {T : Type} (h : Heap) (a : DynamicArray T) : Outcome T (Heap × DynamicArray T) := do
  let (h1, a1) ← DeleteBuffers h a 0
  pure (h1, { a1 with mSize := 0, mLastBufferIdx := 0 })

/-- The assignment `*(mBuffersPtr[i] + off) = v` and the reference it goes through:
defined when `mBuffersPtr[i]` is a live buffer and `off` is inside it. -/
def store {T : Type} (a : DynamicArray T) (i off : Nat) (v : T) :
    Outcome T (DynamicArray T × ElemRef T) := do
  let p ← ptrAt a.mBuffersPtr i
  match p with
  | none => .undefined
  | some b =>
    if off < b.cells.length then
      pure ({ a with mBuffersPtr :=
                a.mBuffersPtr.set i (some { b with cells := b.cells.set off v }) },
            { addr := b.addr, off := off, val := v })
    else .undefined

/-- The `if` statement that opens `PushBack`:
`if (mLastBufferIdx >= mBufferCount || (Capacity(mLastBufferIdx + 1) <= mSize &&
++mLastBufferIdx >= mBufferCount)) { mBuffersPtr[mBufferCount] =
new T[BufSize(mBufferCount)]; mBufferCount++; }`. -/
def PushBackGrow {T : Type} [Inhabited T] (Log2FirstBufferSize : Nat) (h : Heap)
    (a : DynamicArray T) : Outcome T (Heap × DynamicArray T) := do
  let (a1, theAllocFlag) ←
    if a.mLastBufferIdx ≥ a.mBufferCount then
      (pure (a, true) : Outcome T (DynamicArray T × Bool))
    else do
      let theCap ← Capacity Log2FirstBufferSize (wadd a.mLastBufferIdx 1)
      if theCap ≤ a.mSize then
        let a0 := { a with mLastBufferIdx := wadd a.mLastBufferIdx 1 }
        pure (a0, decide (a0.mLastBufferIdx ≥ a0.mBufferCount))
      else pure (a, false)
  if theAllocFlag then do
    let theSize ← BufSize Log2FirstBufferSize a1.mBufferCount
    allocBuffer h a1 theSize
  else pure (h, a1)

/-- The member `PushBack(inElem)`; returns the reference `theRet`. -/
def PushBack {T : Type} [Inhabited T] (Log2FirstBufferSize : Nat) (h : Heap)
    (a : DynamicArray T) (inElem : T) : Outcome T (Heap × DynamicArray T × ElemRef T) := do
  let (h2, a2) ← PushBackGrow Log2FirstBufferSize h a
  let theCap ← Capacity Log2FirstBufferSize a2.mLastBufferIdx
  let (a3, theRet) ← store a2 a2.mLastBufferIdx (wsub a2.mSize theCap) inElem
  pure (h2, { a3 with mSize := wadd a3.mSize 1 }, theRet)

/-- The member `PopBack()`; returns the new size. -/
def PopBack {T : Type} (Log2FirstBufferSize : Nat) (h : Heap) (a : DynamicArray T) :
    Outcome T (Heap × DynamicArray T × Nat) :=
  if a.mSize ≤ 0 then .ok (h, a, a.mSize)
  else
    let a1 := { a with mSize := wsub a.mSize 1 }
    if a1.mLastBufferIdx > 0 then do
      let theCap ← Capacity Log2FirstBufferSize a1.mLastBufferIdx
      if theCap = a1.mSize then
        -- Hysteresis: keep the last buffer.
        let (h2, a2) ← DeleteBuffers h a1 a1.mLastBufferIdx
        let a3 := { a2 with mLastBufferIdx := wsub a2.mLastBufferIdx 1 }
        pure (h2, a3, a3.mSize)
      else pure (h, a1, a1.mSize)
    else .ok (h, a1, a1.mSize)

/-- The member `Front()`: `*(mBuffersPtr[0])`. -/
def Front {T : Type} (a : DynamicArray T) : Outcome T (ElemRef T) := do
  let p ← ptrAt a.mBuffersPtr 0
  deref p 0

/-- The member `Back()`:
`*(mBuffersPtr[mLastBufferIdx] + (mSize - 1 - Capacity(mLastBufferIdx)))`. -/
def Back {T : Type} (Log2FirstBufferSize : Nat) (a : DynamicArray T) :
    Outcome T (ElemRef T) := do
  let p ← ptrAt a.mBuffersPtr a.mLastBufferIdx
  let theCap ← Capacity Log2FirstBufferSize a.mLastBufferIdx
  deref p (wsub (wsub a.mSize 1) theCap)

/-- The member `RemoveBack(inCnt)`; returns the new size. -/
def RemoveBack {T : Type} (Log2FirstBufferSize : Nat) (h : Heap) (a : DynamicArray T)
    (inCnt : Nat) : Outcome T (Heap × DynamicArray T × Nat) :=
  if inCnt ≤ 0 then .ok (h, a, a.mSize)
  else do
    let (a1, theBufIdx) ←
      if inCnt ≥ a.mSize then
        (pure ({ a with mSize := 0 }, 0) : Outcome T (DynamicArray T × Nat))
      else do
        let theSize := wsub a.mSize inCnt
        let theBufSize ← FirstBufSize Log2FirstBufferSize
        match indexLoop 65 theSize theBufSize 0 with
        | some (theLoopBufIdx, _) => pure ({ a with mSize := theSize }, theLoopBufIdx)
        | none => .diverge
    let a2 := { a1 with mLastBufferIdx := theBufIdx }
    let (h3, a3) ← DeleteBuffers h a2 (wadd theBufIdx 2) -- Hysteresis: keep the last one.
    pure (h3, a3, a3.mSize)

/-- The growing loop of `Resize`:
`while (theCapacity < inSize) { if (++mLastBufferIdx >= mBufferCount) {
mBuffersPtr[mBufferCount++] = new T[theBufSize]; } theCapacity += theBufSize;
theBufSize += theBufSize; }`. With at most 64 table entries the loop has exited, thrown
or run off the table long before 200 rounds. -/
def ResizeLoop {T : Type} [Inhabited T] :
    Nat → Heap → DynamicArray T → Nat → Nat → Nat → Outcome T (Heap × DynamicArray T)
  | 0, _, _, _, _, _ => .diverge
  | fuel + 1, h, a, theCapacity, theBufSize, inSize =>
    if theCapacity < inSize then do
      let a1 := { a with mLastBufferIdx := wadd a.mLastBufferIdx 1 }
      let (h2, a2) ← allocIfBeyond h a1 a1.mLastBufferIdx theBufSize
      ResizeLoop fuel h2 a2 (wadd theCapacity theBufSize) (wadd theBufSize theBufSize) inSize
    else .ok (h, a)

/-- The member `Resize(inSize)`. -/
def Resize {T : Type} [Inhabited T] (Log2FirstBufferSize : Nat) (h : Heap)
    (a : DynamicArray T) (inSize : Nat) : Outcome T (Heap × DynamicArray T) :=
  if inSize ≤ a.mSize then do
    let (h1, a1, _) ← RemoveBack Log2FirstBufferSize h a (wsub a.mSize inSize)
    pure (h1, a1)
  else do
    let theBufSize ← BufSize Log2FirstBufferSize a.mLastBufferIdx
    let theCap ← Capacity Log2FirstBufferSize a.mLastBufferIdx
    let theCapacity := wadd theCap (if a.mLastBufferIdx < a.mBufferCount then theBufSize else 0)
    let (h1, a1) ← ResizeLoop 200 h a theCapacity theBufSize inSize
    pure (h1, { a1 with mSize := inSize })

/-- The pointer-exchanging loop of `Swap`:
`for (i = 0; i < MaxBufferCount(); i++) { T* const thePtr = inArray.mBuffersPtr[i];
inArray.mBuffersPtr[i] = mBuffersPtr[i]; mBuffersPtr[i] = thePtr; }`, with `n` rounds
left to run from index `i`. Returns the table of `this` and that of `inArray`. -/
def SwapLoop {T : Type} :
    Nat → Nat → List (Option (Buffer T)) → List (Option (Buffer T)) →
      Outcome T (List (Option (Buffer T)) × List (Option (Buffer T)))
  | 0, _, theTbl, inTbl => .ok (theTbl, inTbl)
  | n + 1, i, theTbl, inTbl => do
    let thePtr ← ptrAt inTbl i
    let theMine ← ptrAt theTbl i
    SwapLoop n (i + 1) (theTbl.set i thePtr) (inTbl.set i theMine)

/-- The member `Swap(inArray)` called on `a`; returns `a` and `inArray` after the call. -/
def Swap {T : Type} (Log2FirstBufferSize : Nat) (a inArray : DynamicArray T) :
    Outcome T (DynamicArray T × DynamicArray T) := do
  let (theTbl, inTbl) ←
    SwapLoop (MaxBufferCount Log2FirstBufferSize) 0 a.mBuffersPtr inArray.mBuffersPtr
  pure ({ mSize := inArray.mSize, mBufferCount := inArray.mBufferCount,
          mLastBufferIdx := inArray.mLastBufferIdx, mBuffersPtr := theTbl },
        { mSize := a.mSize, mBufferCount := a.mBufferCount,
          mLastBufferIdx := a.mLastBufferIdx, mBuffersPtr := inTbl })

/-- The inner loop of `operator=`: `while (theSrcPtr < theEndPtr) { *theDstPtr++ =
*theSrcPtr++; }` with `theEndPtr = theSrcPtr + n`; the destination buffer afterwards. -/
def copyCells {T : Type} (theSrcPtr theDstPtr : Option (Buffer T)) (n : Nat) :
    Outcome T (Option (Buffer T)) :=
  if n = 0 then .ok theDstPtr
  else
    match theSrcPtr, theDstPtr with
    | some s, some d =>
      if n ≤ s.cells.length ∧ n ≤ d.cells.length then
        .ok (some { d with cells := s.cells.take n ++ d.cells.drop n })
      else .undefined
    | _, _ => .undefined

/-- The outer loop of `operator=`, `while (theCnt > 0) { ... }`, copying `inArray` into
`a` buffer by buffer; returns the final `theBufIdx` too. Every round but the last moves
to the next table entry, so 65 rounds are never all used. -/
def AssignLoop {T : Type} [Inhabited T] :
    Nat → Heap → DynamicArray T → DynamicArray T → Nat → Nat → Nat →
      Outcome T (Heap × DynamicArray T × Nat)
  | 0, _, _, _, _, _, _ => .diverge
  | fuel + 1, h, a, inArray, theBufIdx, theBufSize, theCnt =>
    if theCnt > 0 then do
      let (h1, a1) ← allocIfBeyond h a theBufIdx theBufSize
      let theSrcPtr ← ptrAt inArray.mBuffersPtr theBufIdx
      let theDstPtr ← ptrAt a1.mBuffersPtr theBufIdx
      if theCnt > theBufSize then do
        let theDst ← copyCells theSrcPtr theDstPtr theBufSize
        AssignLoop fuel h1 { a1 with mBuffersPtr := a1.mBuffersPtr.set theBufIdx theDst }
          inArray (wadd theBufIdx 1) (wadd theBufSize theBufSize) (wsub theCnt theBufSize)
      else do
        let theDst ← copyCells theSrcPtr theDstPtr theCnt
        AssignLoop fuel h1 { a1 with mBuffersPtr := a1.mBuffersPtr.set theBufIdx theDst }
          inArray theBufIdx theBufSize 0
    else .ok (h, a, theBufIdx)

/-- The member `operator=(inArray)` called on `a`, for `inArray` another object than
`a`; returns the heap and `a` after the call (`inArray` is `const`). -/
def assign {T : Type} [Inhabited T] (Log2FirstBufferSize : Nat) (h : Heap)
    (a inArray : DynamicArray T) : Outcome T (Heap × DynamicArray T) := do
  let theBufSize ← FirstBufSize Log2FirstBufferSize
  let (h1, a1, theBufIdx) ← AssignLoop 65 h a inArray 0 theBufSize inArray.mSize
  let a2 := { a1 with mLastBufferIdx := theBufIdx }
  let (h3, a3) ← DeleteBuffers h1 a2 (wadd theBufIdx 2) -- Hysteresis: keep the last one.
  pure (h3, { a3 with mSize := inArray.mSize })

/-- The copy constructor: `mSize`, `mBufferCount` and `mLastBufferIdx` start at zero,
the table is left as the storage had it (`theRaw`), then `(*this) = inArray`. -/
def copyConstruct {T : Type} [Inhabited T] (Log2FirstBufferSize : Nat) (h : Heap)
    (theRaw : List (Option (Buffer T))) (inArray : DynamicArray T) :
    Outcome T (Heap × DynamicArray T) :=
  assign Log2FirstBufferSize h
    { mSize := 0, mBufferCount := 0, mLastBufferIdx := 0, mBuffersPtr := theRaw } inArray

/-! ## Notions used to state the properties -/

/-- Cumulative capacity of the buffers `0 .. j-1` as a natural number,
`2 ^ (B + j) - 2 ^ B`. -/
def capOf (B j : Nat) : Nat := 2 ^ (B + j) - 2 ^ B

/-- Closed-form buffer index of the logical index `k`: `floor (log2 (k / 2 ^ B + 1))`. -/
def bufIdxOf (B k : Nat) : Nat := Nat.log 2 (k / 2 ^ B + 1)

/-- Calling `PushBack` on each value of a list, in order. -/
def pushAll {T : Type} [Inhabited T] (Log2FirstBufferSize : Nat) :
    Heap → DynamicArray T → List T → Outcome T (Heap × DynamicArray T)
  | h, a, [] => .ok (h, a)
  | h, a, v :: vs => do
    let (h1, a1, _) ← PushBack Log2FirstBufferSize h a v
    pushAll Log2FirstBufferSize h1 a1 vs

/-- A free store with room for a thousand elements, for the worked examples. -/
def heap0 : Heap := { next := 1, avail := 1000 }

/-- The table entries `0 .. c-1` are live buffers and buffer `j` has `2 ^ (B + j)` cells. -/
def BufsOk {T : Type} (B : Nat) (tbl : List (Option (Buffer T))) (c : Nat) : Prop :=
  ∀ j, j < c → ∃ b, tbl[j]? = some (some b) ∧ b.cells.length = 2 ^ (B + j)

/-- The buffers of the table hold the values `vs`: value number `capOf B j + o` sits at
offset `o` of buffer `j`. -/
def Holds {T : Type} (B : Nat) (tbl : List (Option (Buffer T))) (vs : List T) : Prop :=
  ∀ j o, o < 2 ^ (B + j) → capOf B j + o < vs.length →
    ∃ b, tbl[j]? = some (some b) ∧ b.cells[o]? = vs[capOf B j + o]?

/-- The state of an array that was filled by `PushBack` calls only with the values `vs`. -/
structure PushInv {T : Type} (B : Nat) (a : DynamicArray T) (vs : List T) : Prop where
  tbl_len : a.mBuffersPtr.length = MaxBufferCount B
  size_eq : a.mSize = vs.length
  bufs : BufsOk B a.mBuffersPtr a.mBufferCount
  last : (a.mBufferCount = 0 ∧ a.mLastBufferIdx = 0 ∧ a.mSize = 0) ∨
    (a.mLastBufferIdx + 1 = a.mBufferCount ∧ capOf B a.mLastBufferIdx < a.mSize ∧
      a.mSize ≤ capOf B a.mBufferCount)
  holds : Holds B a.mBuffersPtr vs

/-- A well-formed array: the table has its `MaxBufferCount` entries, each allocated buffer
`j` has `2 ^ (B + j)` slots, and the size is at most the cumulative capacity of the
allocated buffers. -/
structure WellFormed {T : Type} (B : Nat) (a : DynamicArray T) : Prop where
  tbl_len : a.mBuffersPtr.length = MaxBufferCount B
  bufs : BufsOk B a.mBuffersPtr a.mBufferCount
  size_le : a.mSize ≤ capOf B a.mBufferCount

/-- Every cell with logical index below `n` holds in the table `dst` what it holds in the
table `src`. -/
def CopiedUpTo {T : Type} (B : Nat) (dst src : List (Option (Buffer T))) (n : Nat) : Prop :=
  ∀ j o, o < 2 ^ (B + j) → capOf B j + o < n →
    ∃ b s, dst[j]? = some (some b) ∧ src[j]? = some (some s) ∧ b.cells[o]? = s.cells[o]?

/-- A well-formed array for the worked examples: base exponent 2, six elements 0..5 in
two buffers of 4 and 8 slots. -/
def sixElems : DynamicArray Nat :=
  { mSize := 6, mBufferCount := 2, mLastBufferIdx := 1,
    mBuffersPtr := some { addr := 1, cells := [0, 1, 2, 3] } ::
      some { addr := 2, cells := [4, 5, 0, 0, 0, 0, 0, 0] } :: List.replicate 60 none }

/-- A second well-formed array for the worked examples: base exponent 2, one element 9 in
one buffer of 4 slots. -/
def oneElem : DynamicArray Nat :=
  { mSize := 1, mBufferCount := 1, mLastBufferIdx := 0,
    mBuffersPtr := some { addr := 7, cells := [9, 0, 0, 0] } :: List.replicate 61 none }

/-! ## `MetaNode` (src/cc/meta/MetaNode.h)

`MetaNodeFlagBits` is `uint8_t`, a natural number below 256. In `flagbits |= bit` and
`flagbits &= ~bit` both operands are promoted to `int`, and the result is converted back to
`uint8_t`; `~bit` on the promoted value has, in 32-bit two's complement, the bits of
`2 ^ 32 - 1 - bit`. `MetaType` is declared in `kfstypes.h`; `metaType()` is the stored
`nodetype` byte. -/

/-- The constant `META_ROOT`: root node. -/
def META_ROOT : Nat := 4

/-- The constant `META_LEVEL1`: children are leaves. -/
def META_LEVEL1 : Nat := 8

/-- The data members of `MetaNode` (the two padding bytes are constant zero). -/
structure MetaNode where
  nodetype : Nat
  flagbits : Nat
  count : Int
deriving DecidableEq, Repr

namespace MetaNode

/-- The constructor `MetaNode(MetaType t)`. -/
def mk1 (t : Nat) : MetaNode := { nodetype := t, flagbits := 0, count := 0 }

/-- The constructor `MetaNode(MetaType t, MetaNodeFlagBits f)`. -/
def mk2 (t f : Nat) : MetaNode := { nodetype := t, flagbits := f, count := 0 }

/-- The member `metaType()`. -/
def metaType (n : MetaNode) : Nat := n.nodetype

/-- The member `flags()`. -/
def flags (n : MetaNode) : Nat := n.flagbits

/-- The member `setflag(bit)`: `flagbits |= bit`. -/
def setflag (n : MetaNode) (bit : Nat) : MetaNode :=
  { n with flagbits := (n.flagbits ||| bit) % 256 }

/-- The member `clearflag(bit)`: `flagbits &= ~bit`. -/
def clearflag (n : MetaNode) (bit : Nat) : MetaNode :=
  { n with flagbits := (n.flagbits &&& (4294967295 - bit)) % 256 }

/-- The member `testflag(bit)`: `(flagbits & bit) != 0`. -/
def testflag (n : MetaNode) (bit : Nat) : Bool := (n.flagbits &&& bit) != 0

end MetaNode

/-! ## `DynamicArray::IteratorT` -/

/-- The data members of `IteratorT` other than the reference `mArray`. `mBufPtr` points
into the member array `mBuffersPtr` of the array and is kept as the index of the entry it
points to. -/
structure IteratorT where
  mIdx : Nat
  mBufIdx : Nat
  mBufSize : Nat
  mBufPtr : Nat
deriving DecidableEq, Repr

namespace IteratorT

/-- The constructor `IteratorT(inArray)`: `mIdx(0)`, `mBufIdx(0)`,
`mBufSize(FirstBufSize())`, `mBufPtr(inArray.mBuffersPtr)`. -/
def create {T : Type} (Log2FirstBufferSize : Nat) : Outcome T IteratorT := do
  let theBufSize ← FirstBufSize Log2FirstBufferSize
  pure { mIdx := 0, mBufIdx := 0, mBufSize := theBufSize, mBufPtr := 0 }

/-- The member `Next()` on an iterator over `inArray`: the iterator after the call and
the pointer returned, `none` for the null pointer, else the slot `*mBufPtr + mBufIdx`
with the value it holds. -/
def Next {T : Type} (inArray : DynamicArray T) (it : IteratorT) :
    Outcome T (IteratorT × Option (ElemRef T)) :=
  if it.mIdx ≥ inArray.mSize then .ok (it, none)
  else
    let it1 :=
      if it.mBufIdx ≥ it.mBufSize then
        { it with mBufSize := wadd it.mBufSize it.mBufSize, mBufIdx := 0,
                  mBufPtr := it.mBufPtr + 1 }
      else it
    do
      let p ← ptrAt inArray.mBuffersPtr it1.mBufPtr
      let r ← deref p it1.mBufIdx
      pure ({ it1 with mIdx := wadd it1.mIdx 1, mBufIdx := wadd it1.mBufIdx 1 }, some r)

/-- The member `HasNext()`: `mIdx < mArray.mSize`. -/
def HasNext {T : Type} (inArray : DynamicArray T) (it : IteratorT) : Bool :=
  decide (it.mIdx < inArray.mSize)

/-- Calling `Next()` a number of times, whatever it returns. -/
def nextTimes {T : Type} (inArray : DynamicArray T) : Nat → IteratorT → Outcome T IteratorT
  | 0, it => .ok it
  | k + 1, it => do
    let (it1, _) ← Next inArray it
    nextTimes inArray k it1

end IteratorT

/-- The state of an iterator over an array of `n` elements after `m` calls of `Next()`. -/
structure IterInv (B n m : Nat) (it : IteratorT) : Prop where
  idx_eq : it.mIdx = min m n
  size_eq : it.mBufSize = 2 ^ (B + it.mBufPtr)
  pos_eq : capOf B it.mBufPtr + it.mBufIdx = min m n
  off_le : it.mBufIdx ≤ 2 ^ (B + it.mBufPtr)

/-- A free store with nothing left to hand out, for the worked examples. -/
def heapEmpty : Heap := { next := 2, avail := 0 }

/-- An array for the worked examples: base exponent 2, four elements 0..3 filling the one
buffer of 4 slots. -/
def fullFirst : DynamicArray Nat :=
  { mSize := 4, mBufferCount := 1, mLastBufferIdx := 0,
    mBuffersPtr := some { addr := 1, cells := [0, 1, 2, 3] } :: List.replicate 61 none }

/-- The array `fullFirst` with `mLastBufferIdx` one higher. -/
def fullFirstStepped : DynamicArray Nat := { fullFirst with mLastBufferIdx := 1 }

/-- The number of buffers that cover `s` elements: none for `s = 0`, otherwise one more
than the closed-form index of the buffer holding element `s - 1`. -/
def buffersNeeded (B s : Nat) : Nat := if s = 0 then 0 else 1 + bufIdxOf B (s - 1)

/-- The table entries `0 .. c-1` are live buffers and buffer `j` has at most `2 ^ (B + j)`
cells. -/
def BufsWithin {T : Type} (B : Nat) (tbl : List (Option (Buffer T))) (c : Nat) : Prop :=
  ∀ j, j < c → ∃ b, tbl[j]? = some (some b) ∧ b.cells.length ≤ 2 ^ (B + j)

/-- What every member function that returns keeps true of the object: the table has its
`MaxBufferCount` entries, the first `mBufferCount` of them are live buffers no longer than
their nominal size, the size is at most the nominal cumulative capacity of that many
buffers, and `mLastBufferIdx` is at most `mBufferCount`. -/
structure ArrayInv {T : Type} (B : Nat) (a : DynamicArray T) : Prop where
  tbl_len : a.mBuffersPtr.length = MaxBufferCount B
  bufs : BufsWithin B a.mBuffersPtr a.mBufferCount
  size_le : a.mSize ≤ capOf B a.mBufferCount
  last_le : a.mLastBufferIdx ≤ a.mBufferCount

/-- The array states reachable by the public operations: the default constructor gives
the empty array; from reachable states, every call of a public member function that
returns normally (with any free store, any argument) gives a reachable state: the copy
constructor (whose table starts as whatever the storage held), `operator=`, `Clear`,
`Swap` (both objects), `PushBack`, `PopBack`, `RemoveBack` and `Resize`. A `PushBack` or
an `operator=` that ends in `std::bad_alloc` leaves the object, as it is at the throw, in
a reachable state too. The state a throwing `Resize` leaves is not among them. -/
inductive Reachable {T : Type} [Inhabited T] (B : Nat) : DynamicArray T → Prop where
  | ctor : Reachable B (empty T B)
  | copyCtor {h h1 : Heap} {theRaw : List (Option (Buffer T))} {src a1 : DynamicArray T} :
      theRaw.length = MaxBufferCount B → Reachable B src →
      copyConstruct B h theRaw src = .ok (h1, a1) → Reachable B a1
  | assigned {h h1 : Heap} {a src a1 : DynamicArray T} :
      Reachable B a → Reachable B src → assign B h a src = .ok (h1, a1) → Reachable B a1
  | assignThrew {h h1 : Heap} {a src st : DynamicArray T} :
      Reachable B a → Reachable B src → assign B h a src = .badAlloc h1 st → Reachable B st
  | cleared {h h1 : Heap} {a a1 : DynamicArray T} :
      Reachable B a → Clear h a = .ok (h1, a1) → Reachable B a1
  | swapThis {a b a1 b1 : DynamicArray T} :
      Reachable B a → Reachable B b → Swap B a b = .ok (a1, b1) → Reachable B a1
  | swapOther {a b a1 b1 : DynamicArray T} :
      Reachable B a → Reachable B b → Swap B a b = .ok (a1, b1) → Reachable B b1
  | pushed {h h1 : Heap} {a a1 : DynamicArray T} {v : T} {r : ElemRef T} :
      Reachable B a → PushBack B h a v = .ok (h1, a1, r) → Reachable B a1
  | pushThrew {h h1 : Heap} {a st : DynamicArray T} {v : T} :
      Reachable B a → PushBack B h a v = .badAlloc h1 st → Reachable B st
  | popped {h h1 : Heap} {a a1 : DynamicArray T} {n : Nat} :
      Reachable B a → PopBack B h a = .ok (h1, a1, n) → Reachable B a1
  | removed {h h1 : Heap} {a a1 : DynamicArray T} {c n : Nat} :
      Reachable B a → RemoveBack B h a c = .ok (h1, a1, n) → Reachable B a1
  | resized {h h1 : Heap} {a a1 : DynamicArray T} {n : Nat} :
      Reachable B a → Resize B h a n = .ok (h1, a1) → Reachable B a1

/-- The array after `PushBack` of 0..9 on an empty array with base exponent 2: ten
elements, buffers of 4 and 8 slots at the addresses 1 and 2. -/
def tenElems : DynamicArray Nat :=
  { mSize := 10, mBufferCount := 2, mLastBufferIdx := 1,
    mBuffersPtr := some { addr := 1, cells := [0, 1, 2, 3] } ::
      some { addr := 2, cells := [4, 5, 6, 7, 8, 9, 0, 0] } :: List.replicate 60 none }

/-- The array `tenElems` after `RemoveBack(7)`: three elements, both buffers kept. -/
def tenElemsCut : DynamicArray Nat := { tenElems with mSize := 3, mLastBufferIdx := 0 }

/-- The array after `PushBack` of 0..4 on an empty array with base exponent 2: five
elements, buffers of 4 and 8 slots at the addresses 1 and 2. -/
def fiveElems : DynamicArray Nat :=
  { mSize := 5, mBufferCount := 2, mLastBufferIdx := 1,
    mBuffersPtr := some { addr := 1, cells := [0, 1, 2, 3] } ::
      some { addr := 2, cells := [4, 0, 0, 0, 0, 0, 0, 0] } :: List.replicate 60 none }

/-- The empty array with base exponent 2 after a `Resize` that threw at its first
allocation: `mLastBufferIdx` is 1, nothing else has changed. -/
def emptyStepped : DynamicArray Nat := { empty Nat 2 with mLastBufferIdx := 1 }

/-- The array `emptyStepped` with size 3: no buffer, three elements. -/
def threeNoBuffer : DynamicArray Nat := { emptyStepped with mSize := 3 }

/-- The free store after the ten `PushBack` calls that give `tenElems` from `heap0`. -/
def heapAfterTen : Heap := { next := 3, avail := 988 }

/-- The array `tenElems` after `PushBack(7)`: the value sits at offset 6 of buffer 1. -/
def elevenElems : DynamicArray Nat :=
  { mSize := 11, mBufferCount := 2, mLastBufferIdx := 1,
    mBuffersPtr := some { addr := 1, cells := [0, 1, 2, 3] } ::
      some { addr := 2, cells := [4, 5, 6, 7, 8, 9, 7, 0] } :: List.replicate 60 none }

/-- The array `tenElems` after `Resize(13)` with the free store `heapAfterTen`: one more
buffer, at the address 3. -/
def tenElemsGrown : DynamicArray Nat :=
  { mSize := 13, mBufferCount := 3, mLastBufferIdx := 2,
    mBuffersPtr := some { addr := 1, cells := [0, 1, 2, 3] } ::
      some { addr := 2, cells := [4, 5, 6, 7, 8, 9, 0, 0] } ::
      some { addr := 3, cells := [0, 0, 0, 0, 0, 0, 0, 0] } :: List.replicate 59 none }

/-! ## Arithmetic of `size_t` -/

theorem wsub_of_le {a b : Nat} (hb : b ≤ a) (ha : a < sizeMod) : wsub a b = a - b := by
  simp only [wsub, sizeMod] at *; omega

theorem wadd_of_lt {a b : Nat} (h : a + b < sizeMod) : wadd a b = a + b := by
  simp only [wadd, sizeMod] at *; omega

theorem pow_lt_sizeMod {k : Nat} (h : k < 64) : 2 ^ k < sizeMod := by
  have : (2:Nat) ^ k < 2 ^ 64 := Nat.pow_lt_pow_right (by norm_num) h
  simpa [sizeMod] using this

theorem lt_64_of_pow_lt {k : Nat} (h : 2 ^ k < sizeMod) : k < 64 := by
  by_contra hc
  have : (2:Nat) ^ 64 ≤ 2 ^ k := Nat.pow_le_pow_right (by norm_num) (by omega)
  simp only [sizeMod] at h
  omega

theorem indexLoop_run (B : Nat) :
    ∀ (fuel j idx : Nat), 2 ^ (B + j) + idx < sizeMod → 64 ≤ fuel + (B + j) →
      ∃ b, j ≤ b ∧ 2 ^ (B + b) ≤ 2 ^ (B + j) + idx ∧ 2 ^ (B + j) + idx < 2 ^ (B + b + 1) ∧
        indexLoop fuel idx (2 ^ (B + j)) j = some (b, 2 ^ (B + j) + idx - 2 ^ (B + b)) := by
  intro fuel
  induction fuel with
  | zero =>
    intro j idx hlt hfuel
    have h1 : (2:Nat) ^ 64 ≤ 2 ^ (B + j) := Nat.pow_le_pow_right (by norm_num) (by omega)
    simp only [sizeMod] at hlt
    omega
  | succ fuel ih =>
    intro j idx hlt hfuel
    have hpow : (2:Nat) ^ (B + j + 1) = 2 * 2 ^ (B + j) := by rw [pow_succ]; ring
    by_cases hge : idx ≥ 2 ^ (B + j)
    · have hj1 : B + (j + 1) < 64 := by
        apply lt_64_of_pow_lt
        rw [← Nat.add_assoc, hpow]; omega
      have e1 : wsub idx (2 ^ (B + j)) = idx - 2 ^ (B + j) := wsub_of_le hge (by omega)
      have e2 : wadd (2 ^ (B + j)) (2 ^ (B + j)) = 2 ^ (B + (j + 1)) := by
        rw [wadd_of_lt (by omega), ← Nat.add_assoc, hpow]; ring
      have e3 : wadd j 1 = j + 1 := wadd_of_lt (by simp only [sizeMod]; omega)
      obtain ⟨b, hb1, hb2, hb3, hb4⟩ := ih (j + 1) (idx - 2 ^ (B + j))
        (by rw [← Nat.add_assoc, hpow]; omega) (by omega)
      refine ⟨b, by omega, ?_, ?_, ?_⟩
      · rw [← Nat.add_assoc, hpow] at hb2; omega
      · rw [← Nat.add_assoc, hpow] at hb3; omega
      · rw [indexLoop, if_pos hge, e1, e2, e3, hb4]
        rw [← Nat.add_assoc, hpow]
        congr 2; omega
    · refine ⟨j, le_refl _, by omega, by omega, ?_⟩
      rw [indexLoop, if_neg hge]
      congr 2; omega

theorem bufIdxOf_eq {B k b : Nat} (h1 : 2 ^ (B + b) ≤ 2 ^ B + k) (h2 : 2 ^ B + k < 2 ^ (B + b + 1)) :
    bufIdxOf B k = b := by
  unfold bufIdxOf
  have hpos : 0 < 2 ^ B := Nat.two_pow_pos B
  have hq : k / 2 ^ B + 1 = (k + 2 ^ B) / 2 ^ B := (Nat.add_div_right k hpos).symm
  have hne : k / 2 ^ B + 1 ≠ 0 := Nat.succ_ne_zero _
  rw [Nat.log_eq_iff (Or.inr ⟨by norm_num, hne⟩), hq]
  constructor
  · rw [Nat.le_div_iff_mul_le hpos, ← pow_add, Nat.add_comm b B]; omega
  · rw [Nat.div_lt_iff_lt_mul hpos, ← pow_add]
    have : b + 1 + B = B + b + 1 := by omega
    rw [this]; omega

@[simp] theorem bind_ok {T α β : Type} (a : α) (f : α → Outcome T β) :
    (Outcome.ok a >>= f) = f a := rfl

@[simp] theorem pure_eq_ok {T α : Type} (a : α) : (pure a : Outcome T α) = Outcome.ok a := rfl

theorem shl1_of_lt {T : Type} {k : Nat} (h : k < 64) : (shl1 k : Outcome T Nat) = .ok (2 ^ k) := by
  simp [shl1, h]

theorem FirstBufSize_of_lt {T : Type} {B : Nat} (h : B < 64) :
    (FirstBufSize B : Outcome T Nat) = .ok (2 ^ B) := by
  have : wadd B 0 = B := wadd_of_lt (by simp only [sizeMod]; omega)
  simp [FirstBufSize, BufSize, this, shl1_of_lt h]

theorem locate_eq {T : Type} {B k : Nat} (hk : 2 ^ B + k < sizeMod) :
    (locate B k : Outcome T (Nat × Nat)) = .ok (bufIdxOf B k, k - capOf B (bufIdxOf B k)) ∧
      capOf B (bufIdxOf B k) ≤ k ∧ k - capOf B (bufIdxOf B k) < 2 ^ (B + bufIdxOf B k) := by
  have hB : B < 64 := lt_64_of_pow_lt (by omega)
  obtain ⟨b, -, hb2, hb3, hb4⟩ := indexLoop_run B 65 0 k (by simpa using hk) (by omega)
  simp only [Nat.add_zero] at hb2 hb3 hb4
  have hidx : bufIdxOf B k = b := bufIdxOf_eq hb2 hb3
  have hpow : (2:Nat) ^ (B + b + 1) = 2 * 2 ^ (B + b) := by rw [pow_succ]; ring
  have hpos : 0 < 2 ^ B := Nat.two_pow_pos B
  have hle : 2 ^ B ≤ 2 ^ (B + b) := Nat.pow_le_pow_right (by norm_num) (by omega)
  refine ⟨?_, ?_, ?_⟩
  · simp only [locate, FirstBufSize_of_lt hB, bind_ok, hb4, hidx, capOf, pure_eq_ok]
    congr 2; omega
  · rw [hidx, capOf]; omega
  · rw [hidx, capOf]; omega

/-- Claim C7: for every base exponent `B` and every index `k < 2 ^ 64 - 2 ^ B` the
decomposition loop of `operator[]` terminates with buffer index
`floor (log2 (k / 2 ^ B + 1))` and offset `k - (2 ^ (B + b) - 2 ^ B)`, and that offset is
smaller than the buffer size `2 ^ (B + b)`. -/
theorem index_decomposition_closed_form {T : Type} (B k : Nat) (hk : k < 2 ^ 64 - 2 ^ B) :
    (locate B k : Outcome T (Nat × Nat)) =
        .ok (Nat.log 2 (k / 2 ^ B + 1),
             k - (2 ^ (B + Nat.log 2 (k / 2 ^ B + 1)) - 2 ^ B)) ∧
      k - (2 ^ (B + Nat.log 2 (k / 2 ^ B + 1)) - 2 ^ B) <
        2 ^ (B + Nat.log 2 (k / 2 ^ B + 1)) := by
  have h := @locate_eq T B k (by simp only [sizeMod]; omega)
  exact ⟨h.1, h.2.2⟩

theorem index_decomposition_closed_form_witness :
    (locate 7 1000 : Outcome Nat (Nat × Nat)) =
        .ok (Nat.log 2 (1000 / 2 ^ 7 + 1),
             1000 - (2 ^ (7 + Nat.log 2 (1000 / 2 ^ 7 + 1)) - 2 ^ 7)) ∧
      1000 - (2 ^ (7 + Nat.log 2 (1000 / 2 ^ 7 + 1)) - 2 ^ 7) <
        2 ^ (7 + Nat.log 2 (1000 / 2 ^ 7 + 1)) :=
  index_decomposition_closed_form 7 1000 (by norm_num)

/-! ## Swap -/

theorem ptrAt_of_lt {T : Type} {tbl : List (Option (Buffer T))} {i : Nat} (h : i < tbl.length) :
    ptrAt tbl i = .ok tbl[i] := by
  simp [ptrAt, List.getElem?_eq_getElem h]

theorem SwapLoop_run {T : Type} :
    ∀ (n i : Nat) (ta tb : List (Option (Buffer T))), i + n ≤ ta.length → i + n ≤ tb.length →
      ∃ ra rb, SwapLoop n i ta tb = .ok (ra, rb) ∧ ra.length = ta.length ∧
        rb.length = tb.length ∧
        ∀ k, ra[k]? = (if i ≤ k ∧ k < i + n then tb[k]? else ta[k]?) ∧
             rb[k]? = (if i ≤ k ∧ k < i + n then ta[k]? else tb[k]?) := by
  intro n
  induction n with
  | zero =>
    intro i ta tb _ _
    refine ⟨ta, tb, rfl, rfl, rfl, fun k => ?_⟩
    have : ¬ (i ≤ k ∧ k < i + 0) := by omega
    rw [if_neg this, if_neg this]
    exact ⟨rfl, rfl⟩
  | succ n ih =>
    intro i ta tb ha hb
    have hia : i < ta.length := by omega
    have hib : i < tb.length := by omega
    obtain ⟨ra, rb, hrun, hla, hlb, hk⟩ := ih (i + 1) (ta.set i tb[i]) (tb.set i ta[i])
      (by simp; omega) (by simp; omega)
    refine ⟨ra, rb, ?_, by simpa using hla, by simpa using hlb, fun k => ?_⟩
    · simp only [SwapLoop, ptrAt_of_lt hia, ptrAt_of_lt hib, bind_ok, hrun]
    · obtain ⟨h1, h2⟩ := hk k
      rw [h1, h2]
      by_cases hki : k = i
      · subst hki
        have c1 : ¬ (k + 1 ≤ k ∧ k < k + 1 + n) := by omega
        have c2 : k ≤ k ∧ k < k + (n + 1) := by omega
        simp [c1, c2, List.getElem?_set, hia, hib, List.getElem?_eq_getElem]
      · by_cases hc : i ≤ k ∧ k < i + (n + 1)
        · have c1 : i + 1 ≤ k ∧ k < i + 1 + n := by omega
          have hne : ¬ i = k := fun e => hki e.symm
          simp [c1, hc, List.getElem?_set, hne]
        · have c1 : ¬ (i + 1 ≤ k ∧ k < i + 1 + n) := by omega
          have hne : ¬ i = k := fun e => hki e.symm
          simp [c1, hc, List.getElem?_set, hne]

theorem Swap_eq {T : Type} (B : Nat) (a b : DynamicArray T)
    (ha : a.mBuffersPtr.length = MaxBufferCount B)
    (hb : b.mBuffersPtr.length = MaxBufferCount B) : Swap B a b = .ok (b, a) := by
  obtain ⟨ra, rb, hrun, hla, hlb, hk⟩ := SwapLoop_run (MaxBufferCount B) 0 a.mBuffersPtr
    b.mBuffersPtr (by omega) (by omega)
  have e1 : ra = b.mBuffersPtr := by
    apply List.ext_getElem?
    intro k
    rw [(hk k).1]
    by_cases hc : 0 ≤ k ∧ k < 0 + MaxBufferCount B
    · rw [if_pos hc]
    · have h1 : a.mBuffersPtr.length ≤ k := by omega
      have h2 : b.mBuffersPtr.length ≤ k := by omega
      rw [if_neg hc, List.getElem?_eq_none h1, List.getElem?_eq_none h2]
  have e2 : rb = a.mBuffersPtr := by
    apply List.ext_getElem?
    intro k
    rw [(hk k).2]
    by_cases hc : 0 ≤ k ∧ k < 0 + MaxBufferCount B
    · rw [if_pos hc]
    · have h1 : a.mBuffersPtr.length ≤ k := by omega
      have h2 : b.mBuffersPtr.length ≤ k := by omega
      rw [if_neg hc, List.getElem?_eq_none h1, List.getElem?_eq_none h2]
  simp only [Swap, hrun, bind_ok, e1, e2, pure_eq_ok]

/-- Claim C9: for all arrays `A` and `B` (objects of the class, so with a pointer table of
`MaxBufferCount` entries), `A.Swap(B)` leaves `A` with the former size, buffer count,
last-buffer index and buffer table of `B` and `B` with those of `A`, and `A.Swap(B)`
followed by `B.Swap(A)` restores both arrays to exactly their original state. -/
theorem Swap_exchanges_and_is_involutive {T : Type} (B : Nat) (a b : DynamicArray T)
    (ha : a.mBuffersPtr.length = MaxBufferCount B)
    (hb : b.mBuffersPtr.length = MaxBufferCount B) :
    (∃ a1 b1, Swap B a b = .ok (a1, b1) ∧
        a1.mSize = b.mSize ∧ a1.mBufferCount = b.mBufferCount ∧
        a1.mLastBufferIdx = b.mLastBufferIdx ∧ a1.mBuffersPtr = b.mBuffersPtr ∧
        b1.mSize = a.mSize ∧ b1.mBufferCount = a.mBufferCount ∧
        b1.mLastBufferIdx = a.mLastBufferIdx ∧ b1.mBuffersPtr = a.mBuffersPtr) ∧
      (do let (a1, b1) ← Swap B a b
          let (b2, a2) ← Swap B b1 a1
          pure (a2, b2)) = Outcome.ok (a, b) := by
  constructor
  · exact ⟨b, a, Swap_eq B a b ha hb, rfl, rfl, rfl, rfl, rfl, rfl, rfl, rfl⟩
  · simp only [Swap_eq B a b ha hb, bind_ok, Swap_eq B b a hb ha, pure_eq_ok]

theorem Swap_exchanges_and_is_involutive_witness :
    (∃ a1 b1, Swap 2 sixElems oneElem = .ok (a1, b1) ∧
        a1.mSize = oneElem.mSize ∧ a1.mBufferCount = oneElem.mBufferCount ∧
        a1.mLastBufferIdx = oneElem.mLastBufferIdx ∧ a1.mBuffersPtr = oneElem.mBuffersPtr ∧
        b1.mSize = sixElems.mSize ∧ b1.mBufferCount = sixElems.mBufferCount ∧
        b1.mLastBufferIdx = sixElems.mLastBufferIdx ∧
        b1.mBuffersPtr = sixElems.mBuffersPtr) ∧
      (do let (a1, b1) ← Swap 2 sixElems oneElem
          let (b2, a2) ← Swap 2 b1 a1
          pure (a2, b2)) = Outcome.ok (sixElems, oneElem) :=
  Swap_exchanges_and_is_involutive 2 sixElems oneElem (by decide) (by decide)

/-! ## PopBack -/

/-- Claim C10: on every array state with size 0, whatever its buffer count, last-buffer
index and buffers, `PopBack()` returns 0 and leaves the heap and the whole object (size,
buffer count, last-buffer index, every buffer) unchanged. -/
theorem PopBack_empty_noop {T : Type} (B : Nat) (h : Heap) (a : DynamicArray T)
    (h0 : a.mSize = 0) : PopBack B h a = .ok (h, a, 0) := by
  simp [PopBack, h0]

theorem PopBack_empty_noop_witness :
    PopBack 2 heap0 { empty Nat 2 with mBufferCount := 5, mLastBufferIdx := 9 } =
      .ok (heap0, { empty Nat 2 with mBufferCount := 5, mLastBufferIdx := 9 }, 0) :=
  PopBack_empty_noop 2 heap0 { empty Nat 2 with mBufferCount := 5, mLastBufferIdx := 9 } rfl

/-! ## Runs of the code that leave `mLastBufferIdx` or a buffer size wrong

`PushBack`, `PopBack`, `Back` and `operator=` keep `mLastBufferIdx` on the buffer that holds
the last element. Two members do not:

* the growing loop of `Resize` runs `++mLastBufferIdx` before the first buffer exists, so on
  an array without buffers it ends with `mLastBufferIdx = mBufferCount`; on an array with
  buffers it allocates each new buffer with the size of the one before it;
* `RemoveBack` sets `mLastBufferIdx` to the buffer of the logical index `mSize`, which is
  one buffer too far when the new size is exactly a cumulative capacity.

The runs below evaluate the members on such states. -/

/-- Claim C2, which the code breaks: base exponent 2, `Resize(1)` on a fresh array
allocates buffer 0 but leaves `mLastBufferIdx = 1`; the following `PushBack(7)` allocates
buffer 1 and stores through `mBuffersPtr[1] + (1 - Capacity(1))`, offset `2 ^ 64 - 3` of an
8-slot buffer: undefined behaviour, where the claim has size 2 and `operator[](1) = 7`. -/
theorem PushBack_after_Resize_out_of_bounds :
    Resize 2 heap0 (empty Nat 2) 1 =
        .ok ({ next := 2, avail := 996 },
             { mSize := 1, mBufferCount := 1, mLastBufferIdx := 1,
               mBuffersPtr := some { addr := 1, cells := [0, 0, 0, 0] } ::
                 List.replicate 61 none }) ∧
      (Capacity 2 1 : Outcome Nat Nat) = .ok 4 ∧ wsub 1 4 = 18446744073709551613 ∧
      PushBack 2 { next := 2, avail := 996 }
          { mSize := 1, mBufferCount := 1, mLastBufferIdx := 1,
            mBuffersPtr := some { addr := 1, cells := [0, 0, 0, 0] } ::
              List.replicate 61 none } 7 = .undefined := by
  decide

/-- Claim C3, which the code breaks: base exponent 2, after `PushBack(0)` the call
`Resize(9)` allocates buffers 1 and 2 with 4 and 8 slots (not 8 and 16) and sets the size
to 9; `operator[](8)` computes buffer 1, offset 4, outside that 4-slot buffer. -/
theorem Resize_leaves_index_unaddressable :
    (do let (h1, a1, _) ← PushBack 2 heap0 (empty Nat 2) 0
        Resize 2 h1 a1 9) =
        .ok ({ next := 4, avail := 984 },
             { mSize := 9, mBufferCount := 3, mLastBufferIdx := 2,
               mBuffersPtr := some { addr := 1, cells := [0, 0, 0, 0] } ::
                 some { addr := 2, cells := [0, 0, 0, 0] } ::
                 some { addr := 3, cells := [0, 0, 0, 0, 0, 0, 0, 0] } ::
                 List.replicate 59 none }) ∧
      (locate 2 8 : Outcome Nat (Nat × Nat)) = .ok (1, 4) ∧
      index 2 { mSize := 9, mBufferCount := 3, mLastBufferIdx := 2,
                mBuffersPtr := some { addr := 1, cells := [0, 0, 0, 0] } ::
                  some { addr := 2, cells := [0, 0, 0, 0] } ::
                  some { addr := 3, cells := [0, 0, 0, 0, 0, 0, 0, 0] } ::
                  List.replicate 59 none } 8 = (.undefined : Outcome Nat (ElemRef Nat)) := by
  decide

/-- Claim C4, which the code breaks: base exponent 2, after `PushBack(0)` the call
`Resize(5)` allocates buffer 1 with `BufSize(0) = 4` slots instead of `2 ^ (2 + 1) = 8`. -/
theorem Resize_allocates_wrong_buffer_size :
    (do let (h1, a1, _) ← PushBack 2 heap0 (empty Nat 2) 0
        Resize 2 h1 a1 5) =
        .ok ({ next := 3, avail := 992 },
             { mSize := 5, mBufferCount := 2, mLastBufferIdx := 1,
               mBuffersPtr := some { addr := 1, cells := [0, 0, 0, 0] } ::
                 some { addr := 2, cells := [0, 0, 0, 0] } ::
                 List.replicate 60 none }) ∧
      [(0 : Nat), 0, 0, 0].length ≠ 2 ^ (2 + 1) := by
  decide

/-- Claim C5, which the code breaks: base exponent 2, after `PushBack` of 0..4 the call
`RemoveBack(1)` leaves size 4 with `mLastBufferIdx = 1`; `Back()` then forms
`mBuffersPtr[1] + (4 - 1 - Capacity(1))`, offset `2 ^ 64 - 1` of buffer 1: undefined
behaviour, while `operator[](3)` is offset 3 of buffer 0 and holds 3. After `Resize(1)` on
a fresh array `Back()` dereferences the null entry `mBuffersPtr[1]`. -/
theorem Back_after_RemoveBack_out_of_bounds :
    (do let (h1, a1) ← pushAll 2 heap0 (empty Nat 2) [0, 1, 2, 3, 4]
        let (h2, a2, _) ← RemoveBack 2 h1 a1 1
        pure (h2, a2)) =
        .ok ({ next := 3, avail := 988 },
             { mSize := 4, mBufferCount := 2, mLastBufferIdx := 1,
               mBuffersPtr := some { addr := 1, cells := [0, 1, 2, 3] } ::
                 some { addr := 2, cells := [4, 0, 0, 0, 0, 0, 0, 0] } ::
                 List.replicate 60 none }) ∧
      wsub (wsub 4 1) 4 = 18446744073709551615 ∧
      Back 2 { mSize := 4, mBufferCount := 2, mLastBufferIdx := 1,
               mBuffersPtr := some { addr := 1, cells := [0, 1, 2, 3] } ::
                 some { addr := 2, cells := [4, 0, 0, 0, 0, 0, 0, 0] } ::
                 List.replicate 60 none } = (.undefined : Outcome Nat (ElemRef Nat)) ∧
      index 2 { mSize := 4, mBufferCount := 2, mLastBufferIdx := 1,
                mBuffersPtr := some { addr := 1, cells := [0, 1, 2, 3] } ::
                  some { addr := 2, cells := [4, 0, 0, 0, 0, 0, 0, 0] } ::
                  List.replicate 60 none } 3 =
        (.ok { addr := 1, off := 3, val := 3 } : Outcome Nat (ElemRef Nat)) ∧
      Back 2 { mSize := 1, mBufferCount := 1, mLastBufferIdx := 1,
               mBuffersPtr := some { addr := 1, cells := [0, 0, 0, 0] } ::
                 List.replicate 61 none } = (.undefined : Outcome Nat (ElemRef Nat)) := by
  decide

/-- A state in which `PushBack` has no outcome: base exponent 2, after `PushBack` of 0..4,
`RemoveBack(1)` and `PopBack()` the array has size 3 and `mLastBufferIdx = 1`; the next
`PushBack(7)` allocates and frees nothing and forms `mBuffersPtr[1] + (3 - Capacity(1))`,
offset `2 ^ 64 - 1` of buffer 1, for its store: undefined behaviour, from the index
`RemoveBack` left one buffer too far. -/
theorem PushBack_after_RemoveBack_PopBack_out_of_bounds :
    (do let (h1, a1) ← pushAll 2 heap0 (empty Nat 2) [0, 1, 2, 3, 4]
        let (h2, a2, _) ← RemoveBack 2 h1 a1 1
        let (h3, a3, _) ← PopBack 2 h2 a2
        pure (h3, a3)) =
        .ok ({ next := 3, avail := 988 },
             { mSize := 3, mBufferCount := 2, mLastBufferIdx := 1,
               mBuffersPtr := some { addr := 1, cells := [0, 1, 2, 3] } ::
                 some { addr := 2, cells := [4, 0, 0, 0, 0, 0, 0, 0] } ::
                 List.replicate 60 none }) ∧
      index 2 { mSize := 3, mBufferCount := 2, mLastBufferIdx := 1,
                mBuffersPtr := some { addr := 1, cells := [0, 1, 2, 3] } ::
                  some { addr := 2, cells := [4, 0, 0, 0, 0, 0, 0, 0] } ::
                  List.replicate 60 none } 2 =
        (.ok { addr := 1, off := 2, val := 2 } : Outcome Nat (ElemRef Nat)) ∧
      wsub 3 4 = 18446744073709551615 ∧
      PushBack 2 { next := 3, avail := 988 }
          { mSize := 3, mBufferCount := 2, mLastBufferIdx := 1,
            mBuffersPtr := some { addr := 1, cells := [0, 1, 2, 3] } ::
              some { addr := 2, cells := [4, 0, 0, 0, 0, 0, 0, 0] } ::
              List.replicate 60 none } 7 = .undefined := by
  decide

/-! ## Capacities -/

theorem capOf_zero (B : Nat) : capOf B 0 = 0 := by simp [capOf]

theorem capOf_succ (B j : Nat) : capOf B (j + 1) = capOf B j + 2 ^ (B + j) := by
  have h1 : (2:Nat) ^ (B + (j + 1)) = 2 * 2 ^ (B + j) := by rw [← Nat.add_assoc, pow_succ]; ring
  have h2 : 2 ^ B ≤ 2 ^ (B + j) := Nat.pow_le_pow_right (by norm_num) (by omega)
  simp only [capOf, h1]; omega

theorem capOf_mono (B : Nat) {i j : Nat} (h : i ≤ j) : capOf B i ≤ capOf B j := by
  have h1 : (2:Nat) ^ (B + i) ≤ 2 ^ (B + j) := Nat.pow_le_pow_right (by norm_num) (by omega)
  simp only [capOf]; omega

theorem capOf_lt_of_lt (B : Nat) {i j : Nat} (h : i < j) :
    capOf B i + 2 ^ (B + i) ≤ capOf B j := by
  rw [← capOf_succ]; exact capOf_mono B h

theorem lt_of_capOf_lt (B : Nat) {i j : Nat} (h : capOf B i < capOf B j) : i < j := by
  by_contra hc
  have := capOf_mono B (Nat.le_of_not_lt hc)
  omega

theorem capOf_add_pow (B j : Nat) : capOf B j + 2 ^ B = 2 ^ (B + j) := by
  have h2 : 2 ^ B ≤ 2 ^ (B + j) := Nat.pow_le_pow_right (by norm_num) (by omega)
  simp only [capOf]; omega

theorem capOf_lt_sizeMod {B j : Nat} (h : B + j ≤ 64) : capOf B j + 2 ^ B ≤ sizeMod := by
  rw [capOf_add_pow]
  have : (2:Nat) ^ (B + j) ≤ 2 ^ 64 := Nat.pow_le_pow_right (by norm_num) h
  simpa [sizeMod] using this

theorem capOf_decomp_unique (B : Nat) {j j' o o' : Nat} (ho : o < 2 ^ (B + j))
    (ho' : o' < 2 ^ (B + j')) (h : capOf B j + o = capOf B j' + o') : j = j' ∧ o = o' := by
  have hj : j = j' := by
    rcases Nat.lt_trichotomy j j' with hlt | heq | hgt
    · have := capOf_lt_of_lt B hlt; omega
    · exact heq
    · have := capOf_lt_of_lt B hgt; omega
  subst hj
  exact ⟨rfl, by omega⟩

theorem Capacity_eq {T : Type} {B j : Nat} (h : B + j < 64) :
    (Capacity B j : Outcome T Nat) = .ok (capOf B j) := by
  have e1 : wadd B j = B + j := wadd_of_lt (by simp only [sizeMod]; omega)
  have h2 : 2 ^ B ≤ 2 ^ (B + j) := Nat.pow_le_pow_right (by norm_num) (by omega)
  have e2 : wsub (2 ^ (B + j)) (2 ^ B) = 2 ^ (B + j) - 2 ^ B :=
    wsub_of_le h2 (pow_lt_sizeMod h)
  simp only [Capacity, e1, shl1_of_lt h, shl1_of_lt (show B < 64 by omega), bind_ok,
    pure_eq_ok, e2, capOf]

theorem BufSize_eq {T : Type} {B j : Nat} (h : B + j < 64) :
    (BufSize B j : Outcome T Nat) = .ok (2 ^ (B + j)) := by
  have e1 : wadd B j = B + j := wadd_of_lt (by simp only [sizeMod]; omega)
  simp only [BufSize, e1, shl1_of_lt h]

theorem pow_lt_limit {k : Nat} (h : k ≤ 62) : 2 ^ k < 2 ^ 63 :=
  Nat.pow_lt_pow_right (by norm_num) (by omega)

theorem allocBuffer_ok {T : Type} [Inhabited T] {h : Heap} {a : DynamicArray T} {n : Nat}
    (hn : n ≤ h.avail) (hlim : n < 2 ^ 63) (hidx : a.mBufferCount < a.mBuffersPtr.length)
    (hc : a.mBufferCount + 1 < sizeMod) :
    allocBuffer h a n =
      .ok ({ next := h.next + 1, avail := h.avail - n },
           { a with
             mBuffersPtr := a.mBuffersPtr.set a.mBufferCount
               (some { addr := h.next, cells := List.replicate n default }),
             mBufferCount := a.mBufferCount + 1 }) := by
  have e : wadd a.mBufferCount 1 = a.mBufferCount + 1 := wadd_of_lt hc
  simp only [allocBuffer, newArray, hn, hlim, and_self, if_true, hidx, e]

/-! ## PushBack on an array filled by PushBack -/

theorem PushInv_count_le {T : Type} {B k : Nat} {a : DynamicArray T} {vs : List T}
    (hinv : PushInv B a vs) (hk : vs.length < capOf B k) : a.mBufferCount ≤ k := by
  rcases hinv.last with ⟨h0, -, -⟩ | ⟨h1, h2, -⟩
  · omega
  · have := lt_of_capOf_lt B (show capOf B a.mLastBufferIdx < capOf B k by
      have := hinv.size_eq; omega)
    omega

theorem PushBackGrow_run {T : Type} [Inhabited T] {B k : Nat} {h : Heap} {a : DynamicArray T}
    {vs : List T} (hinv : PushInv B a vs) (hk : vs.length < capOf B k) (hBk : B + k ≤ 63)
    (hmem : capOf B k ≤ h.avail + capOf B a.mBufferCount) :
    ∃ h2 a2, PushBackGrow B h a = .ok (h2, a2) ∧ a2.mSize = a.mSize ∧
      a2.mBuffersPtr.length = MaxBufferCount B ∧ BufsOk B a2.mBuffersPtr a2.mBufferCount ∧
      a2.mLastBufferIdx + 1 = a2.mBufferCount ∧ capOf B a2.mLastBufferIdx ≤ a.mSize ∧
      a.mSize < capOf B a2.mBufferCount ∧ Holds B a2.mBuffersPtr vs ∧
      capOf B k ≤ h2.avail + capOf B a2.mBufferCount ∧ a2.mBufferCount ≤ k := by
  have hcnt := PushInv_count_le hinv hk
  have hsz := hinv.size_eq
  have hlen := hinv.tbl_len
  simp only [MaxBufferCount] at hlen
  rcases hinv.last with ⟨h0, hl0, hs0⟩ | ⟨h1, h2, h3⟩
  · -- no buffer yet
    have hk1 : 1 ≤ k := by
      by_contra hc
      have : k = 0 := by omega
      rw [this, capOf_zero] at hk; omega
    have hcap1 := capOf_mono B hk1
    have hc1 : capOf B 1 = 2 ^ B := by rw [capOf_succ, capOf_zero]; simp
    have hc0 : capOf B a.mBufferCount = 0 := by rw [h0, capOf_zero]
    have hcond : a.mLastBufferIdx ≥ a.mBufferCount := by omega
    have hbs : (BufSize B a.mBufferCount : Outcome T Nat) = .ok (2 ^ B) := by
      rw [h0, BufSize_eq (by omega)]; simp
    have halloc := @allocBuffer_ok T _ h a (2 ^ B) (by omega) (pow_lt_limit (by omega))
      (by omega) (by rw [h0]; simp only [sizeMod]; omega)
    refine ⟨{ next := h.next + 1, avail := h.avail - 2 ^ B },
      { a with
        mBuffersPtr := a.mBuffersPtr.set a.mBufferCount
          (some { addr := h.next, cells := List.replicate (2 ^ B) default }),
        mBufferCount := a.mBufferCount + 1 }, ?_, rfl, ?_, ?_, ?_, ?_, ?_, ?_, ?_, ?_⟩
    · simp only [PushBackGrow, hcond, if_true, pure_eq_ok, bind_ok, hbs, halloc]
    · simp [MaxBufferCount, hlen]
    · intro j hj
      simp only [h0] at hj ⊢
      have : j = 0 := by omega
      subst this
      exact ⟨_, List.getElem?_set_self (by omega), by simp⟩
    · simp only [hl0, h0]
    · simp only [hl0, capOf_zero]; omega
    · simp only [h0, hc1, hs0]; exact Nat.two_pow_pos B
    · intro j o _ hlt
      omega
    · simp only [h0, hc1]; omega
    · simp only [h0]; omega
  · have hcond : ¬ a.mLastBufferIdx ≥ a.mBufferCount := by omega
    have hw : wadd a.mLastBufferIdx 1 = a.mBufferCount := by
      rw [wadd_of_lt (by simp only [sizeMod]; omega), h1]
    have hcapc : (Capacity B a.mBufferCount : Outcome T Nat) = .ok (capOf B a.mBufferCount) :=
      Capacity_eq (by omega)
    by_cases hfull : capOf B a.mBufferCount ≤ a.mSize
    · -- the last buffer is full
      have hck : a.mBufferCount < k := lt_of_capOf_lt B (by omega)
      have hnext := capOf_lt_of_lt B hck
      have hbs : (BufSize B a.mBufferCount : Outcome T Nat) = .ok (2 ^ (B + a.mBufferCount)) :=
        BufSize_eq (by omega)
      have halloc := @allocBuffer_ok T _ h { a with mLastBufferIdx := a.mBufferCount }
        (2 ^ (B + a.mBufferCount)) (by omega) (pow_lt_limit (by omega))
        (by simp only; omega) (by simp only [sizeMod]; omega)
      refine ⟨{ next := h.next + 1, avail := h.avail - 2 ^ (B + a.mBufferCount) },
        { a with
          mLastBufferIdx := a.mBufferCount,
          mBuffersPtr := a.mBuffersPtr.set a.mBufferCount
            (some { addr := h.next, cells := List.replicate (2 ^ (B + a.mBufferCount)) default }),
          mBufferCount := a.mBufferCount + 1 }, ?_, rfl, ?_, ?_, ?_, ?_, ?_, ?_, ?_, ?_⟩
      · simp only [PushBackGrow, hcond, if_false, hw, hcapc, bind_ok, hfull, if_true,
          pure_eq_ok, ge_iff_le, le_refl, decide_True, hbs, halloc]
      · simp [MaxBufferCount, hlen]
      · intro j hj
        simp only at hj ⊢
        by_cases hjc : j = a.mBufferCount
        · subst hjc
          exact ⟨_, List.getElem?_set_self (by omega), by simp⟩
        · obtain ⟨b, hb1, hb2⟩ := hinv.bufs j (by omega)
          refine ⟨b, ?_, hb2⟩
          rw [List.getElem?_set_ne (fun e => hjc e.symm)]; exact hb1
      · rfl
      · simp only; omega
      · simp only; rw [capOf_succ]
        have := Nat.two_pow_pos (B + a.mBufferCount); omega
      · intro j o ho hlt
        have hjc : j < a.mBufferCount := lt_of_capOf_lt B (by omega)
        obtain ⟨b, hb1, hb2⟩ := hinv.holds j o ho hlt
        refine ⟨b, ?_, hb2⟩
        simp only
        rw [List.getElem?_set_ne (by omega)]; exact hb1
      · simp only; rw [capOf_succ]; omega
      · simp only; omega
    · -- room left in the last buffer
      refine ⟨h, a, ?_, rfl, hinv.tbl_len, hinv.bufs, h1, by omega, by omega, hinv.holds,
        hmem, hcnt⟩
      simp only [PushBackGrow, hcond, if_false, hw, hcapc, bind_ok, hfull, pure_eq_ok]
      rfl

theorem store_ok {T : Type} {a : DynamicArray T} {i off : Nat} {b : Buffer T} (v : T)
    (hb : a.mBuffersPtr[i]? = some (some b)) (hoff : off < b.cells.length) :
    store a i off v =
      .ok ({ a with mBuffersPtr :=
               a.mBuffersPtr.set i (some { b with cells := b.cells.set off v }) },
           { addr := b.addr, off := off, val := v }) := by
  simp only [store, ptrAt, hb, bind_ok, hoff, if_true, pure_eq_ok]

theorem PushBack_run {T : Type} [Inhabited T] {B k : Nat} {h : Heap} {a : DynamicArray T}
    {vs : List T} (v : T) (hinv : PushInv B a vs) (hk : vs.length < capOf B k)
    (hBk : B + k ≤ 63) (hmem : capOf B k ≤ h.avail + capOf B a.mBufferCount) :
    ∃ h1 a1 r, PushBack B h a v = .ok (h1, a1, r) ∧ PushInv B a1 (vs ++ [v]) ∧
      capOf B k ≤ h1.avail + capOf B a1.mBufferCount ∧ r.val = v := by
  obtain ⟨h2, a2, hrun, hsz2, hlen2, hbufs2, hlast2, hlo, hhi, hholds2, hmem2, hcnt2⟩ :=
    PushBackGrow_run hinv hk hBk hmem
  have hsz := hinv.size_eq
  have hcapl : (Capacity B a2.mLastBufferIdx : Outcome T Nat) = .ok (capOf B a2.mLastBufferIdx) :=
    Capacity_eq (by omega)
  have hkm := @capOf_lt_sizeMod B k (by omega)
  have hpos := Nat.two_pow_pos B
  have hoffe : wsub a2.mSize (capOf B a2.mLastBufferIdx) = a2.mSize - capOf B a2.mLastBufferIdx :=
    wsub_of_le (by omega) (by omega)
  obtain ⟨b, hb1, hb2⟩ := hbufs2 a2.mLastBufferIdx (by omega)
  have hsucc := capOf_succ B a2.mLastBufferIdx
  rw [hlast2] at hsucc
  have hoff : a2.mSize - capOf B a2.mLastBufferIdx < b.cells.length := by omega
  have hst := store_ok v hb1 hoff
  have hw : wadd a2.mSize 1 = a2.mSize + 1 := wadd_of_lt (by omega)
  have hidx : a2.mLastBufferIdx < a2.mBuffersPtr.length := by
    by_contra hc
    rw [List.getElem?_eq_none (by omega)] at hb1
    exact absurd hb1 (by simp)
  refine ⟨h2, { a2 with
      mBuffersPtr := a2.mBuffersPtr.set a2.mLastBufferIdx
        (some { b with cells := b.cells.set (a2.mSize - capOf B a2.mLastBufferIdx) v }),
      mSize := a2.mSize + 1 },
    { addr := b.addr, off := a2.mSize - capOf B a2.mLastBufferIdx, val := v }, ?_, ?_, hmem2, rfl⟩
  · simp only [PushBack, hrun, bind_ok, hcapl, hoffe, hst, pure_eq_ok, hw]
  · refine ⟨by simpa using hlen2, by simp; omega, ?_, Or.inr ⟨hlast2, by simp only; omega,
      by simp only; omega⟩, ?_⟩
    · intro j hj
      simp only at hj ⊢
      by_cases hjl : j = a2.mLastBufferIdx
      · subst hjl
        exact ⟨_, List.getElem?_set_self hidx, by simpa using hb2⟩
      · obtain ⟨b0, hb01, hb02⟩ := hbufs2 j hj
        refine ⟨b0, ?_, hb02⟩
        rw [List.getElem?_set_ne (fun e => hjl e.symm)]; exact hb01
    · intro j o ho hlt
      simp only [List.length_append, List.length_singleton] at hlt
      simp only
      by_cases hnew : capOf B j + o = a2.mSize
      · have hu := capOf_decomp_unique B ho (show a2.mSize - capOf B a2.mLastBufferIdx <
          2 ^ (B + a2.mLastBufferIdx) by omega) (by omega)
        obtain ⟨hj, ho2⟩ := hu
        subst hj
        refine ⟨_, List.getElem?_set_self hidx, ?_⟩
        simp only
        have e : capOf B a2.mLastBufferIdx + o = vs.length := by omega
        rw [ho2, List.getElem?_set_self hoff, ← ho2, e]
        simp
      · have hlt2 : capOf B j + o < vs.length := by omega
        obtain ⟨b0, hb01, hb02⟩ := hholds2 j o ho hlt2
        rw [List.getElem?_append_left hlt2]
        by_cases hjl : j = a2.mLastBufferIdx
        · subst hjl
          have hbb : b0 = b := by
            rw [hb1] at hb01; simpa using hb01.symm
          subst hbb
          refine ⟨_, List.getElem?_set_self hidx, ?_⟩
          simp only
          rw [List.getElem?_set_ne (by omega)]; exact hb02
        · refine ⟨b0, ?_, hb02⟩
          rw [List.getElem?_set_ne (fun e => hjl e.symm)]; exact hb01

theorem pushAll_run {T : Type} [Inhabited T] {B k : Nat} (hBk : B + k ≤ 63) :
    ∀ (ws : List T) (h : Heap) (a : DynamicArray T) (vs : List T), PushInv B a vs →
      vs.length + ws.length ≤ capOf B k → capOf B k ≤ h.avail + capOf B a.mBufferCount →
      ∃ h1 a1, pushAll B h a ws = .ok (h1, a1) ∧ PushInv B a1 (vs ++ ws) := by
  intro ws
  induction ws with
  | nil =>
    intro h a vs hinv _ _
    exact ⟨h, a, rfl, by simpa using hinv⟩
  | cons w ws ih =>
    intro h a vs hinv hlen hmem
    simp only [List.length_cons] at hlen
    obtain ⟨h1, a1, r, hrun, hinv1, hmem1, -⟩ := PushBack_run w hinv (by omega) hBk hmem
    obtain ⟨h2, a2, hrun2, hinv2⟩ := ih h1 a1 (vs ++ [w]) hinv1
      (by simp only [List.length_append, List.length_singleton]; omega) hmem1
    refine ⟨h2, a2, ?_, by simpa using hinv2⟩
    simp only [pushAll, hrun, bind_ok, hrun2]

theorem PushInv_empty (T : Type) (B : Nat) : PushInv B (empty T B) [] := by
  refine ⟨by simp [empty], rfl, ?_, Or.inl ⟨rfl, rfl, rfl⟩, ?_⟩
  · intro j hj; simp [empty] at hj
  · intro j o _ hlt; simp at hlt

theorem index_of_Holds {T : Type} {B : Nat} {a : DynamicArray T} {vs : List T}
    (hh : Holds B a.mBuffersPtr vs) {i : Nat} (hi : i < vs.length) (hlt : 2 ^ B + i < sizeMod) :
    ∃ r, index B a i = .ok r ∧ r.val = vs[i] ∧ r.off = i - capOf B (bufIdxOf B i) := by
  obtain ⟨hloc, hle, hoff⟩ := @locate_eq T B i hlt
  obtain ⟨b, hb1, hb2⟩ := hh (bufIdxOf B i) (i - capOf B (bufIdxOf B i)) hoff (by omega)
  have e : capOf B (bufIdxOf B i) + (i - capOf B (bufIdxOf B i)) = i := by omega
  rw [e, List.getElem?_eq_getElem hi] at hb2
  refine ⟨{ addr := b.addr, off := i - capOf B (bufIdxOf B i), val := vs[i] }, ?_, rfl, rfl⟩
  simp only [index, hloc, bind_ok, ptrAt, hb1, deref, hb2]

/-- On an array filled by `PushBack` calls alone, one more `PushBack(v)` (with memory for
the `k` buffers that hold one more value) appends logically: the size grows by one, and
the returned reference is the slot `operator[]` addresses at the old size, holding `v`. -/
theorem PushBack_appends_after_pushes {T : Type} [Inhabited T] {B k : Nat} {h : Heap}
    {a : DynamicArray T} {vs : List T} (v : T) (hinv : PushInv B a vs)
    (hk : vs.length < capOf B k) (hBk : B + k ≤ 63)
    (hmem : capOf B k ≤ h.avail + capOf B a.mBufferCount) :
    ∃ h1 a1 r, PushBack B h a v = .ok (h1, a1, r) ∧ GetSize a1 = GetSize a + 1 ∧
      index B a1 (GetSize a) = .ok r ∧ r.val = v := by
  obtain ⟨h2, a2, hrun, hsz2, hlen2, hbufs2, hlast2, hlo, hhi, -, -, hcnt2⟩ :=
    PushBackGrow_run hinv hk hBk hmem
  have hsz := hinv.size_eq
  have hcapl : (Capacity B a2.mLastBufferIdx : Outcome T Nat) = .ok (capOf B a2.mLastBufferIdx) :=
    Capacity_eq (by omega)
  have hkm := @capOf_lt_sizeMod B k (by omega)
  have hpos := Nat.two_pow_pos B
  have hoffe : wsub a2.mSize (capOf B a2.mLastBufferIdx) = a2.mSize - capOf B a2.mLastBufferIdx :=
    wsub_of_le (by omega) (by omega)
  obtain ⟨b, hb1, hb2⟩ := hbufs2 a2.mLastBufferIdx (by omega)
  have hsucc := capOf_succ B a2.mLastBufferIdx
  rw [hlast2] at hsucc
  have hoff : a2.mSize - capOf B a2.mLastBufferIdx < b.cells.length := by omega
  have hst := store_ok v hb1 hoff
  have hw : wadd a2.mSize 1 = a2.mSize + 1 := wadd_of_lt (by omega)
  have hidx : a2.mLastBufferIdx < a2.mBuffersPtr.length := by
    by_contra hc
    rw [List.getElem?_eq_none (by omega)] at hb1
    exact absurd hb1 (by simp)
  obtain ⟨hloc, hle, hoff2⟩ := @locate_eq T B a.mSize (by omega)
  obtain ⟨hbi, hoi⟩ := capOf_decomp_unique B hoff2
    (show a2.mSize - capOf B a2.mLastBufferIdx < 2 ^ (B + a2.mLastBufferIdx) by omega)
    (show capOf B (bufIdxOf B a.mSize) + (a.mSize - capOf B (bufIdxOf B a.mSize)) =
      capOf B a2.mLastBufferIdx + (a2.mSize - capOf B a2.mLastBufferIdx) by omega)
  refine ⟨h2, { a2 with
      mBuffersPtr := a2.mBuffersPtr.set a2.mLastBufferIdx
        (some { b with cells := b.cells.set (a2.mSize - capOf B a2.mLastBufferIdx) v }),
      mSize := a2.mSize + 1 },
    { addr := b.addr, off := a2.mSize - capOf B a2.mLastBufferIdx, val := v }, ?_, ?_, ?_, rfl⟩
  · simp only [PushBack, hrun, bind_ok, hcapl, hoffe, hst, pure_eq_ok, hw]
  · simp only [GetSize, hsz2]
  · rw [hsz2] at hoff
    simp only [GetSize, index, hloc, bind_ok, hbi, ptrAt, List.getElem?_set_self hidx,
      deref, hsz2, List.getElem?_set_self hoff]

/-- Claim C1: for every base exponent `B` and every finite sequence of values `vs`,
`PushBack` of each value in order on an empty array, with a free store that can supply
`k` buffers (`2 ^ (B + k) - 2 ^ B` elements, every buffer within `PTRDIFF_MAX`) that hold
the values, returns normally with `GetSize() = n` and `operator[](i) = vs[i]` for every
`i < n`, however many of the buffers were allocated along the way. -/
theorem PushBack_sequence_contents {T : Type} [Inhabited T] (B k : Nat) (h : Heap)
    (vs : List T) (hfit : vs.length ≤ 2 ^ (B + k) - 2 ^ B) (hBk : B + k ≤ 63)
    (hmem : 2 ^ (B + k) - 2 ^ B ≤ h.avail) :
    ∃ h1 a1, pushAll B h (empty T B) vs = .ok (h1, a1) ∧ GetSize a1 = vs.length ∧
      ∀ (i : Nat) (hi : i < vs.length), ∃ r, index B a1 i = .ok r ∧ r.val = vs[i] := by
  obtain ⟨h1, a1, hrun, hinv⟩ := pushAll_run hBk vs h (empty T B) [] (PushInv_empty T B)
    (by simpa [capOf] using hfit) (by simp only [capOf]; omega)
  simp only [List.nil_append] at hinv
  refine ⟨h1, a1, hrun, hinv.size_eq, fun i hi => ?_⟩
  have hkm := @capOf_lt_sizeMod B k (by omega)
  obtain ⟨r, hr1, hr2, -⟩ := index_of_Holds hinv.holds hi (by simp only [capOf] at hkm; omega)
  exact ⟨r, hr1, hr2⟩

theorem PushBack_sequence_contents_witness :
    ∃ h1 a1, pushAll 2 heap0 (empty Nat 2) [0, 1, 2, 3, 4, 5, 6, 7, 8, 9] = .ok (h1, a1) ∧
      GetSize a1 = [0, 1, 2, 3, 4, 5, 6, 7, 8, 9].length ∧
      ∀ (i : Nat) (hi : i < [0, 1, 2, 3, 4, 5, 6, 7, 8, 9].length),
        ∃ r, index 2 a1 i = .ok r ∧ r.val = [0, 1, 2, 3, 4, 5, 6, 7, 8, 9][i] :=
  PushBack_sequence_contents 2 2 heap0 [0, 1, 2, 3, 4, 5, 6, 7, 8, 9] (by decide) (by decide)
    (by decide)

/-! ## DeleteBuffers -/

theorem BufsOk_count_le {T : Type} {B c : Nat} {tbl : List (Option (Buffer T))}
    (hb : BufsOk B tbl c) : c ≤ tbl.length := by
  by_contra hc
  obtain ⟨b, hb1, -⟩ := hb tbl.length (by omega)
  rw [List.getElem?_eq_none (le_refl _)] at hb1
  exact absurd hb1 (by simp)

theorem DeleteBuffersLoop_run {T : Type} (inCnt : Nat) :
    ∀ (fuel : Nat) (h : Heap) (a : DynamicArray T), a.mBufferCount ≤ fuel →
      a.mBufferCount ≤ a.mBuffersPtr.length → a.mBufferCount < sizeMod →
      ∃ h1 tbl, DeleteBuffersLoop fuel h a inCnt =
          .ok (h1, { a with mBufferCount := min a.mBufferCount inCnt, mBuffersPtr := tbl }) ∧
        tbl.length = a.mBuffersPtr.length ∧
        (∀ i, i < inCnt → tbl[i]? = a.mBuffersPtr[i]?) ∧
        (∀ i, a.mBufferCount ≤ i → tbl[i]? = a.mBuffersPtr[i]?) ∧
        (∀ i, inCnt ≤ i → i < a.mBufferCount → tbl[i]? = some none) ∧
        h1.next = h.next ∧ h.avail ≤ h1.avail := by
  intro fuel
  induction fuel with
  | zero =>
    intro h a hf _ _
    have h0 : a.mBufferCount = 0 := by omega
    refine ⟨h, a.mBuffersPtr, ?_, rfl, fun _ _ => rfl, fun _ _ => rfl, ?_, rfl, le_refl _⟩
    · have hc : ¬ a.mBufferCount > inCnt := by omega
      simp only [DeleteBuffersLoop, hc, if_false, h0, Nat.zero_min]
      cases a; simp_all
    · intro i _ hi; omega
  | succ fuel ih =>
    intro h a hf hlen hsm
    by_cases hc : a.mBufferCount > inCnt
    · have hw : wsub a.mBufferCount 1 = a.mBufferCount - 1 := wsub_of_le (by omega) hsm
      have hidx : a.mBufferCount - 1 < a.mBuffersPtr.length := by omega
      obtain ⟨h1, tbl, hrun, hl, hlow, hhigh, hmid, hn, hav⟩ :=
        ih (deleteArray h a.mBuffersPtr[a.mBufferCount - 1])
          { a with mBufferCount := a.mBufferCount - 1,
                   mBuffersPtr := a.mBuffersPtr.set (a.mBufferCount - 1) none }
          (by simp only; omega) (by simp only [List.length_set]; omega) (by simp only; omega)
      simp only [List.length_set] at hl hlow hhigh hmid
      have hmin : min (a.mBufferCount - 1) inCnt = min a.mBufferCount inCnt := by omega
      refine ⟨h1, tbl, ?_, hl, ?_, ?_, ?_, ?_, ?_⟩
      · simp only [DeleteBuffersLoop, hc, if_true, hw, ptrAt_of_lt hidx, bind_ok, hrun, hmin]
      · intro i hi
        rw [hlow i hi, List.getElem?_set_ne (by omega)]
      · intro i hi
        rw [hhigh i (by omega), List.getElem?_set_ne (by omega)]
      · intro i hi1 hi2
        by_cases hlast : i = a.mBufferCount - 1
        · subst hlast
          rw [hhigh _ (le_refl _), List.getElem?_set_self hidx]
        · exact hmid i hi1 (by omega)
      · rw [hn]; cases hp : a.mBuffersPtr[a.mBufferCount - 1] <;> simp [deleteArray]
      · refine le_trans ?_ hav
        cases hp : a.mBuffersPtr[a.mBufferCount - 1] <;> simp [deleteArray]
    · have hmin : min a.mBufferCount inCnt = a.mBufferCount := by omega
      refine ⟨h, a.mBuffersPtr, ?_, rfl, fun _ _ => rfl, fun _ _ => rfl, ?_, rfl, le_refl _⟩
      · simp only [DeleteBuffersLoop, hc, if_false, hmin]
      · intro i hi1 hi2; omega

theorem DeleteBuffers_run {T : Type} (h : Heap) (a : DynamicArray T) (inCnt : Nat)
    (hlen : a.mBufferCount ≤ a.mBuffersPtr.length) (hsm : a.mBufferCount < sizeMod) :
    ∃ h1 tbl, DeleteBuffers h a inCnt =
        .ok (h1, { a with mBufferCount := min a.mBufferCount inCnt, mBuffersPtr := tbl }) ∧
      tbl.length = a.mBuffersPtr.length ∧
      (∀ i, i < inCnt → tbl[i]? = a.mBuffersPtr[i]?) ∧
      (∀ i, a.mBufferCount ≤ i → tbl[i]? = a.mBuffersPtr[i]?) ∧
      (∀ i, inCnt ≤ i → i < a.mBufferCount → tbl[i]? = some none) ∧
      h1.next = h.next ∧ h.avail ≤ h1.avail :=
  DeleteBuffersLoop_run inCnt a.mBufferCount h a (le_refl _) hlen hsm

/-! ## Assignment -/

theorem copyCells_ok {T : Type} (s d : Buffer T) {n : Nat} (hn : 0 < n)
    (hs : n ≤ s.cells.length) (hd : n ≤ d.cells.length) :
    copyCells (some s) (some d) n =
      .ok (some { d with cells := s.cells.take n ++ d.cells.drop n }) := by
  have hne : ¬ n = 0 := by omega
  simp only [copyCells, hne, if_false, hs, hd, and_self, if_true]

theorem copied_cells_length {T : Type} (s d : List T) {n : Nat} (hs : n ≤ s.length)
    (hd : n ≤ d.length) : (s.take n ++ d.drop n).length = d.length := by
  simp only [List.length_append, List.length_take, List.length_drop]; omega

theorem copied_cells_get {T : Type} (s d : List T) {n o : Nat} (hs : n ≤ s.length)
    (ho : o < n) : (s.take n ++ d.drop n)[o]? = s[o]? := by
  rw [List.getElem?_append_left (by simp only [List.length_take]; omega),
    List.getElem?_take_of_lt ho]

theorem assign_alloc_step {T : Type} [Inhabited T] {B j : Nat} {h : Heap}
    {a src : DynamicArray T} (hlim : B + src.mBufferCount ≤ 63) (hj : j < src.mBufferCount)
    (hlen : a.mBuffersPtr.length = MaxBufferCount B) (hbufs : BufsOk B a.mBuffersPtr a.mBufferCount)
    (hja : j ≤ a.mBufferCount)
    (hcop : CopiedUpTo B a.mBuffersPtr src.mBuffersPtr (capOf B j))
    (hmem : capOf B src.mBufferCount ≤ h.avail + capOf B a.mBufferCount) :
    ∃ h1 a1, allocIfBeyond h a j (2 ^ (B + j)) = .ok (h1, a1) ∧
      a1.mBuffersPtr.length = MaxBufferCount B ∧ BufsOk B a1.mBuffersPtr a1.mBufferCount ∧
      j < a1.mBufferCount ∧ CopiedUpTo B a1.mBuffersPtr src.mBuffersPtr (capOf B j) ∧
      capOf B src.mBufferCount ≤ h1.avail + capOf B a1.mBufferCount ∧
      a.mBufferCount ≤ a1.mBufferCount ∧
      (a1.mBufferCount ≤ a.mBufferCount ∨ a1.mBufferCount ≤ j + 1) ∧
      a1.mSize = a.mSize := by
  by_cases hc : j ≥ a.mBufferCount
  · have hje : j = a.mBufferCount := by omega
    have hnext := capOf_lt_of_lt B hj
    simp only [MaxBufferCount] at hlen
    have halloc := @allocBuffer_ok T _ h a (2 ^ (B + j)) (by rw [hje] at hnext ⊢; omega)
      (pow_lt_limit (by omega)) (by omega) (by simp only [sizeMod]; omega)
    refine ⟨{ next := h.next + 1, avail := h.avail - 2 ^ (B + j) },
      { a with
        mBuffersPtr := a.mBuffersPtr.set a.mBufferCount
          (some { addr := h.next, cells := List.replicate (2 ^ (B + j)) default }),
        mBufferCount := a.mBufferCount + 1 },
      by rw [allocIfBeyond, if_pos hc]; exact halloc, by simp [MaxBufferCount, hlen], ?_,
      by simp only; omega, ?_, ?_, by simp only; omega, by simp only; omega, rfl⟩
    · intro i hi
      simp only at hi ⊢
      by_cases hic : i = a.mBufferCount
      · subst hic
        exact ⟨_, List.getElem?_set_self (by omega), by simp [hje]⟩
      · obtain ⟨b, hb1, hb2⟩ := hbufs i (by omega)
        refine ⟨b, ?_, hb2⟩
        rw [List.getElem?_set_ne (fun e => hic e.symm)]; exact hb1
    · intro i o ho hlt
      have hij : i < j := lt_of_capOf_lt B (by omega)
      obtain ⟨b, s, hb, hs, hbs⟩ := hcop i o ho hlt
      refine ⟨b, s, ?_, hs, hbs⟩
      simp only
      rw [List.getElem?_set_ne (by omega)]; exact hb
    · simp only
      rw [capOf_succ, ← hje]; rw [hje] at hnext; rw [← hje] at hmem hnext; omega
  · exact ⟨h, a, by rw [allocIfBeyond, if_neg hc], hlen, hbufs, by omega, hcop, hmem, le_refl _,
      by omega, rfl⟩

theorem assign_copy_step {T : Type} {B j n : Nat} {a src : DynamicArray T}
    (hsb : BufsOk B src.mBuffersPtr src.mBufferCount) (hj : j < src.mBufferCount)
    (hbufs : BufsOk B a.mBuffersPtr a.mBufferCount) (hja : j < a.mBufferCount)
    (hcop : CopiedUpTo B a.mBuffersPtr src.mBuffersPtr (capOf B j))
    (hn : 0 < n) (hn2 : n ≤ 2 ^ (B + j)) :
    ∃ s d d1, ptrAt src.mBuffersPtr j = .ok (some s) ∧ ptrAt a.mBuffersPtr j = .ok (some d) ∧
      copyCells (some s) (some d) n = .ok (some d1) ∧
      (a.mBuffersPtr.set j (some d1)).length = a.mBuffersPtr.length ∧
      BufsOk B (a.mBuffersPtr.set j (some d1)) a.mBufferCount ∧
      CopiedUpTo B (a.mBuffersPtr.set j (some d1)) src.mBuffersPtr (capOf B j + n) := by
  obtain ⟨s, hs1, hs2⟩ := hsb j hj
  obtain ⟨d, hd1, hd2⟩ := hbufs j hja
  have hidx : j < a.mBuffersPtr.length := by
    have := BufsOk_count_le hbufs; omega
  refine ⟨s, d, { d with cells := s.cells.take n ++ d.cells.drop n }, ?_, ?_,
    copyCells_ok s d hn (by omega) (by omega), by simp, ?_, ?_⟩
  · simp only [ptrAt, hs1]
  · simp only [ptrAt, hd1]
  · intro i hi
    by_cases hij : i = j
    · subst hij
      refine ⟨_, List.getElem?_set_self hidx, ?_⟩
      simp only
      rw [copied_cells_length _ _ (by omega) (by omega)]; exact hd2
    · obtain ⟨b, hb1, hb2⟩ := hbufs i hi
      refine ⟨b, ?_, hb2⟩
      rw [List.getElem?_set_ne (fun e => hij e.symm)]; exact hb1
  · intro i o ho hlt
    have hsucc := capOf_succ B j
    have hij : i < j + 1 := lt_of_capOf_lt B (by omega)
    by_cases hije : i = j
    · subst hije
      refine ⟨_, s, List.getElem?_set_self hidx, hs1, ?_⟩
      simp only
      exact copied_cells_get _ _ (by omega) (by omega)
    · have hlt2 := capOf_lt_of_lt B (show i < j by omega)
      obtain ⟨b, s0, hb, hs0, hbs⟩ := hcop i o ho (by omega)
      refine ⟨b, s0, ?_, hs0, hbs⟩
      rw [List.getElem?_set_ne (fun e => hije e.symm)]; exact hb

theorem AssignLoop_done {T : Type} [Inhabited T] (fuel : Nat) (h : Heap)
    (a src : DynamicArray T) (j bs : Nat) :
    AssignLoop (fuel + 1) h a src j bs 0 = .ok (h, a, j) := by
  simp [AssignLoop]

theorem AssignLoop_run {T : Type} [Inhabited T] {B : Nat} {src : DynamicArray T}
    (hs : WellFormed B src) (hlim : B + src.mBufferCount ≤ 63) :
    ∀ (fuel : Nat) (h : Heap) (a : DynamicArray T) (j : Nat), 1 ≤ fuel →
      src.mBufferCount + 1 ≤ fuel + j → a.mBuffersPtr.length = MaxBufferCount B →
      BufsOk B a.mBuffersPtr a.mBufferCount → j ≤ a.mBufferCount → capOf B j ≤ src.mSize →
      CopiedUpTo B a.mBuffersPtr src.mBuffersPtr (capOf B j) →
      capOf B src.mBufferCount ≤ h.avail + capOf B a.mBufferCount →
      ∃ h1 a1 jf,
        AssignLoop fuel h a src j (2 ^ (B + j)) (src.mSize - capOf B j) = .ok (h1, a1, jf) ∧
        a1.mBuffersPtr.length = MaxBufferCount B ∧ BufsOk B a1.mBuffersPtr a1.mBufferCount ∧
        CopiedUpTo B a1.mBuffersPtr src.mBuffersPtr src.mSize ∧
        src.mSize ≤ capOf B (jf + 1) ∧ (capOf B jf < src.mSize ∨ jf = j) ∧ j ≤ jf ∧
        a.mBufferCount ≤ a1.mBufferCount ∧
        (a1.mBufferCount ≤ a.mBufferCount ∨ a1.mBufferCount ≤ jf + 1) ∧
        (capOf B jf < src.mSize → jf < a1.mBufferCount) := by
  intro fuel
  induction fuel with
  | zero => intro h a j h1; omega
  | succ fuel ih =>
    intro h a j _ hfuel hlen hbufs hja hle hcop hmem
    have hsucc := capOf_succ B j
    by_cases hpos : capOf B j < src.mSize
    · have hj : j < src.mBufferCount := lt_of_capOf_lt B (by have := hs.size_le; omega)
      have hcnt : src.mSize - capOf B j > 0 := by omega
      have hsm := @capOf_lt_sizeMod B src.mBufferCount (by omega)
      have hp := Nat.two_pow_pos B
      have hsz := hs.size_le
      obtain ⟨h1, a1, halloc, hlen1, hbufs1, hj1, hcop1, hmem1, hc1, hc2, -⟩ :=
        assign_alloc_step hlim hj hlen hbufs hja hcop hmem
      have hfuel1 : 1 ≤ fuel := by omega
      by_cases hbig : src.mSize - capOf B j > 2 ^ (B + j)
      · obtain ⟨s, d, d1, hsp, hdp, hcopy, hl2, hb2, hcop2⟩ :=
          assign_copy_step hs.bufs hj hbufs1 hj1 hcop1 (Nat.two_pow_pos (B + j)) (le_refl _)
        rw [← hsucc] at hcop2
        obtain ⟨h3, a3, jf, hrun, hl3, hb3, hcop3, hsz3, hjf3, hjj3, hc3, hc4, hc5⟩ :=
          ih h1 { a1 with mBuffersPtr := a1.mBuffersPtr.set j (some d1) } (j + 1) hfuel1
            (by omega) (by simp only [hl2, hlen1]) hb2 (by simp only; omega) (by omega) hcop2
            hmem1
        simp only at hc3 hc4
        have e1 : wadd j 1 = j + 1 := wadd_of_lt (by simp only [sizeMod]; omega)
        have e2 : wadd (2 ^ (B + j)) (2 ^ (B + j)) = 2 ^ (B + (j + 1)) := by
          have hpw : (2:Nat) ^ (B + (j + 1)) = 2 * 2 ^ (B + j) := by
            rw [← Nat.add_assoc, pow_succ]; ring
          have := @pow_lt_sizeMod (B + (j + 1)) (by omega)
          rw [wadd_of_lt (by omega), hpw]; ring
        have e3 : wsub (src.mSize - capOf B j) (2 ^ (B + j)) = src.mSize - capOf B (j + 1) := by
          rw [wsub_of_le (by omega) (by omega), hsucc]; omega
        refine ⟨h3, a3, jf, ?_, hl3, hb3, hcop3, hsz3, ?_, by omega, by omega, by omega, hc5⟩
        · simp only [AssignLoop, hcnt, if_true, halloc, bind_ok, hsp, hdp, hbig, hcopy, e1, e2,
            e3, hrun]
        · rcases hjf3 with hl | hr
          · exact Or.inl hl
          · left; rw [hr]; omega
      · have hn : src.mSize - capOf B j ≤ 2 ^ (B + j) := by omega
        obtain ⟨s, d, d1, hsp, hdp, hcopy, hl2, hb2, hcop2⟩ :=
          assign_copy_step hs.bufs hj hbufs1 hj1 hcop1 hcnt hn
        have e : capOf B j + (src.mSize - capOf B j) = src.mSize := by omega
        rw [e] at hcop2
        obtain ⟨f, hf⟩ : ∃ f, fuel = f + 1 := ⟨fuel - 1, by omega⟩
        refine ⟨h1, { a1 with mBuffersPtr := a1.mBuffersPtr.set j (some d1) }, j, ?_,
          by simp only [hl2, hlen1], hb2, hcop2, by omega, Or.inl hpos, le_refl _,
          by simp only; omega, by simp only; omega, fun _ => by simp only; omega⟩
        simp only [AssignLoop, hcnt, if_true, halloc, bind_ok, hsp, hdp, hbig, if_false, hcopy]
        rw [hf, AssignLoop_done]
    · have he : src.mSize - capOf B j = 0 := by omega
      have he2 : src.mSize = capOf B j := by omega
      have hp2 := Nat.two_pow_pos (B + j)
      rw [he, AssignLoop_done]
      refine ⟨h, a, j, rfl, hlen, hbufs, by rw [he2]; exact hcop, by omega, Or.inr rfl,
        le_refl _, le_refl _, by omega, fun hc => by omega⟩

theorem assign_run {T : Type} [Inhabited T] {B : Nat} {h : Heap} {d src : DynamicArray T}
    (hd : WellFormed B d) (hs : WellFormed B src) (hlim : B + src.mBufferCount ≤ 63)
    (hmem : capOf B src.mBufferCount ≤ h.avail + capOf B d.mBufferCount) :
    ∃ h1 d1, assign B h d src = .ok (h1, d1) ∧ d1.mSize = src.mSize ∧ WellFormed B d1 ∧
      CopiedUpTo B d1.mBuffersPtr src.mBuffersPtr src.mSize ∧
      src.mSize ≤ capOf B (d1.mLastBufferIdx + 1) ∧
      (capOf B d1.mLastBufferIdx < src.mSize ∨ d1.mLastBufferIdx = 0) ∧
      d1.mBufferCount ≤ d1.mLastBufferIdx + 2 := by
  have hB : B < 64 := by omega
  have hcop0 : CopiedUpTo B d.mBuffersPtr src.mBuffersPtr (capOf B 0) := by
    intro j o _ hlt
    rw [capOf_zero] at hlt; omega
  obtain ⟨h1, a1, jf, hrun, hl1, hb1, hcop1, hsz1, hjf1, -, hc1, hc2, hc3⟩ :=
    AssignLoop_run hs hlim 65 h d 0 (by omega) (by omega) hd.tbl_len hd.bufs (Nat.zero_le _)
      (by rw [capOf_zero]; omega) hcop0 hmem
  simp only [Nat.add_zero, capOf_zero, Nat.sub_zero] at hrun
  have hjfb : jf ≤ src.mBufferCount := by
    rcases hjf1 with hl | hr
    · have := lt_of_capOf_lt B (show capOf B jf < capOf B src.mBufferCount by
        have := hs.size_le; omega)
      omega
    · omega
  have hcl := BufsOk_count_le hb1
  have hl1b : a1.mBuffersPtr.length = 64 - B := hl1
  have hw : wadd jf 2 = jf + 2 := wadd_of_lt (by simp only [sizeMod]; omega)
  obtain ⟨h3, tbl, hdel, htl, hlow, -, -, -, -⟩ :=
    DeleteBuffers_run h1 { a1 with mLastBufferIdx := jf } (jf + 2) hcl
      (by simp only [sizeMod]; omega)
  simp only at hdel htl hlow
  refine ⟨h3,
    { mSize := src.mSize, mBufferCount := min a1.mBufferCount (jf + 2),
      mLastBufferIdx := jf, mBuffersPtr := tbl },
    ?_, rfl, ⟨by simp only [htl, hl1], ?_, ?_⟩, ?_, hsz1, hjf1, by simp only; omega⟩
  · simp only [assign, FirstBufSize_of_lt hB, bind_ok, hrun, hw, hdel, pure_eq_ok]
  · intro j hj
    simp only at hj ⊢
    rw [hlow j (by omega)]
    exact hb1 j (by omega)
  · simp only
    rcases Nat.eq_zero_or_pos src.mSize with h0 | hpos
    · omega
    · have hjc : jf < a1.mBufferCount := by
        rcases hjf1 with hl | hr
        · exact hc3 hl
        · rcases Nat.lt_or_ge jf a1.mBufferCount with hlt | hge
          · exact hlt
          · exfalso
            have h00 : capOf B jf = 0 := by rw [hr, capOf_zero]
            have := hc3 (by omega)
            omega
      have := capOf_mono B (show jf + 1 ≤ min a1.mBufferCount (jf + 2) by omega)
      omega
  · intro j o ho hlt
    have hj : j < jf + 1 := lt_of_capOf_lt B (by omega)
    obtain ⟨b, s, hb, hs2, hbs⟩ := hcop1 j o ho hlt
    refine ⟨b, s, ?_, hs2, hbs⟩
    simp only
    rw [hlow j (by omega)]; exact hb

/-- Claim C8: for every well-formed source `A` and well-formed destination `D` (tables of
`MaxBufferCount` entries, each allocated buffer `i` with `2 ^ (B + i)` slots, size at most
the cumulative capacity of the allocated buffers; `D` empty or holding more or fewer
elements than `A`), with a free store that can supply the buffers `A` has and `D` lacks,
the assignment `D = A` returns normally with `D.GetSize() = A.GetSize()` and
`D[i] = A[i]` for every `i < A.GetSize()`. `A` is a `const` argument the model passes by
value, so it is unchanged. -/
theorem assign_round_trip {T : Type} [Inhabited T] (B : Nat) (h : Heap)
    (d src : DynamicArray T) (hd : WellFormed B d) (hs : WellFormed B src)
    (hlim : B + src.mBufferCount ≤ 63)
    (hmem : 2 ^ (B + src.mBufferCount) - 2 ^ B ≤
      h.avail + (2 ^ (B + d.mBufferCount) - 2 ^ B)) :
    ∃ h1 d1, assign B h d src = .ok (h1, d1) ∧ GetSize d1 = GetSize src ∧
      ∀ i, i < GetSize src →
        ∃ r r0, index B d1 i = .ok r ∧ index B src i = .ok r0 ∧ r.val = r0.val := by
  obtain ⟨h1, d1, hrun, hsz, -, hcop, -, -, -⟩ := assign_run hd hs hlim hmem
  refine ⟨h1, d1, hrun, hsz, fun i hi => ?_⟩
  simp only [GetSize] at hi
  have hsm := @capOf_lt_sizeMod B src.mBufferCount (by omega)
  have hsl := hs.size_le
  obtain ⟨hloc, hle, hoff⟩ := @locate_eq T B i (by omega)
  obtain ⟨b, s, hb, hs2, hbs⟩ := hcop (bufIdxOf B i) (i - capOf B (bufIdxOf B i)) hoff (by omega)
  have hjs : bufIdxOf B i < src.mBufferCount := lt_of_capOf_lt B (by omega)
  obtain ⟨s0, hs01, hs02⟩ := hs.bufs _ hjs
  have hss : s0 = s := by rw [hs2] at hs01; simpa using hs01.symm
  subst hss
  obtain ⟨x, hget⟩ : ∃ x, s0.cells[i - capOf B (bufIdxOf B i)]? = some x :=
    ⟨_, List.getElem?_eq_getElem (by omega)⟩
  rw [hget] at hbs
  refine ⟨{ addr := b.addr, off := i - capOf B (bufIdxOf B i), val := x },
    { addr := s0.addr, off := i - capOf B (bufIdxOf B i), val := x }, ?_, ?_, rfl⟩
  · simp only [index, hloc, bind_ok, ptrAt, hb, deref, hbs]
  · simp only [index, hloc, bind_ok, ptrAt, hs2, deref, hget]

theorem WellFormed_sixElems : WellFormed 2 sixElems := by
  refine ⟨by decide, ?_, by decide⟩
  intro j hj
  have hj2 : j < 2 := hj
  interval_cases j
  · exact ⟨_, rfl, rfl⟩
  · exact ⟨_, rfl, rfl⟩

theorem WellFormed_oneElem : WellFormed 2 oneElem := by
  refine ⟨by decide, ?_, by decide⟩
  intro j hj
  have hj2 : j < 1 := hj
  interval_cases j
  exact ⟨_, rfl, rfl⟩

theorem assign_round_trip_witness :
    ∃ h1 d1, assign 2 heap0 oneElem sixElems = .ok (h1, d1) ∧ GetSize d1 = GetSize sixElems ∧
      ∀ i, i < GetSize sixElems →
        ∃ r r0, index 2 d1 i = .ok r ∧ index 2 sixElems i = .ok r0 ∧ r.val = r0.val :=
  assign_round_trip 2 heap0 oneElem sixElems WellFormed_oneElem WellFormed_sixElems
    (by decide) (by decide)

/-! ## Front and Back -/

/-- In every state `Front()` is `operator[](0)`: the same outcome and, when defined, the
same slot. -/
theorem Front_eq_index_zero {T : Type} (B : Nat) (a : DynamicArray T) (hB : B < 64) :
    Front a = index B a 0 := by
  have hp := Nat.two_pow_pos B
  have hloop : indexLoop 65 0 (2 ^ B) 0 = some (0, 0) := by
    have hc : ¬ (0 ≥ 2 ^ B) := by omega
    simp only [indexLoop, hc, if_false]
  simp only [Front, index, locate, FirstBufSize_of_lt hB, bind_ok, hloop, pure_eq_ok]

/-- On a non-empty array filled by `PushBack` calls alone, `Back()` is
`operator[](GetSize() - 1)`. -/
theorem Back_eq_index_last_after_pushes {T : Type} {B k : Nat} {a : DynamicArray T}
    {vs : List T} (hinv : PushInv B a vs) (hne : 0 < vs.length) (hk : vs.length ≤ capOf B k)
    (hBk : B + k ≤ 63) : Back B a = index B a (GetSize a - 1) := by
  have hsz := hinv.size_eq
  rcases hinv.last with ⟨-, -, h0⟩ | ⟨h1, h2, h3⟩
  · omega
  · have hlk : a.mLastBufferIdx < k := lt_of_capOf_lt B (by omega)
    have hkm := @capOf_lt_sizeMod B k (by omega)
    have hpos := Nat.two_pow_pos B
    have hcap : (Capacity B a.mLastBufferIdx : Outcome T Nat) = .ok (capOf B a.mLastBufferIdx) :=
      Capacity_eq (by omega)
    have e1 : wsub a.mSize 1 = a.mSize - 1 := wsub_of_le (by omega) (by omega)
    have e2 : wsub (a.mSize - 1) (capOf B a.mLastBufferIdx) =
        a.mSize - 1 - capOf B a.mLastBufferIdx := wsub_of_le (by omega) (by omega)
    obtain ⟨hloc, hle, hoff⟩ := @locate_eq T B (a.mSize - 1) (by omega)
    have hsucc := capOf_succ B a.mLastBufferIdx
    rw [h1] at hsucc
    obtain ⟨hbi, hoi⟩ := capOf_decomp_unique B hoff
      (show a.mSize - 1 - capOf B a.mLastBufferIdx < 2 ^ (B + a.mLastBufferIdx) by omega)
      (show capOf B (bufIdxOf B (a.mSize - 1)) +
          (a.mSize - 1 - capOf B (bufIdxOf B (a.mSize - 1))) =
        capOf B a.mLastBufferIdx + (a.mSize - 1 - capOf B a.mLastBufferIdx) by omega)
    simp only [Back, hcap, bind_ok, e1, e2, index, GetSize, hloc, hbi]

/-! ## Growth keeps the allocated buffers -/

theorem bind_eq_ok {T α β : Type} {x : Outcome T α} {f : α → Outcome T β} {b : β}
    (h : (x >>= f) = .ok b) : ∃ a, x = .ok a ∧ f a = .ok b := by
  cases x with
  | ok a => exact ⟨a, rfl, h⟩
  | badAlloc _ _ => simp [bind, Outcome.bind] at h
  | undefined => simp [bind, Outcome.bind] at h
  | diverge => simp [bind, Outcome.bind] at h

theorem allocBuffer_inv {T : Type} [Inhabited T] {h h1 : Heap} {a a1 : DynamicArray T} {n : Nat}
    (hrun : allocBuffer h a n = .ok (h1, a1)) :
    a.mBufferCount < a.mBuffersPtr.length ∧ a1.mSize = a.mSize ∧
      a1.mLastBufferIdx = a.mLastBufferIdx ∧ a1.mBufferCount = wadd a.mBufferCount 1 ∧
      ∃ buf : Buffer T, buf.cells.length = n ∧
        a1.mBuffersPtr = a.mBuffersPtr.set a.mBufferCount (some buf) := by
  unfold allocBuffer at hrun
  cases hn : (newArray h n : Option (Heap × Buffer T)) with
  | none => rw [hn] at hrun; simp at hrun
  | some p =>
    obtain ⟨h2, buf⟩ := p
    rw [hn] at hrun
    simp only at hrun
    by_cases hc : a.mBufferCount < a.mBuffersPtr.length
    · rw [if_pos hc] at hrun
      simp only [Outcome.ok.injEq, Prod.mk.injEq] at hrun
      obtain ⟨-, rfl⟩ := hrun
      refine ⟨hc, rfl, rfl, rfl, buf, ?_, rfl⟩
      simp only [newArray] at hn
      split at hn
      · simp only [Option.some.injEq, Prod.mk.injEq] at hn
        obtain ⟨-, rfl⟩ := hn
        simp
      · simp at hn
    · rw [if_neg hc] at hrun; simp at hrun

theorem allocIfBeyond_frame {T : Type} [Inhabited T] {h h1 : Heap} {a a1 : DynamicArray T}
    {i n : Nat} (hlen : a.mBuffersPtr.length < sizeMod)
    (hrun : allocIfBeyond h a i n = .ok (h1, a1)) :
    a.mBufferCount ≤ a1.mBufferCount ∧ a1.mSize = a.mSize ∧
      a1.mLastBufferIdx = a.mLastBufferIdx ∧
      a1.mBuffersPtr.length = a.mBuffersPtr.length ∧
      ∀ j, j < a.mBufferCount → a1.mBuffersPtr[j]? = a.mBuffersPtr[j]? := by
  unfold allocIfBeyond at hrun
  by_cases hc : i ≥ a.mBufferCount
  · rw [if_pos hc] at hrun
    obtain ⟨hidx, hs, hl, hcnt, buf, -, htbl⟩ := allocBuffer_inv hrun
    have hw : wadd a.mBufferCount 1 = a.mBufferCount + 1 := wadd_of_lt (by omega)
    refine ⟨by omega, hs, hl, by rw [htbl]; simp, fun j hj => ?_⟩
    rw [htbl, List.getElem?_set_ne (by omega)]
  · rw [if_neg hc] at hrun
    simp only [Outcome.ok.injEq, Prod.mk.injEq] at hrun
    obtain ⟨-, rfl⟩ := hrun
    exact ⟨le_refl _, rfl, rfl, rfl, fun _ _ => rfl⟩

theorem ResizeLoop_frame {T : Type} [Inhabited T] {n : Nat} {h1 : Heap} {a1 : DynamicArray T} :
    ∀ (fuel : Nat) (h : Heap) (a : DynamicArray T) (cap bs : Nat),
      a.mBuffersPtr.length < sizeMod → ResizeLoop fuel h a cap bs n = .ok (h1, a1) →
      a.mBufferCount ≤ a1.mBufferCount ∧ a1.mSize = a.mSize ∧
        a1.mBuffersPtr.length = a.mBuffersPtr.length ∧
        ∀ j, j < a.mBufferCount → a1.mBuffersPtr[j]? = a.mBuffersPtr[j]? := by
  intro fuel
  induction fuel with
  | zero => intro h a cap bs _ hrun; simp [ResizeLoop] at hrun
  | succ fuel ih =>
    intro h a cap bs hlen hrun
    unfold ResizeLoop at hrun
    by_cases hc : cap < n
    · rw [if_pos hc] at hrun
      obtain ⟨⟨h2, a2⟩, halloc, hrest⟩ := bind_eq_ok hrun
      obtain ⟨hc2, hs2, -, hl2, ht2⟩ := allocIfBeyond_frame (by simpa using hlen) halloc
      simp only at hc2 hs2 hl2 ht2 hrest
      obtain ⟨hc3, hs3, hl3, ht3⟩ := ih h2 a2 _ _ (by omega) hrest
      refine ⟨by omega, by rw [hs3, hs2], by rw [hl3, hl2], fun j hj => ?_⟩
      rw [ht3 j (by omega), ht2 j hj]
    · rw [if_neg hc] at hrun
      simp only [Outcome.ok.injEq, Prod.mk.injEq] at hrun
      obtain ⟨-, rfl⟩ := hrun
      exact ⟨le_refl _, rfl, rfl, fun _ _ => rfl⟩

/-- Whenever a growing `Resize(n)` (`n` above the size) returns, the size is `n`, no buffer
was freed, and every table entry that was allocated before the call is the same buffer
with the same cells: growth neither replaces, reorders nor rewrites a buffer. -/
theorem Resize_grow_keeps_buffers {T : Type} [Inhabited T] (B : Nat) (h h1 : Heap)
    (a a1 : DynamicArray T) (n : Nat) (hlen : a.mBuffersPtr.length < sizeMod)
    (hgrow : a.mSize < n) (hrun : Resize B h a n = .ok (h1, a1)) :
    GetSize a1 = n ∧ a.mBufferCount ≤ a1.mBufferCount ∧
      ∀ j, j < a.mBufferCount → a1.mBuffersPtr[j]? = a.mBuffersPtr[j]? := by
  unfold Resize at hrun
  have hc : ¬ n ≤ a.mSize := by omega
  rw [if_neg hc] at hrun
  obtain ⟨bs, -, hrun⟩ := bind_eq_ok hrun
  obtain ⟨cap, -, hrun⟩ := bind_eq_ok hrun
  obtain ⟨⟨h2, a2⟩, hloop, hrun⟩ := bind_eq_ok hrun
  simp only [pure_eq_ok, Outcome.ok.injEq, Prod.mk.injEq] at hrun
  obtain ⟨-, rfl⟩ := hrun
  obtain ⟨hc2, -, -, ht2⟩ := ResizeLoop_frame 200 h a _ _ hlen hloop
  exact ⟨rfl, hc2, ht2⟩

theorem PushBackGrow_tail_frame {T : Type} [Inhabited T] {B : Nat} {h h2 : Heap}
    {a1 a2 : DynamicArray T} {flag : Bool} (hlen : a1.mBuffersPtr.length < sizeMod)
    (hrun : (if flag = true then do
        let theSize ← BufSize B a1.mBufferCount
        allocBuffer h a1 theSize
      else (pure (h, a1) : Outcome T (Heap × DynamicArray T))) = .ok (h2, a2)) :
    a1.mBufferCount ≤ a2.mBufferCount ∧ a2.mSize = a1.mSize ∧
      a2.mBuffersPtr.length = a1.mBuffersPtr.length ∧
      ∀ j, j < a1.mBufferCount → a2.mBuffersPtr[j]? = a1.mBuffersPtr[j]? := by
  cases flag with
  | true =>
    simp only [if_true] at hrun
    obtain ⟨n, -, halloc⟩ := bind_eq_ok hrun
    obtain ⟨hidx, hs, -, hcnt, buf, -, htbl⟩ := allocBuffer_inv halloc
    have hw : wadd a1.mBufferCount 1 = a1.mBufferCount + 1 := wadd_of_lt (by omega)
    refine ⟨by omega, hs, by rw [htbl]; simp, fun j hj => ?_⟩
    rw [htbl, List.getElem?_set_ne (by omega)]
  | false =>
    simp only [Bool.false_eq_true, if_false, pure_eq_ok, Outcome.ok.injEq, Prod.mk.injEq] at hrun
    obtain ⟨-, rfl⟩ := hrun
    exact ⟨le_refl _, rfl, rfl, fun _ _ => rfl⟩

theorem PushBackGrow_frame {T : Type} [Inhabited T] {B : Nat} {h h2 : Heap}
    {a a2 : DynamicArray T} (hlen : a.mBuffersPtr.length < sizeMod)
    (hrun : PushBackGrow B h a = .ok (h2, a2)) :
    a.mBufferCount ≤ a2.mBufferCount ∧ a2.mSize = a.mSize ∧
      a2.mBuffersPtr.length = a.mBuffersPtr.length ∧
      ∀ j, j < a.mBufferCount → a2.mBuffersPtr[j]? = a.mBuffersPtr[j]? := by
  unfold PushBackGrow at hrun
  by_cases hc : a.mLastBufferIdx ≥ a.mBufferCount
  · simp only [hc, if_true, pure_eq_ok, bind_ok] at hrun
    exact @PushBackGrow_tail_frame T _ B h h2 a a2 true hlen (by simpa using hrun)
  · simp only [hc, if_false] at hrun
    obtain ⟨cap, -, hrun⟩ := bind_eq_ok hrun
    by_cases hfull : cap ≤ a.mSize
    · simp only [hfull, if_true, pure_eq_ok, bind_ok] at hrun
      exact @PushBackGrow_tail_frame T _ B h h2
        { a with mLastBufferIdx := wadd a.mLastBufferIdx 1 } a2 _ hlen hrun
    · simp only [hfull, if_false, pure_eq_ok, bind_ok] at hrun
      exact @PushBackGrow_tail_frame T _ B h h2 a a2 false hlen (by simpa using hrun)

theorem store_inv {T : Type} {a a3 : DynamicArray T} {i off : Nat} {v : T} {r : ElemRef T}
    (hrun : store a i off v = .ok (a3, r)) :
    ∃ b, a.mBuffersPtr[i]? = some (some b) ∧ off < b.cells.length ∧
      r = { addr := b.addr, off := off, val := v } ∧
      a3 = { a with mBuffersPtr :=
               a.mBuffersPtr.set i (some { b with cells := b.cells.set off v }) } := by
  unfold store at hrun
  obtain ⟨p, hp, hrun⟩ := bind_eq_ok hrun
  unfold ptrAt at hp
  cases hg : a.mBuffersPtr[i]? with
  | none => rw [hg] at hp; simp at hp
  | some q =>
    rw [hg] at hp
    simp only [Outcome.ok.injEq] at hp
    subst hp
    cases q with
    | none => simp at hrun
    | some b =>
      simp only at hrun
      by_cases ho : off < b.cells.length
      · simp only [ho, if_true, pure_eq_ok, Outcome.ok.injEq, Prod.mk.injEq] at hrun
        exact ⟨b, rfl, ho, hrun.2.symm, hrun.1.symm⟩
      · simp [ho] at hrun

/-- Whenever `PushBack(v)` returns, the size has grown by one, no buffer was freed, and
there is one table index `js` (that of `mLastBufferIdx` after the call) such that every
other entry allocated before the call is the same buffer with the same cells, while
buffer `js` keeps its address and length and changes only in the cell the returned
reference designates, which now holds `v`. -/
theorem PushBack_keeps_buffers {T : Type} [Inhabited T] (B : Nat) (h h1 : Heap)
    (a a1 : DynamicArray T) (v : T) (r : ElemRef T) (hlen : a.mBuffersPtr.length < sizeMod)
    (hrun : PushBack B h a v = .ok (h1, a1, r)) :
    a1.mSize = wadd a.mSize 1 ∧ a.mBufferCount ≤ a1.mBufferCount ∧ r.val = v ∧
      (∀ j, j < a.mBufferCount → j ≠ a1.mLastBufferIdx →
        a1.mBuffersPtr[j]? = a.mBuffersPtr[j]?) ∧
      (a1.mLastBufferIdx < a.mBufferCount → ∃ b,
        a.mBuffersPtr[a1.mLastBufferIdx]? = some (some b) ∧ r.addr = b.addr ∧
        a1.mBuffersPtr[a1.mLastBufferIdx]? =
          some (some { b with cells := b.cells.set r.off v })) := by
  unfold PushBack at hrun
  obtain ⟨⟨h2, a2⟩, hgrow, hrun⟩ := bind_eq_ok hrun
  obtain ⟨cap, -, hrun⟩ := bind_eq_ok hrun
  obtain ⟨⟨a3, r3⟩, hstore, hrun⟩ := bind_eq_ok hrun
  simp only [pure_eq_ok, Outcome.ok.injEq, Prod.mk.injEq] at hrun
  obtain ⟨-, rfl, rfl⟩ := hrun
  obtain ⟨hc2, hs2, hl2, ht2⟩ := PushBackGrow_frame hlen hgrow
  obtain ⟨b, hb, hoff, hr, ha3⟩ := store_inv hstore
  subst ha3
  subst hr
  have hidx : a2.mLastBufferIdx < a2.mBuffersPtr.length := by
    by_contra hc
    rw [List.getElem?_eq_none (by omega)] at hb
    exact absurd hb (by simp)
  refine ⟨by simp only [hs2], hc2, rfl, fun j hj hne => ?_, fun hlt => ?_⟩
  · simp only at hne ⊢
    rw [List.getElem?_set_ne (fun e => hne e.symm)]
    exact ht2 j hj
  · simp only at hlt ⊢
    refine ⟨b, ?_, rfl, List.getElem?_set_self hidx⟩
    rw [← ht2 _ hlt]; exact hb

/-! ## MetaNode flag bits -/

theorem byte_testBit_high {f i : Nat} (hf : f < 256) (hi : 8 ≤ i) : f.testBit i = false := by
  apply Nat.testBit_lt_two_pow
  have : (2:Nat) ^ 8 ≤ 2 ^ i := Nat.pow_le_pow_right (by norm_num) hi
  omega

theorem lor_byte_lt {f b : Nat} (hf : f < 256) (hb : b < 256) : f ||| b < 256 :=
  @Nat.or_lt_two_pow f b 8 hf hb

theorem setflag_flags_eq {f b : Nat} (hf : f < 256) (hb : b < 256) :
    (f ||| b) % 256 = f ||| b := Nat.mod_eq_of_lt (lor_byte_lt hf hb)

theorem clearflag_flags_eq {f b : Nat} (hf : f < 256) (hb : b < 256) :
    (f &&& (4294967295 - b)) % 256 = f &&& (255 - b) := by
  apply Nat.eq_of_testBit_eq
  intro i
  have h1 : (4294967295 : Nat) - b = 2 ^ 32 - (b + 1) := by omega
  have h2 : (255 : Nat) - b = 2 ^ 8 - (b + 1) := by omega
  have h3 : (256 : Nat) = 2 ^ 8 := by norm_num
  rw [h1, h2, h3, Nat.testBit_mod_two_pow, Nat.testBit_land, Nat.testBit_land,
    Nat.testBit_two_pow_sub_succ (by omega), Nat.testBit_two_pow_sub_succ (by omega)]
  by_cases hi : i < 8
  · have hi2 : i < 32 := by omega
    simp [hi, hi2]
  · have hhi := byte_testBit_high hf (show 8 ≤ i by omega)
    simp [hi, hhi]

theorem land_lor_of_disjoint {f b c : Nat} (hd : b &&& c = 0) : (f ||| b) &&& c = f &&& c := by
  apply Nat.eq_of_testBit_eq
  intro i
  have h := congrArg (fun x => Nat.testBit x i) hd
  simp only [Nat.testBit_land, Nat.zero_testBit] at h
  rw [Nat.testBit_land, Nat.testBit_lor, Nat.testBit_land]
  cases hf : f.testBit i <;> cases hb : b.testBit i <;> cases hc : c.testBit i <;> simp_all

theorem land_compl_of_disjoint {f b c : Nat} (hb : b < 256) (hc : c < 256) (hd : b &&& c = 0) :
    (f &&& (255 - b)) &&& c = f &&& c := by
  apply Nat.eq_of_testBit_eq
  intro i
  have h := congrArg (fun x => Nat.testBit x i) hd
  simp only [Nat.testBit_land, Nat.zero_testBit] at h
  have h2 : (255 : Nat) - b = 2 ^ 8 - (b + 1) := by omega
  rw [Nat.testBit_land, Nat.testBit_land, h2, Nat.testBit_two_pow_sub_succ (by omega),
    Nat.testBit_land]
  by_cases hi : i < 8
  · cases hf : f.testBit i <;> cases hbb : b.testBit i <;> cases hcc : c.testBit i <;> simp_all
  · have hhi := byte_testBit_high hc (show 8 ≤ i by omega)
    simp [hi, hhi]

theorem land_compl_self {f b : Nat} (hb : b < 256) : (f &&& (255 - b)) &&& b = 0 := by
  apply Nat.eq_of_testBit_eq
  intro i
  have h2 : (255 : Nat) - b = 2 ^ 8 - (b + 1) := by omega
  rw [Nat.testBit_land, Nat.testBit_land, h2, Nat.testBit_two_pow_sub_succ (by omega),
    Nat.zero_testBit]
  cases hbb : b.testBit i <;> simp

theorem lor_land_self (f b : Nat) : (f ||| b) &&& b = b := by
  apply Nat.eq_of_testBit_eq
  intro i
  rw [Nat.testBit_land, Nat.testBit_lor]
  cases hf : f.testBit i <;> cases hbb : b.testBit i <;> simp

/-- Claim C16: for every node whose flag byte is `f` and all flag masks `b`, `c` (bytes)
`setflag(b)` gives `flags() = f | b` and `clearflag(b)` gives `flags() = f & ~b` (the byte
complement `255 - b`); when `b & c = 0`, `testflag(c)` is unchanged by either;
`testflag(b)` is true after `setflag(b)` when `b != 0` and false after `clearflag(b)`;
`META_ROOT` (4) and `META_LEVEL1` (8) are disjoint masks, so each can be set, cleared and
tested without changing the other; and neither operation changes `metaType()`. -/
theorem MetaNode_flags_independent (n : MetaNode) (b c : Nat) (hf : n.flags < 256)
    (hb : b < 256) (hc : c < 256) :
    (n.setflag b).flags = n.flags ||| b ∧ (n.clearflag b).flags = n.flags &&& (255 - b) ∧
      (b &&& c = 0 → (n.setflag b).testflag c = n.testflag c ∧
        (n.clearflag b).testflag c = n.testflag c) ∧
      (b ≠ 0 → (n.setflag b).testflag b = true) ∧ (n.clearflag b).testflag b = false ∧
      (n.setflag b).metaType = n.metaType ∧ (n.clearflag b).metaType = n.metaType ∧
      META_ROOT &&& META_LEVEL1 = 0 ∧
      (n.setflag META_ROOT).testflag META_LEVEL1 = n.testflag META_LEVEL1 ∧
      (n.clearflag META_ROOT).testflag META_LEVEL1 = n.testflag META_LEVEL1 ∧
      (n.setflag META_LEVEL1).testflag META_ROOT = n.testflag META_ROOT ∧
      (n.clearflag META_LEVEL1).testflag META_ROOT = n.testflag META_ROOT := by
  have hf2 : n.flagbits < 256 := hf
  have hset : ∀ x, x < 256 → (n.setflag x).flagbits = n.flagbits ||| x := fun x hx => by
    simp only [MetaNode.setflag, setflag_flags_eq hf2 hx]
  have hclr : ∀ x, x < 256 → (n.clearflag x).flagbits = n.flagbits &&& (255 - x) :=
    fun x hx => by simp only [MetaNode.clearflag, clearflag_flags_eq hf2 hx]
  have hind : ∀ x y, x < 256 → y < 256 → x &&& y = 0 →
      (n.setflag x).testflag y = n.testflag y ∧ (n.clearflag x).testflag y = n.testflag y :=
    fun x y hx hy hd => by
      simp only [MetaNode.testflag, hset x hx, hclr x hx, land_lor_of_disjoint hd,
        land_compl_of_disjoint hx hy hd, and_self]
  have hdis : META_ROOT &&& META_LEVEL1 = 0 := by decide
  have hdis2 : META_LEVEL1 &&& META_ROOT = 0 := by decide
  have hr : META_ROOT < 256 := by decide
  have hl : META_LEVEL1 < 256 := by decide
  refine ⟨hset b hb, hclr b hb, hind b c hb hc, fun hne => ?_, ?_, rfl, rfl, hdis,
    (hind _ _ hr hl hdis).1, (hind _ _ hr hl hdis).2, (hind _ _ hl hr hdis2).1,
    (hind _ _ hl hr hdis2).2⟩
  · simp only [MetaNode.testflag, hset b hb, lor_land_self]
    simpa using hne
  · simp only [MetaNode.testflag, hclr b hb, land_compl_self hb]
    rfl

theorem MetaNode_flags_independent_witness :
    ((MetaNode.mk2 1 5).setflag 8).flags = (MetaNode.mk2 1 5).flags ||| 8 ∧
      ((MetaNode.mk2 1 5).clearflag 8).flags = (MetaNode.mk2 1 5).flags &&& (255 - 8) ∧
      (8 &&& 4 = 0 → ((MetaNode.mk2 1 5).setflag 8).testflag 4 = (MetaNode.mk2 1 5).testflag 4 ∧
        ((MetaNode.mk2 1 5).clearflag 8).testflag 4 = (MetaNode.mk2 1 5).testflag 4) ∧
      (8 ≠ 0 → ((MetaNode.mk2 1 5).setflag 8).testflag 8 = true) ∧
      ((MetaNode.mk2 1 5).clearflag 8).testflag 8 = false ∧
      ((MetaNode.mk2 1 5).setflag 8).metaType = (MetaNode.mk2 1 5).metaType ∧
      ((MetaNode.mk2 1 5).clearflag 8).metaType = (MetaNode.mk2 1 5).metaType ∧
      META_ROOT &&& META_LEVEL1 = 0 ∧
      ((MetaNode.mk2 1 5).setflag META_ROOT).testflag META_LEVEL1 =
        (MetaNode.mk2 1 5).testflag META_LEVEL1 ∧
      ((MetaNode.mk2 1 5).clearflag META_ROOT).testflag META_LEVEL1 =
        (MetaNode.mk2 1 5).testflag META_LEVEL1 ∧
      ((MetaNode.mk2 1 5).setflag META_LEVEL1).testflag META_ROOT =
        (MetaNode.mk2 1 5).testflag META_ROOT ∧
      ((MetaNode.mk2 1 5).clearflag META_LEVEL1).testflag META_ROOT =
        (MetaNode.mk2 1 5).testflag META_ROOT :=
  MetaNode_flags_independent (MetaNode.mk2 1 5) 8 4 (by decide) (by decide) (by decide)

/-! ## Buffer counts after PushBack and PopBack -/

theorem PushInv_count_least {T : Type} {B : Nat} {a : DynamicArray T} {vs : List T}
    (hinv : PushInv B a vs) :
    vs.length ≤ capOf B a.mBufferCount ∧ ∀ j, vs.length ≤ capOf B j → a.mBufferCount ≤ j := by
  have hsz := hinv.size_eq
  rcases hinv.last with ⟨h0, -, hs0⟩ | ⟨h1, h2, h3⟩
  · exact ⟨by omega, fun j _ => by omega⟩
  · refine ⟨by omega, fun j hj => ?_⟩
    have := lt_of_capOf_lt B (show capOf B a.mLastBufferIdx < capOf B j by omega)
    omega

/-- Claim C15: for every base exponent `B` and every `n`, after `n` `PushBack` calls on an
empty array (with a free store that can supply `k` buffers that hold the values) the
number of allocated buffers is the least `j` with `2 ^ (B + j) - 2 ^ B >= n`; for `n = 0`
that is 0. -/
theorem PushBack_lazy_allocation {T : Type} [Inhabited T] (B k : Nat) (h : Heap)
    (vs : List T) (hfit : vs.length ≤ 2 ^ (B + k) - 2 ^ B) (hBk : B + k ≤ 63)
    (hmem : 2 ^ (B + k) - 2 ^ B ≤ h.avail) :
    ∃ h1 a1, pushAll B h (empty T B) vs = .ok (h1, a1) ∧
      vs.length ≤ 2 ^ (B + a1.mBufferCount) - 2 ^ B ∧
      (∀ j, vs.length ≤ 2 ^ (B + j) - 2 ^ B → a1.mBufferCount ≤ j) ∧
      (vs.length = 0 → a1.mBufferCount = 0) := by
  obtain ⟨h1, a1, hrun, hinv⟩ := pushAll_run hBk vs h (empty T B) [] (PushInv_empty T B)
    (by simpa [capOf] using hfit) (by simp only [capOf]; omega)
  simp only [List.nil_append] at hinv
  obtain ⟨hle, hleast⟩ := PushInv_count_least hinv
  refine ⟨h1, a1, hrun, hle, hleast, fun h0 => ?_⟩
  have := hleast 0 (by rw [h0]; exact Nat.zero_le _)
  omega

theorem PushBack_lazy_allocation_witness :
    pushAll 2 heap0 (empty Nat 2) [0, 1, 2, 3, 4, 5, 6, 7, 8, 9] =
        .ok ({ next := 3, avail := 988 },
             { mSize := 10, mBufferCount := 2, mLastBufferIdx := 1,
               mBuffersPtr := some { addr := 1, cells := [0, 1, 2, 3] } ::
                 some { addr := 2, cells := [4, 5, 6, 7, 8, 9, 0, 0] } ::
                 List.replicate 60 none }) ∧
      ∃ h1 a1, pushAll 2 heap0 (empty Nat 2) [0, 1, 2, 3, 4, 5, 6, 7, 8, 9] = .ok (h1, a1) ∧
        [0, 1, 2, 3, 4, 5, 6, 7, 8, 9].length ≤ 2 ^ (2 + a1.mBufferCount) - 2 ^ 2 ∧
        (∀ j, [0, 1, 2, 3, 4, 5, 6, 7, 8, 9].length ≤ 2 ^ (2 + j) - 2 ^ 2 →
          a1.mBufferCount ≤ j) ∧
        ([0, 1, 2, 3, 4, 5, 6, 7, 8, 9].length = 0 → a1.mBufferCount = 0) :=
  ⟨by decide,
    PushBack_lazy_allocation 2 2 heap0 [0, 1, 2, 3, 4, 5, 6, 7, 8, 9] (by decide) (by decide)
      (by decide)⟩

theorem index_eq_of_table {T : Type} {B : Nat} {a a1 : DynamicArray T} {i : Nat}
    (h : ∀ bi off, (locate B i : Outcome T (Nat × Nat)) = .ok (bi, off) →
      a1.mBuffersPtr[bi]? = a.mBuffersPtr[bi]?) : index B a1 i = index B a i := by
  unfold index
  cases hl : (locate B i : Outcome T (Nat × Nat)) with
  | ok p =>
    obtain ⟨bi, off⟩ := p
    simp only [bind_ok, ptrAt, h bi off hl]
  | badAlloc _ _ => rfl
  | undefined => rfl
  | diverge => rfl

theorem DeleteBuffers_last {T : Type} (h : Heap) (a : DynamicArray T) {n : Nat}
    {p : Option (Buffer T)} (hc : a.mBufferCount = n + 1) (hp : a.mBuffersPtr[n]? = some p)
    (hsm : n + 1 < sizeMod) :
    DeleteBuffers h a n =
      .ok (deleteArray h p,
           { a with mBufferCount := n, mBuffersPtr := a.mBuffersPtr.set n none }) := by
  have hw : wsub (n + 1) 1 = n := by rw [wsub_of_le (by omega) hsm]; omega
  unfold DeleteBuffers
  rw [hc]
  unfold DeleteBuffersLoop
  simp only [hc, gt_iff_lt, Nat.lt_succ_self, if_true, hw, ptrAt, hp, bind_ok]
  cases n with
  | zero => simp [DeleteBuffersLoop]
  | succ m => simp [DeleteBuffersLoop]

theorem PopBack_after_pushes {T : Type} {B k : Nat} (h : Heap) {a : DynamicArray T}
    {vs : List T} (hinv : PushInv B a vs) (hne : 0 < vs.length) (hk : vs.length ≤ capOf B k)
    (hBk : B + k ≤ 63) :
    ∃ h2 a2, PopBack B h a = .ok (h2, a2, vs.length - 1) ∧ a2.mSize = vs.length - 1 ∧
      (∀ i, i < vs.length - 1 → index B a2 i = index B a i) ∧
      (∀ j, 1 ≤ j → vs.length - 1 = capOf B j →
        a.mBufferCount = j + 1 ∧ a2.mBufferCount = j ∧ a2.mBuffersPtr[j]? = some none ∧
        (∀ i, i < j → a2.mBuffersPtr[i]? = a.mBuffersPtr[i]?) ∧
        h2.next = h.next ∧ h2.avail = h.avail + 2 ^ (B + j)) ∧
      ((∀ j, 1 ≤ j → vs.length - 1 ≠ capOf B j) →
        a2.mBufferCount = a.mBufferCount ∧ a2.mBuffersPtr = a.mBuffersPtr ∧ h2 = h) ∧
      1 ≤ a2.mBufferCount := by
  have hsz := hinv.size_eq
  rcases hinv.last with ⟨-, -, h0⟩ | ⟨h1, h2, h3⟩
  · omega
  have hlk : a.mLastBufferIdx < k := lt_of_capOf_lt B (by omega)
  have hkm := @capOf_lt_sizeMod B k (by omega)
  have hpos := Nat.two_pow_pos B
  have hne0 : ¬ a.mSize ≤ 0 := by omega
  have e1 : wsub a.mSize 1 = a.mSize - 1 := wsub_of_le (by omega) (by omega)
  have hsucc := capOf_succ B a.mLastBufferIdx
  rw [h1] at hsucc
  have hcap : (Capacity B a.mLastBufferIdx : Outcome T Nat) = .ok (capOf B a.mLastBufferIdx) :=
    Capacity_eq (by omega)
  have huniq : ∀ j, vs.length - 1 = capOf B j → j = a.mLastBufferIdx := by
    intro j hj
    rcases Nat.lt_trichotomy j a.mLastBufferIdx with hlt | heq | hgt
    · have := capOf_lt_of_lt B hlt
      have := Nat.two_pow_pos (B + j); omega
    · exact heq
    · have := capOf_lt_of_lt B hgt
      have := Nat.two_pow_pos (B + a.mLastBufferIdx); omega
  by_cases hdel : a.mLastBufferIdx > 0 ∧ capOf B a.mLastBufferIdx = a.mSize - 1
  · obtain ⟨hl0, hceq⟩ := hdel
    have hcl := BufsOk_count_le hinv.bufs
    have hlen := hinv.tbl_len
    simp only [MaxBufferCount] at hlen
    obtain ⟨h2', tbl, hdelr, htl, hlow, -, hmid, -, -⟩ :=
      DeleteBuffers_run h { a with mSize := a.mSize - 1 } a.mLastBufferIdx hcl
        (by simp only [sizeMod]; omega)
    simp only at hdelr htl hlow hmid
    have hmin : min a.mBufferCount a.mLastBufferIdx = a.mLastBufferIdx := by omega
    rw [hmin] at hdelr
    obtain ⟨b, hb, hblen⟩ := hinv.bufs a.mLastBufferIdx (by omega)
    have hex := @DeleteBuffers_last T h { a with mSize := a.mSize - 1 } a.mLastBufferIdx
      (some b) h1.symm hb (by simp only [sizeMod]; omega)
    simp only [hdelr, Outcome.ok.injEq, Prod.mk.injEq] at hex
    have hheap : h2' = deleteArray h (some b) := hex.1
    have e2 : wsub a.mLastBufferIdx 1 = a.mLastBufferIdx - 1 :=
      wsub_of_le (by omega) (by simp only [sizeMod]; omega)
    refine ⟨h2',
      { mSize := a.mSize - 1, mBufferCount := a.mLastBufferIdx,
        mLastBufferIdx := a.mLastBufferIdx - 1, mBuffersPtr := tbl },
      ?_, by simp only; omega, fun i hi => ?_, fun j hj1 hj => ?_, fun hno => ?_,
      by simp only; omega⟩
    · rw [← hsz]
      simp only [PopBack, hne0, if_false, e1, hl0, if_true, hcap, bind_ok, hceq, hdelr,
        pure_eq_ok, e2]
    · apply index_eq_of_table
      intro bi off hloc
      obtain ⟨hloc2, hle, hoff⟩ := @locate_eq T B i (by omega)
      rw [hloc2] at hloc
      simp only [Outcome.ok.injEq, Prod.mk.injEq] at hloc
      have hbi : bi < a.mLastBufferIdx := by
        rw [← hloc.1]
        exact lt_of_capOf_lt B (by omega)
      exact hlow bi hbi
    · have hjl := huniq j hj
      subst hjl
      refine ⟨by omega, rfl, hmid _ (le_refl _) (by omega), fun i hi => hlow i hi, ?_, ?_⟩
      · rw [hheap]; rfl
      · rw [hheap]; simp only [deleteArray, hblen]
    · exact absurd (by omega) (hno a.mLastBufferIdx (by omega))
  · have hnodel : ∀ j, 1 ≤ j → vs.length - 1 = capOf B j → False := by
      intro j hj1 hj
      have := huniq j hj
      subst this
      exact hdel ⟨by omega, by omega⟩
    refine ⟨h, { a with mSize := a.mSize - 1 }, ?_, by simp only; omega, fun i _ => rfl,
      fun j hj1 hj => absurd hj (fun e => hnodel j hj1 e), fun _ => ⟨rfl, rfl, rfl⟩,
      by simp only; omega⟩
    by_cases hl0 : a.mLastBufferIdx > 0
    · have hcne : ¬ capOf B a.mLastBufferIdx = a.mSize - 1 := fun e => hdel ⟨hl0, e⟩
      rw [← hsz]
      simp only [PopBack, hne0, if_false, e1, hl0, if_true, hcap, bind_ok, hcne, pure_eq_ok]
    · rw [← hsz]
      simp only [PopBack, hne0, if_false, e1, hl0]

/-- Claim C19: for every array built from empty by `n >= 1` `PushBack` calls (with a free
store that can supply `k` buffers that hold the values), `PopBack()` returns `n - 1` and
sets the size to `n - 1`; every element at an index below `n - 1` keeps its slot and its
value; if `n - 1 = 2 ^ (B + j) - 2 ^ B` for some `j >= 1`, buffer `j` is freed (its table
entry is null and its `2 ^ (B + j)` cells are back in the free store, with no allocation)
and exactly the buffers `0 .. j-1` remain allocated, unchanged; otherwise the buffer
count, the table and the free store are unchanged; in both cases buffer 0 stays
allocated. -/
theorem PopBack_after_PushBack_sequence {T : Type} [Inhabited T] (B k : Nat) (h : Heap)
    (vs : List T) (hne : 1 ≤ vs.length) (hfit : vs.length ≤ 2 ^ (B + k) - 2 ^ B)
    (hBk : B + k ≤ 63) (hmem : 2 ^ (B + k) - 2 ^ B ≤ h.avail) :
    ∃ h1 a1 h2 a2, pushAll B h (empty T B) vs = .ok (h1, a1) ∧
      PopBack B h1 a1 = .ok (h2, a2, vs.length - 1) ∧ GetSize a2 = vs.length - 1 ∧
      (∀ i, i < vs.length - 1 →
        index B a2 i = index B a1 i ∧ ∃ r, index B a2 i = .ok r ∧ vs[i]? = some r.val) ∧
      (∀ j, 1 ≤ j → vs.length - 1 = 2 ^ (B + j) - 2 ^ B →
        a1.mBufferCount = j + 1 ∧ a2.mBufferCount = j ∧ a2.mBuffersPtr[j]? = some none ∧
        (∀ i, i < j → a2.mBuffersPtr[i]? = a1.mBuffersPtr[i]?) ∧
        h2.next = h1.next ∧ h2.avail = h1.avail + 2 ^ (B + j)) ∧
      ((∀ j, 1 ≤ j → vs.length - 1 ≠ 2 ^ (B + j) - 2 ^ B) →
        a2.mBufferCount = a1.mBufferCount ∧ a2.mBuffersPtr = a1.mBuffersPtr ∧ h2 = h1) ∧
      1 ≤ a2.mBufferCount := by
  obtain ⟨h1, a1, hrun, hinv⟩ := pushAll_run hBk vs h (empty T B) [] (PushInv_empty T B)
    (by simpa [capOf] using hfit) (by simp only [capOf]; omega)
  simp only [List.nil_append] at hinv
  obtain ⟨h2, a2, hpop, hsz, hidx, hfree, hkeep, hone⟩ :=
    PopBack_after_pushes h1 hinv (by omega) (show vs.length ≤ capOf B k from hfit) hBk
  have hkm := @capOf_lt_sizeMod B k (by omega)
  refine ⟨h1, a1, h2, a2, hrun, hpop, hsz, fun i hi => ⟨hidx i hi, ?_⟩, hfree, hkeep, hone⟩
  have hi2 : i < vs.length := by omega
  obtain ⟨r, hr1, hr2, -⟩ := index_of_Holds hinv.holds hi2
    (by simp only [capOf] at hkm hfit; omega)
  refine ⟨r, by rw [hidx i hi]; exact hr1, ?_⟩
  rw [hr2, List.getElem?_eq_getElem hi2]

theorem PopBack_after_PushBack_sequence_witness :
    (pushAll 2 heap0 (empty Nat 2) [0, 1, 2, 3, 4] = .ok ({ next := 3, avail := 988 }, fiveElems) ∧
      PopBack 2 { next := 3, avail := 988 } fiveElems =
        .ok ({ next := 3, avail := 996 }, fullFirst, 4)) ∧
    ∃ h1 a1 h2 a2, pushAll 2 heap0 (empty Nat 2) [0, 1, 2, 3, 4] = .ok (h1, a1) ∧
      PopBack 2 h1 a1 = .ok (h2, a2, [0, 1, 2, 3, 4].length - 1) ∧
      GetSize a2 = [0, 1, 2, 3, 4].length - 1 ∧
      (∀ i, i < [0, 1, 2, 3, 4].length - 1 →
        index 2 a2 i = index 2 a1 i ∧
          ∃ r, index 2 a2 i = .ok r ∧ [0, 1, 2, 3, 4][i]? = some r.val) ∧
      (∀ j, 1 ≤ j → [0, 1, 2, 3, 4].length - 1 = 2 ^ (2 + j) - 2 ^ 2 →
        a1.mBufferCount = j + 1 ∧ a2.mBufferCount = j ∧ a2.mBuffersPtr[j]? = some none ∧
        (∀ i, i < j → a2.mBuffersPtr[i]? = a1.mBuffersPtr[i]?) ∧
        h2.next = h1.next ∧ h2.avail = h1.avail + 2 ^ (2 + j)) ∧
      ((∀ j, 1 ≤ j → [0, 1, 2, 3, 4].length - 1 ≠ 2 ^ (2 + j) - 2 ^ 2) →
        a2.mBufferCount = a1.mBufferCount ∧ a2.mBuffersPtr = a1.mBuffersPtr ∧ h2 = h1) ∧
      1 ≤ a2.mBufferCount :=
  ⟨by decide, PopBack_after_PushBack_sequence 2 2 heap0 [0, 1, 2, 3, 4] (by decide)
    (by decide) (by decide) (by decide)⟩

/-! ## Iteration -/

theorem Next_after_pushes {T : Type} {B k m : Nat} {a : DynamicArray T} {vs : List T}
    {it : IteratorT} (hinv : PushInv B a vs) (hk : vs.length ≤ capOf B k) (hBk : B + k ≤ 63)
    (hit : IterInv B vs.length m it) :
    (m < vs.length → ∃ it1 r, IteratorT.Next a it = .ok (it1, some r) ∧
        index B a m = .ok r ∧ IterInv B vs.length (m + 1) it1) ∧
      (vs.length ≤ m → IteratorT.Next a it = .ok (it, none) ∧
        IterInv B vs.length (m + 1) it) ∧
      IteratorT.HasNext a it = decide (m < vs.length) := by
  have hsz := hinv.size_eq
  have hkm := @capOf_lt_sizeMod B k (by omega)
  have hpos := Nat.two_pow_pos B
  obtain ⟨hidx, hbs, hposn, hoff⟩ := hit
  refine ⟨fun hm => ?_, fun hm => ?_, ?_⟩
  · have hmin : min m vs.length = m := by omega
    rw [hmin] at hidx hposn
    have hcond : ¬ it.mIdx ≥ a.mSize := by omega
    -- the slot the call returns
    obtain ⟨p, o, hp, ho, hpo, hit1⟩ : ∃ p o, o < 2 ^ (B + p) ∧ capOf B p + o = m ∧
        B + p < 64 ∧
        (if it.mBufIdx ≥ it.mBufSize then
            ({ it with mBufSize := wadd it.mBufSize it.mBufSize, mBufIdx := 0,
                       mBufPtr := it.mBufPtr + 1 } : IteratorT)
          else it) = { mIdx := m, mBufIdx := o, mBufSize := 2 ^ (B + p), mBufPtr := p } := by
      have hsucc := capOf_succ B it.mBufPtr
      by_cases hadv : it.mBufIdx ≥ it.mBufSize
      · have hpk : it.mBufPtr + 1 < k := lt_of_capOf_lt B (by omega)
        have hpw : (2:Nat) ^ (B + (it.mBufPtr + 1)) = 2 * 2 ^ (B + it.mBufPtr) := by
          rw [← Nat.add_assoc, pow_succ]; ring
        have hlt := @pow_lt_sizeMod (B + (it.mBufPtr + 1)) (by omega)
        have e : wadd it.mBufSize it.mBufSize = 2 ^ (B + (it.mBufPtr + 1)) := by
          rw [hbs, wadd_of_lt (by omega), hpw]; ring
        refine ⟨it.mBufPtr + 1, 0, Nat.two_pow_pos _, by omega, by omega, ?_⟩
        rw [if_pos hadv, e, hidx]
      · have hpk : it.mBufPtr < k := lt_of_capOf_lt B (by omega)
        refine ⟨it.mBufPtr, it.mBufIdx, by omega, hposn, by omega, ?_⟩
        rw [if_neg hadv]
        cases it
        simp_all
    obtain ⟨b, hb1, hb2⟩ := hinv.holds p o hp (by omega)
    rw [ho, List.getElem?_eq_getElem hm] at hb2
    obtain ⟨hloc, hle, hoff2⟩ := @locate_eq T B m (by omega)
    obtain ⟨hbi, hoi⟩ := capOf_decomp_unique B hoff2 hp
      (show capOf B (bufIdxOf B m) + (m - capOf B (bufIdxOf B m)) = capOf B p + o by omega)
    have e1 : wadd m 1 = m + 1 := wadd_of_lt (by omega)
    have hpl := @pow_lt_sizeMod (B + p) hpo
    have e2 : wadd o 1 = o + 1 := wadd_of_lt (by omega)
    refine ⟨{ mIdx := m + 1, mBufIdx := o + 1, mBufSize := 2 ^ (B + p), mBufPtr := p },
      { addr := b.addr, off := o, val := vs[m] }, ?_, ?_, ?_⟩
    · simp only [IteratorT.Next, hcond, if_false, hit1, ptrAt, hb1, bind_ok, deref, hb2,
        pure_eq_ok, e1, e2]
    · have hoi2 : m - capOf B p = o := by omega
      simp only [index, hloc, bind_ok, hbi, hoi2, ptrAt, hb1, deref, hb2]
    · have hmin2 : min (m + 1) vs.length = m + 1 := by omega
      exact ⟨by rw [hmin2], rfl, by rw [hmin2]; simp only; omega, by simp only; omega⟩
  · have hmin : min m vs.length = vs.length := by omega
    have hmin2 : min (m + 1) vs.length = vs.length := by omega
    rw [hmin] at hidx hposn
    have hcond : it.mIdx ≥ a.mSize := by omega
    refine ⟨by simp only [IteratorT.Next, hcond, if_true], ?_⟩
    exact ⟨by rw [hmin2]; exact hidx, hbs, by rw [hmin2]; exact hposn, hoff⟩
  · simp only [IteratorT.HasNext, hidx, hsz]
    by_cases hm : m < vs.length
    · have : min m vs.length < vs.length := by omega
      simp [hm, this]
    · have : ¬ min m vs.length < vs.length := by omega
      simp [hm, this]

theorem nextTimes_after_pushes {T : Type} {B k : Nat} {a : DynamicArray T} {vs : List T}
    (hinv : PushInv B a vs) (hk : vs.length ≤ capOf B k) (hBk : B + k ≤ 63) :
    ∀ (c m : Nat) (it : IteratorT), IterInv B vs.length m it →
      ∃ it1, IteratorT.nextTimes a c it = .ok it1 ∧ IterInv B vs.length (m + c) it1 := by
  intro c
  induction c with
  | zero => intro m it hit; exact ⟨it, rfl, hit⟩
  | succ c ih =>
    intro m it hit
    obtain ⟨hlt, hge, -⟩ := Next_after_pushes hinv hk hBk hit
    by_cases hm : m < vs.length
    · obtain ⟨it1, r, hn, -, hit1⟩ := hlt hm
      obtain ⟨it2, hrun, hit2⟩ := ih (m + 1) it1 hit1
      refine ⟨it2, ?_, by rw [show m + (c + 1) = m + 1 + c by omega]; exact hit2⟩
      simp only [IteratorT.nextTimes, hn, bind_ok, hrun]
    · obtain ⟨hn, hit1⟩ := hge (by omega)
      obtain ⟨it2, hrun, hit2⟩ := ih (m + 1) it hit1
      refine ⟨it2, ?_, by rw [show m + (c + 1) = m + 1 + c by omega]; exact hit2⟩
      simp only [IteratorT.nextTimes, hn, bind_ok, hrun]

/-- Claim C14: for every array of size `n` built by `PushBack` calls (with a free store
that can supply `k` buffers that hold the values) and a fresh iterator over it, after any
number `m` of calls of `Next()` the next call returns, for `m < n`, the slot that
`operator[](m)` addresses, and for `m >= n` the null pointer, leaving the iterator as it
is; `HasNext()` is true exactly while `m < n`. -/
theorem Iterator_visits_in_logical_order {T : Type} [Inhabited T] (B k : Nat) (h : Heap)
    (vs : List T) (hfit : vs.length ≤ 2 ^ (B + k) - 2 ^ B) (hBk : B + k ≤ 63)
    (hmem : 2 ^ (B + k) - 2 ^ B ≤ h.avail) :
    ∃ h1 a1 it0, pushAll B h (empty T B) vs = .ok (h1, a1) ∧
      (IteratorT.create B : Outcome T IteratorT) = .ok it0 ∧
      ∀ m, ∃ itm, IteratorT.nextTimes a1 m it0 = .ok itm ∧
        IteratorT.HasNext a1 itm = decide (m < vs.length) ∧
        (m < vs.length → ∃ it1 r, IteratorT.Next a1 itm = .ok (it1, some r) ∧
          index B a1 m = .ok r) ∧
        (vs.length ≤ m → IteratorT.Next a1 itm = .ok (itm, none)) := by
  obtain ⟨h1, a1, hrun, hinv⟩ := pushAll_run hBk vs h (empty T B) [] (PushInv_empty T B)
    (by simpa [capOf] using hfit) (by simp only [capOf]; omega)
  simp only [List.nil_append] at hinv
  have hB : B < 64 := by omega
  have hit0 : IterInv B vs.length 0
      { mIdx := 0, mBufIdx := 0, mBufSize := 2 ^ B, mBufPtr := 0 } :=
    ⟨by simp, by simp, by simp [capOf_zero], by simp⟩
  refine ⟨h1, a1, { mIdx := 0, mBufIdx := 0, mBufSize := 2 ^ B, mBufPtr := 0 }, hrun, ?_,
    fun m => ?_⟩
  · simp only [IteratorT.create, FirstBufSize_of_lt hB, bind_ok, pure_eq_ok]
  · obtain ⟨itm, hrunm, hitm⟩ := nextTimes_after_pushes hinv hfit hBk m 0 _ hit0
    rw [Nat.zero_add] at hitm
    obtain ⟨hlt, hge, hhas⟩ := Next_after_pushes hinv hfit hBk hitm
    refine ⟨itm, hrunm, hhas, fun hm => ?_, fun hm => (hge hm).1⟩
    obtain ⟨it1, r, hn, hi, -⟩ := hlt hm
    exact ⟨it1, r, hn, hi⟩

theorem Iterator_visits_in_logical_order_witness :
    ∃ h1 a1 it0, pushAll 2 heap0 (empty Nat 2) [0, 1, 2, 3, 4, 5] = .ok (h1, a1) ∧
      (IteratorT.create 2 : Outcome Nat IteratorT) = .ok it0 ∧
      ∀ m, ∃ itm, IteratorT.nextTimes a1 m it0 = .ok itm ∧
        IteratorT.HasNext a1 itm = decide (m < [0, 1, 2, 3, 4, 5].length) ∧
        (m < [0, 1, 2, 3, 4, 5].length → ∃ it1 r, IteratorT.Next a1 itm = .ok (it1, some r) ∧
          index 2 a1 m = .ok r) ∧
        ([0, 1, 2, 3, 4, 5].length ≤ m → IteratorT.Next a1 itm = .ok (itm, none)) :=
  Iterator_visits_in_logical_order 2 2 heap0 [0, 1, 2, 3, 4, 5] (by decide) (by decide)
    (by decide)

/-! ## PushBack when the allocation fails -/

theorem bind_eq_badAlloc {T α β : Type} {x : Outcome T α} {f : α → Outcome T β} {h : Heap}
    {st : DynamicArray T} (hrun : (x >>= f) = .badAlloc h st) :
    x = .badAlloc h st ∨ ∃ a, x = .ok a ∧ f a = .badAlloc h st := by
  cases x with
  | ok a => exact Or.inr ⟨a, rfl, hrun⟩
  | badAlloc h0 st0 =>
    left
    simpa [bind, Outcome.bind] using hrun
  | undefined => simp [bind, Outcome.bind] at hrun
  | diverge => simp [bind, Outcome.bind] at hrun

theorem shl1_ne_badAlloc {T : Type} (k : Nat) (h : Heap) (st : DynamicArray T) :
    (shl1 k : Outcome T Nat) ≠ .badAlloc h st := by
  unfold shl1; split <;> simp

theorem BufSize_ne_badAlloc {T : Type} (B j : Nat) (h : Heap) (st : DynamicArray T) :
    (BufSize B j : Outcome T Nat) ≠ .badAlloc h st := shl1_ne_badAlloc _ h st

theorem Capacity_ne_badAlloc {T : Type} (B j : Nat) (h : Heap) (st : DynamicArray T) :
    (Capacity B j : Outcome T Nat) ≠ .badAlloc h st := by
  intro hc
  unfold Capacity at hc
  rcases bind_eq_badAlloc hc with h1 | ⟨_, -, h2⟩
  · exact shl1_ne_badAlloc _ h st h1
  · rcases bind_eq_badAlloc h2 with h3 | ⟨_, -, h4⟩
    · exact shl1_ne_badAlloc _ h st h3
    · simp at h4

theorem store_ne_badAlloc {T : Type} (a : DynamicArray T) (i off : Nat) (v : T) (h : Heap)
    (st : DynamicArray T) : store a i off v ≠ .badAlloc h st := by
  intro hc
  unfold store at hc
  rcases bind_eq_badAlloc hc with h1 | ⟨p, -, h2⟩
  · unfold ptrAt at h1; split at h1 <;> simp at h1
  · cases p with
    | none => simp at h2
    | some b =>
      simp only at h2
      split at h2 <;> simp at h2

theorem allocBuffer_badAlloc {T : Type} [Inhabited T] {h h1 : Heap} {a st : DynamicArray T}
    {n : Nat} (hrun : allocBuffer h a n = .badAlloc h1 st) : h1 = h ∧ st = a := by
  unfold allocBuffer at hrun
  cases hn : (newArray h n : Option (Heap × Buffer T)) with
  | none =>
    rw [hn] at hrun
    simp only [Outcome.badAlloc.injEq] at hrun
    exact ⟨hrun.1.symm, hrun.2.symm⟩
  | some p =>
    rw [hn] at hrun
    simp only at hrun
    split at hrun <;> simp at hrun

theorem PushBackGrow_tail_badAlloc {T : Type} [Inhabited T] {B : Nat} {h h1 : Heap}
    {a1 st : DynamicArray T} {flag : Bool}
    (hrun : (if flag = true then do
        let theSize ← BufSize B a1.mBufferCount
        allocBuffer h a1 theSize
      else (pure (h, a1) : Outcome T (Heap × DynamicArray T))) = .badAlloc h1 st) :
    h1 = h ∧ st = a1 := by
  cases flag with
  | true =>
    simp only [if_true] at hrun
    rcases bind_eq_badAlloc hrun with h2 | ⟨n, -, h3⟩
    · exact absurd h2 (BufSize_ne_badAlloc _ _ _ _)
    · exact allocBuffer_badAlloc h3
  | false => simp at hrun

/-- Claim C12 as amended: whenever the buffer allocation inside `PushBack` throws, in any
state, the free store, the size, the buffer count and the whole pointer table (all
buffers) are exactly what they were before the call; `mLastBufferIdx` is unchanged when
the array had no buffer for it on entry (`mLastBufferIdx >= mBufferCount`), and one
higher than before when the allocation was for the buffer after a full last buffer. -/
theorem PushBack_failed_allocation_state {T : Type} [Inhabited T] (B : Nat) (h h1 : Heap)
    (a st : DynamicArray T) (v : T) (hrun : PushBack B h a v = .badAlloc h1 st) :
    h1 = h ∧ st.mSize = a.mSize ∧ st.mBufferCount = a.mBufferCount ∧
      st.mBuffersPtr = a.mBuffersPtr ∧
      ((a.mLastBufferIdx ≥ a.mBufferCount ∧ st.mLastBufferIdx = a.mLastBufferIdx) ∨
        (a.mLastBufferIdx < a.mBufferCount ∧
          st.mLastBufferIdx = wadd a.mLastBufferIdx 1)) := by
  unfold PushBack at hrun
  rcases bind_eq_badAlloc hrun with hg | ⟨⟨h2, a2⟩, -, hrest⟩
  · unfold PushBackGrow at hg
    by_cases hc : a.mLastBufferIdx ≥ a.mBufferCount
    · simp only [hc, if_true, pure_eq_ok, bind_ok] at hg
      obtain ⟨e1, e2⟩ := @PushBackGrow_tail_badAlloc T _ B h h1 a st true (by simpa using hg)
      subst e2
      exact ⟨e1, rfl, rfl, rfl, Or.inl ⟨hc, rfl⟩⟩
    · simp only [hc, if_false] at hg
      rcases bind_eq_badAlloc hg with hcap | ⟨cap, -, hg2⟩
      · exact absurd hcap (Capacity_ne_badAlloc _ _ _ _)
      · by_cases hfull : cap ≤ a.mSize
        · simp only [hfull, if_true, pure_eq_ok, bind_ok] at hg2
          obtain ⟨e1, e2⟩ := @PushBackGrow_tail_badAlloc T _ B h h1
            { a with mLastBufferIdx := wadd a.mLastBufferIdx 1 } st _ hg2
          subst e2
          exact ⟨e1, rfl, rfl, rfl, Or.inr ⟨by omega, rfl⟩⟩
        · simp only [hfull, if_false, pure_eq_ok, bind_ok] at hg2
          exact absurd hg2 (by simp)
  · rcases bind_eq_badAlloc hrest with hcap | ⟨cap, -, hrest2⟩
    · exact absurd hcap (Capacity_ne_badAlloc _ _ _ _)
    · rcases bind_eq_badAlloc hrest2 with hst | ⟨p, -, hrest3⟩
      · exact absurd hst (store_ne_badAlloc _ _ _ _ _ _)
      · simp at hrest3

/-- Claim C12 as stated fails: base exponent 2, a free store with room for 4 elements;
after `PushBack` of 0..3 (the array `fullFirst`) the next `PushBack(4)` finds buffer 0
full, runs `++mLastBufferIdx` and then `new T[8]` throws: the array is left with
`mLastBufferIdx = 1` (`fullFirstStepped`), not the 0 it had before the call. -/
theorem PushBack_failed_allocation_changes_last :
    pushAll 2 { next := 1, avail := 4 } (empty Nat 2) [0, 1, 2, 3] =
        .ok (heapEmpty, fullFirst) ∧
      PushBack 2 heapEmpty fullFirst 4 = .badAlloc heapEmpty fullFirstStepped ∧
      fullFirstStepped.mLastBufferIdx = 1 ∧ fullFirst.mLastBufferIdx = 0 ∧
      fullFirstStepped ≠ fullFirst := by
  decide

theorem PushBack_failed_allocation_state_witness :
    heapEmpty = heapEmpty ∧ fullFirstStepped.mSize = fullFirst.mSize ∧
      fullFirstStepped.mBufferCount = fullFirst.mBufferCount ∧
      fullFirstStepped.mBuffersPtr = fullFirst.mBuffersPtr ∧
      ((fullFirst.mLastBufferIdx ≥ fullFirst.mBufferCount ∧
          fullFirstStepped.mLastBufferIdx = fullFirst.mLastBufferIdx) ∨
        (fullFirst.mLastBufferIdx < fullFirst.mBufferCount ∧
          fullFirstStepped.mLastBufferIdx = wadd fullFirst.mLastBufferIdx 1)) :=
  PushBack_failed_allocation_state 2 heapEmpty heapEmpty fullFirst fullFirstStepped 4
    (by decide)

/-! ## Assignment: which buffers are allocated and which are kept -/

theorem allocBuffer_next {T : Type} [Inhabited T] {h h1 : Heap} {a a1 : DynamicArray T}
    {n : Nat} (hrun : allocBuffer h a n = .ok (h1, a1)) : h1.next = h.next + 1 := by
  unfold allocBuffer at hrun
  cases hn : (newArray h n : Option (Heap × Buffer T)) with
  | none => rw [hn] at hrun; simp at hrun
  | some p =>
    obtain ⟨h2, buf⟩ := p
    rw [hn] at hrun
    simp only at hrun
    split at hrun
    · simp only [Outcome.ok.injEq, Prod.mk.injEq] at hrun
      obtain ⟨rfl, -⟩ := hrun
      simp only [newArray] at hn
      split at hn
      · simp only [Option.some.injEq, Prod.mk.injEq] at hn
        obtain ⟨rfl, -⟩ := hn
        rfl
      · simp at hn
    · simp at hrun

theorem allocIfBeyond_next {T : Type} [Inhabited T] {h h1 : Heap} {a a1 : DynamicArray T}
    {i n : Nat} (hlen : a.mBuffersPtr.length < sizeMod)
    (hrun : allocIfBeyond h a i n = .ok (h1, a1)) :
    h1.next + a.mBufferCount = h.next + a1.mBufferCount := by
  have hrun0 := hrun
  unfold allocIfBeyond at hrun
  by_cases hc : i ≥ a.mBufferCount
  · rw [if_pos hc] at hrun
    obtain ⟨hidx, -, -, hcnt, -⟩ := allocBuffer_inv hrun
    have hw : wadd a.mBufferCount 1 = a.mBufferCount + 1 := wadd_of_lt (by omega)
    have := allocBuffer_next hrun
    omega
  · rw [if_neg hc] at hrun
    simp only [Outcome.ok.injEq, Prod.mk.injEq] at hrun
    obtain ⟨rfl, rfl⟩ := hrun
    rfl

theorem copyCells_addr {T : Type} {s d d1 : Option (Buffer T)} {n : Nat}
    (hrun : copyCells s d n = .ok d1) :
    ∀ b, d = some b → ∃ b1, d1 = some b1 ∧ b1.addr = b.addr := by
  intro b hb
  subst hb
  unfold copyCells at hrun
  by_cases hn : n = 0
  · rw [if_pos hn] at hrun
    simp only [Outcome.ok.injEq] at hrun
    exact ⟨b, hrun.symm, rfl⟩
  · rw [if_neg hn] at hrun
    cases s with
    | none => simp at hrun
    | some sb =>
      simp only at hrun
      split at hrun
      · simp only [Outcome.ok.injEq] at hrun
        exact ⟨_, hrun.symm, rfl⟩
      · simp at hrun

theorem ptrAt_inv {T : Type} {tbl : List (Option (Buffer T))} {i : Nat} {p : Option (Buffer T)}
    (hrun : ptrAt tbl i = .ok p) : tbl[i]? = some p := by
  unfold ptrAt at hrun
  split at hrun
  · rename_i q hq
    simp only [Outcome.ok.injEq] at hrun
    rw [hq, hrun]
  · simp at hrun

theorem assign_set_keeps_addr {T : Type} {tbl : List (Option (Buffer T))} {j : Nat}
    {p d1 : Option (Buffer T)} (hp : tbl[j]? = some p)
    (hd : ∀ b, p = some b → ∃ b1, d1 = some b1 ∧ b1.addr = b.addr) :
    ∀ (i : Nat) (b : Buffer T), tbl[i]? = some (some b) →
      ∃ b1, (tbl.set j d1)[i]? = some (some b1) ∧
      b1.addr = b.addr := by
  intro i b hb
  by_cases hij : i = j
  · subst hij
    rw [hp] at hb
    simp only [Option.some.injEq] at hb
    obtain ⟨b1, hb1, hb2⟩ := hd b hb
    have hlt : i < tbl.length := by
      by_contra hc
      rw [List.getElem?_eq_none (by omega)] at hp
      simp at hp
    exact ⟨b1, by rw [List.getElem?_set_self hlt, hb1], hb2⟩
  · exact ⟨b, by rw [List.getElem?_set_ne (fun e => hij e.symm)]; exact hb, rfl⟩

theorem AssignLoop_frame {T : Type} [Inhabited T] {src : DynamicArray T} {h1 : Heap}
    {a1 : DynamicArray T} {jf : Nat} :
    ∀ (fuel : Nat) (h : Heap) (a : DynamicArray T) (j bs c : Nat),
      a.mBuffersPtr.length < sizeMod → AssignLoop fuel h a src j bs c = .ok (h1, a1, jf) →
      h1.next + a.mBufferCount = h.next + a1.mBufferCount ∧
        a.mBufferCount ≤ a1.mBufferCount ∧ a1.mBuffersPtr.length = a.mBuffersPtr.length ∧
        ∀ (i : Nat) (b : Buffer T), i < a.mBufferCount → a.mBuffersPtr[i]? = some (some b) →
          ∃ b1, a1.mBuffersPtr[i]? = some (some b1) ∧ b1.addr = b.addr := by
  intro fuel
  induction fuel with
  | zero => intro h a j bs c _ hrun; simp [AssignLoop] at hrun
  | succ fuel ih =>
    intro h a j bs c hlen hrun
    unfold AssignLoop at hrun
    by_cases hc : c > 0
    · rw [if_pos hc] at hrun
      obtain ⟨⟨h2, a2⟩, halloc, hrun⟩ := bind_eq_ok hrun
      obtain ⟨sp, -, hrun⟩ := bind_eq_ok hrun
      obtain ⟨dp, hdp, hrun⟩ := bind_eq_ok hrun
      try simp only at hrun
      try simp only at hdp
      have hnext := allocIfBeyond_next hlen halloc
      obtain ⟨hc2, -, -, hl2, ht2⟩ := allocIfBeyond_frame hlen halloc
      have hdp2 := ptrAt_inv hdp
      have key : ∀ (n j2 bs2 c2 : Nat) (d1 : Option (Buffer T)),
          copyCells sp dp n = .ok d1 →
          AssignLoop fuel h2 { a2 with mBuffersPtr := a2.mBuffersPtr.set j d1 } src j2 bs2 c2 =
            .ok (h1, a1, jf) →
          h1.next + a.mBufferCount = h.next + a1.mBufferCount ∧
            a.mBufferCount ≤ a1.mBufferCount ∧
            a1.mBuffersPtr.length = a.mBuffersPtr.length ∧
            ∀ (i : Nat) (b : Buffer T), i < a.mBufferCount →
              a.mBuffersPtr[i]? = some (some b) →
              ∃ b1, a1.mBuffersPtr[i]? = some (some b1) ∧ b1.addr = b.addr := by
        intro n j2 bs2 c2 d1 hcopy hrec
        obtain ⟨hn3, hc3, hl3, ht3⟩ := ih h2 _ j2 bs2 c2
          (by simp only [List.length_set]; omega) hrec
        simp only [List.length_set] at hn3 hc3 hl3 ht3
        refine ⟨by omega, by omega, by omega, fun i b hi hb => ?_⟩
        have hb2 : a2.mBuffersPtr[i]? = some (some b) := by rw [ht2 i hi]; exact hb
        obtain ⟨b1, hb1, hadr1⟩ :=
          assign_set_keeps_addr hdp2 (copyCells_addr hcopy) i b hb2
        obtain ⟨b3, hb3, hadr3⟩ := ht3 i b1 (by omega) hb1
        exact ⟨b3, hb3, by rw [hadr3, hadr1]⟩
      by_cases hbig : c > bs
      · rw [if_pos hbig] at hrun
        obtain ⟨d1, hcopy, hrec⟩ := bind_eq_ok hrun
        exact key _ _ _ _ d1 hcopy hrec
      · rw [if_neg hbig] at hrun
        obtain ⟨d1, hcopy, hrec⟩ := bind_eq_ok hrun
        exact key _ _ _ _ d1 hcopy hrec
    · rw [if_neg hc] at hrun
      simp only [Outcome.ok.injEq, Prod.mk.injEq] at hrun
      obtain ⟨rfl, rfl, -⟩ := hrun
      exact ⟨rfl, le_refl _, rfl, fun i b _ hb => ⟨b, hb, rfl⟩⟩

theorem AssignLoop_zero_count {T : Type} [Inhabited T] (fuel : Nat) (h : Heap)
    (a src : DynamicArray T) (j bs : Nat) :
    AssignLoop (fuel + 1) h a src j bs 0 = .ok (h, a, j) := by
  unfold AssignLoop
  simp

/-- Claim C20: for every well-formed source `A` of size `s` and well-formed destination `D`
with `c` allocated buffers (and a free store that can supply the buffers `A` has and `D`
lacks), the assignment `D = A` returns normally, performs exactly `need - c` allocations
(none when `need ≤ c`), where `need = buffersNeeded B s`, leaves every buffer of `D` with
index below `min c need` at its address, ends with `mLastBufferIdx = max need 1 - 1` and
with `min (max c need) (mLastBufferIdx + 2)` allocated buffers, which is at most
`mLastBufferIdx + 2`. -/
theorem assign_reuses_and_trims {T : Type} [Inhabited T] (B : Nat) (h : Heap)
    (d src : DynamicArray T) (hd : WellFormed B d) (hs : WellFormed B src)
    (hlim : B + src.mBufferCount ≤ 63)
    (hmem : 2 ^ (B + src.mBufferCount) - 2 ^ B ≤
      h.avail + (2 ^ (B + d.mBufferCount) - 2 ^ B)) :
    ∃ h1 d1, assign B h d src = .ok (h1, d1) ∧
      h1.next = h.next + (buffersNeeded B src.mSize - d.mBufferCount) ∧
      (∀ j, j < min d.mBufferCount (buffersNeeded B src.mSize) →
        ∃ b b1, d.mBuffersPtr[j]? = some (some b) ∧ d1.mBuffersPtr[j]? = some (some b1) ∧
          b1.addr = b.addr) ∧
      d1.mLastBufferIdx = max (buffersNeeded B src.mSize) 1 - 1 ∧
      d1.mBufferCount =
        min (max d.mBufferCount (buffersNeeded B src.mSize)) (d1.mLastBufferIdx + 2) ∧
      d1.mBufferCount ≤ d1.mLastBufferIdx + 2 := by
  have hB : B < 64 := by omega
  have hdl : d.mBuffersPtr.length = 64 - B := hd.tbl_len
  have hdc := BufsOk_count_le hd.bufs
  rcases Nat.eq_zero_or_pos src.mSize with h0 | hpos
  · have hneed : buffersNeeded B src.mSize = 0 := by simp [buffersNeeded, h0]
    have hw : wadd 0 2 = 2 := by decide
    obtain ⟨h3, tbl, hdel, htl, hlow, -, -, hnx, -⟩ :=
      DeleteBuffers_run h { d with mLastBufferIdx := 0 } 2 hdc
        (by simp only [sizeMod]; omega)
    simp only at hdel htl hlow
    refine ⟨h3,
      { mSize := src.mSize, mBufferCount := min d.mBufferCount 2,
        mLastBufferIdx := 0, mBuffersPtr := tbl },
      ?_, ?_, ?_, ?_, ?_, ?_⟩
    · simp only [assign, FirstBufSize_of_lt hB, bind_ok, h0, AssignLoop_zero_count, hw, hdel,
        pure_eq_ok]
    · rw [hneed, hnx]; omega
    · intro j hj
      rw [hneed] at hj
      omega
    · rw [hneed]; rfl
    · rw [hneed]; simp only; omega
    · simp only; omega
  · have hcop0 : CopiedUpTo B d.mBuffersPtr src.mBuffersPtr (capOf B 0) := by
      intro j o _ hlt
      rw [capOf_zero] at hlt; omega
    obtain ⟨h1, a1, jf, hrun, hl1, hb1, -, hsz1, hjf1, -, hc1, hc2, hc3⟩ :=
      AssignLoop_run hs hlim 65 h d 0 (by omega) (by omega) hd.tbl_len hd.bufs (Nat.zero_le _)
        (by rw [capOf_zero]; omega) hcop0 hmem
    simp only [Nat.add_zero, capOf_zero, Nat.sub_zero] at hrun
    obtain ⟨hnx1, -, -, hadr⟩ :=
      AssignLoop_frame 65 h d 0 _ _ (by rw [hdl]; simp only [sizeMod]; omega) hrun
    have hlow0 : capOf B jf < src.mSize := by
      rcases hjf1 with hl | hr
      · exact hl
      · rw [hr, capOf_zero]; exact hpos
    have hjc : jf < a1.mBufferCount := hc3 hlow0
    have hidx : bufIdxOf B (src.mSize - 1) = jf := by
      apply bufIdxOf_eq
      · have := capOf_add_pow B jf; omega
      · have := capOf_add_pow B (jf + 1)
        have e : B + (jf + 1) = B + jf + 1 := by omega
        rw [e] at this; omega
    have hneed : buffersNeeded B src.mSize = jf + 1 := by
      simp only [buffersNeeded, if_neg (show src.mSize ≠ 0 by omega), hidx]; omega
    have hcl := BufsOk_count_le hb1
    have hl1b : a1.mBuffersPtr.length = 64 - B := hl1
    have hw : wadd jf 2 = jf + 2 := wadd_of_lt (by simp only [sizeMod]; omega)
    obtain ⟨h3, tbl, hdel, htl, hlow, -, -, hnx, -⟩ :=
      DeleteBuffers_run h1 { a1 with mLastBufferIdx := jf } (jf + 2) hcl
        (by simp only [sizeMod]; omega)
    simp only at hdel htl hlow
    refine ⟨h3,
      { mSize := src.mSize, mBufferCount := min a1.mBufferCount (jf + 2),
        mLastBufferIdx := jf, mBuffersPtr := tbl },
      ?_, ?_, ?_, ?_, ?_, ?_⟩
    · simp only [assign, FirstBufSize_of_lt hB, bind_ok, hrun, hw, hdel, pure_eq_ok]
    · rw [hneed, hnx]; omega
    · intro j hj
      rw [hneed] at hj
      obtain ⟨b, hb, -⟩ := hd.bufs j (by omega)
      obtain ⟨b1, hb1a, hb1b⟩ := hadr j b (by omega) hb
      refine ⟨b, b1, hb, ?_, hb1b⟩
      simp only
      rw [hlow j (by omega)]; exact hb1a
    · rw [hneed]; simp only; omega
    · rw [hneed]; simp only; omega
    · simp only; omega

theorem assign_reuses_and_trims_witness :
    ∃ h1 d1, assign 2 heap0 oneElem sixElems = .ok (h1, d1) ∧
      h1.next = heap0.next + (buffersNeeded 2 sixElems.mSize - oneElem.mBufferCount) ∧
      (∀ j, j < min oneElem.mBufferCount (buffersNeeded 2 sixElems.mSize) →
        ∃ b b1, oneElem.mBuffersPtr[j]? = some (some b) ∧
          d1.mBuffersPtr[j]? = some (some b1) ∧ b1.addr = b.addr) ∧
      d1.mLastBufferIdx = max (buffersNeeded 2 sixElems.mSize) 1 - 1 ∧
      d1.mBufferCount =
        min (max oneElem.mBufferCount (buffersNeeded 2 sixElems.mSize))
          (d1.mLastBufferIdx + 2) ∧
      d1.mBufferCount ≤ d1.mLastBufferIdx + 2 :=
  assign_reuses_and_trims 2 heap0 oneElem sixElems WellFormed_oneElem WellFormed_sixElems
    (by decide) (by decide)

/-! ## The invariant of the reachable states -/

theorem BufsWithin_count_le {T : Type} {B c : Nat} {tbl : List (Option (Buffer T))}
    (hb : BufsWithin B tbl c) : c ≤ tbl.length := by
  by_contra hc
  obtain ⟨b, hb1, -⟩ := hb tbl.length (by omega)
  rw [List.getElem?_eq_none (le_refl _)] at hb1
  exact absurd hb1 (by simp)

theorem ArrayInv_count_le {T : Type} {B : Nat} {a : DynamicArray T} (hI : ArrayInv B a) :
    a.mBufferCount ≤ 64 - B := by
  have h1 := BufsWithin_count_le hI.bufs
  have h2 : a.mBuffersPtr.length = 64 - B := hI.tbl_len
  omega

theorem ArrayInv_size_bound {T : Type} {B : Nat} {a : DynamicArray T} (hI : ArrayInv B a) :
    a.mSize < sizeMod ∧ (0 < a.mSize → B < 64 ∧ a.mSize + 2 ^ B ≤ sizeMod) := by
  have hc := ArrayInv_count_le hI
  have hs := hI.size_le
  rcases Nat.eq_zero_or_pos a.mBufferCount with h0 | hpos
  · rw [h0, capOf_zero] at hs
    exact ⟨by simp only [sizeMod]; omega, fun h => by omega⟩
  · have hle := @capOf_lt_sizeMod B a.mBufferCount (by omega)
    have hpos2 : 0 < 2 ^ B := Nat.two_pow_pos B
    exact ⟨by omega, fun _ => ⟨by omega, by omega⟩⟩

theorem ArrayInv_empty (T : Type) (B : Nat) : ArrayInv B (empty T B) := by
  refine ⟨by simp [empty], ?_, by simp [empty], by simp [empty]⟩
  intro j hj
  simp [empty] at hj

theorem shl1_inv {T : Type} {k n : Nat} (hrun : (shl1 k : Outcome T Nat) = .ok n) :
    k < 64 ∧ n = 2 ^ k := by
  unfold shl1 at hrun
  by_cases hk : k < 64
  · rw [if_pos hk] at hrun
    simp only [Outcome.ok.injEq] at hrun
    exact ⟨hk, hrun.symm⟩
  · rw [if_neg hk] at hrun
    simp at hrun

theorem wadd_le (a b : Nat) : wadd a b ≤ a + b := Nat.mod_le _ _

theorem wadd_lt (a b : Nat) : wadd a b < sizeMod := Nat.mod_lt _ (by decide)

theorem wsub_lt (a b : Nat) : wsub a b < sizeMod := Nat.mod_lt _ (by decide)

theorem BufSize_inv {T : Type} {B j n : Nat} (hrun : (BufSize B j : Outcome T Nat) = .ok n) :
    n ≤ 2 ^ (B + j) ∧ n < sizeMod := by
  unfold BufSize at hrun
  obtain ⟨hk, rfl⟩ := shl1_inv hrun
  exact ⟨Nat.pow_le_pow_right (by norm_num) (wadd_le B j), pow_lt_sizeMod hk⟩

theorem Capacity_inv {T : Type} {B j c : Nat} (hj : j ≤ 64)
    (hrun : (Capacity B j : Outcome T Nat) = .ok c) :
    B < 64 ∧ B + j < 64 ∧ c = capOf B j := by
  unfold Capacity at hrun
  obtain ⟨hi, hhi, hrun⟩ := bind_eq_ok hrun
  obtain ⟨lo, hlo, hrun⟩ := bind_eq_ok hrun
  obtain ⟨hB, rfl⟩ := shl1_inv hlo
  obtain ⟨hk, rfl⟩ := shl1_inv hhi
  have e1 : wadd B j = B + j := wadd_of_lt (by simp only [sizeMod]; omega)
  rw [e1] at hk
  simp only [pure_eq_ok, Outcome.ok.injEq] at hrun
  rw [e1] at hrun
  have h2 : 2 ^ B ≤ 2 ^ (B + j) := Nat.pow_le_pow_right (by norm_num) (by omega)
  rw [wsub_of_le h2 (pow_lt_sizeMod hk)] at hrun
  exact ⟨hB, hk, by rw [capOf]; exact hrun.symm⟩

theorem BufsWithin_set {T : Type} {B c i : Nat} {tbl : List (Option (Buffer T))}
    {b b1 : Buffer T} (hb : BufsWithin B tbl c) (hi : tbl[i]? = some (some b))
    (hlen : b1.cells.length = b.cells.length) : BufsWithin B (tbl.set i (some b1)) c := by
  intro j hj
  obtain ⟨bj, hbj, hlj⟩ := hb j hj
  by_cases hij : j = i
  · subst hij
    have hlt : j < tbl.length := by
      by_contra hc
      rw [List.getElem?_eq_none (by omega)] at hi
      simp at hi
    rw [hbj] at hi
    simp only [Option.some.injEq] at hi
    subst hi
    exact ⟨b1, List.getElem?_set_self hlt, by omega⟩
  · exact ⟨bj, by rw [List.getElem?_set_ne (fun e => hij e.symm)]; exact hbj, hlj⟩

theorem allocBuffer_table {T : Type} [Inhabited T] {B : Nat} {h h1 : Heap}
    {a a1 : DynamicArray T} {n : Nat} (htl : a.mBuffersPtr.length = MaxBufferCount B)
    (hb : BufsWithin B a.mBuffersPtr a.mBufferCount) (hn : n ≤ 2 ^ (B + a.mBufferCount))
    (hrun : allocBuffer h a n = .ok (h1, a1)) :
    a1.mBuffersPtr.length = MaxBufferCount B ∧ BufsWithin B a1.mBuffersPtr a1.mBufferCount ∧
      a1.mBufferCount = a.mBufferCount + 1 ∧ a1.mSize = a.mSize ∧
      a1.mLastBufferIdx = a.mLastBufferIdx := by
  obtain ⟨hidx, hs, hl, hcnt, buf, hbl, htbl⟩ := allocBuffer_inv hrun
  have hml : a.mBuffersPtr.length = 64 - B := htl
  have hw : wadd a.mBufferCount 1 = a.mBufferCount + 1 :=
    wadd_of_lt (by simp only [sizeMod]; omega)
  rw [hw] at hcnt
  refine ⟨by rw [htbl]; simpa using htl, ?_, hcnt, hs, hl⟩
  intro j hj
  rw [hcnt] at hj
  rw [htbl]
  by_cases hjc : j = a.mBufferCount
  · subst hjc
    exact ⟨buf, List.getElem?_set_self hidx, by omega⟩
  · obtain ⟨bj, hbj, hlj⟩ := hb j (by omega)
    exact ⟨bj, by rw [List.getElem?_set_ne (fun e => hjc e.symm)]; exact hbj, hlj⟩

theorem allocIfBeyond_table {T : Type} [Inhabited T] {B : Nat} {h h1 : Heap}
    {a a1 : DynamicArray T} {i n : Nat} (htl : a.mBuffersPtr.length = MaxBufferCount B)
    (hb : BufsWithin B a.mBuffersPtr a.mBufferCount) (hi : i ≤ a.mBufferCount)
    (hn : n ≤ 2 ^ (B + i)) (hrun : allocIfBeyond h a i n = .ok (h1, a1)) :
    a1.mBuffersPtr.length = MaxBufferCount B ∧ BufsWithin B a1.mBuffersPtr a1.mBufferCount ∧
      a.mBufferCount ≤ a1.mBufferCount ∧ a1.mBufferCount ≤ a.mBufferCount + 1 ∧
      i < a1.mBufferCount ∧ a1.mSize = a.mSize ∧ a1.mLastBufferIdx = a.mLastBufferIdx := by
  unfold allocIfBeyond at hrun
  by_cases hc : i ≥ a.mBufferCount
  · rw [if_pos hc] at hrun
    have hic : i = a.mBufferCount := by omega
    obtain ⟨h1a, h2a, h3a, h4a, h5a⟩ := allocBuffer_table htl hb (by rw [← hic]; exact hn) hrun
    exact ⟨h1a, h2a, by omega, by omega, by omega, h4a, h5a⟩
  · rw [if_neg hc] at hrun
    simp only [Outcome.ok.injEq, Prod.mk.injEq] at hrun
    obtain ⟨-, rfl⟩ := hrun
    exact ⟨htl, hb, le_refl _, by omega, by omega, rfl, rfl⟩

theorem DeleteBuffers_inv {T : Type} {B : Nat} {h h1 : Heap} {a a1 : DynamicArray T} {n : Nat}
    (htl : a.mBuffersPtr.length = MaxBufferCount B)
    (hb : BufsWithin B a.mBuffersPtr a.mBufferCount)
    (hrun : DeleteBuffers h a n = .ok (h1, a1)) :
    a1.mBuffersPtr.length = MaxBufferCount B ∧ BufsWithin B a1.mBuffersPtr a1.mBufferCount ∧
      a1.mBufferCount = min a.mBufferCount n ∧ a1.mSize = a.mSize ∧
      a1.mLastBufferIdx = a.mLastBufferIdx ∧
      ∀ i, i < n → a1.mBuffersPtr[i]? = a.mBuffersPtr[i]? := by
  have hcl := BufsWithin_count_le hb
  have hml : a.mBuffersPtr.length = 64 - B := htl
  obtain ⟨h2, tbl, hdel, hlen, hlow, -, -, -, -⟩ :=
    DeleteBuffers_run h a n hcl (by simp only [sizeMod]; omega)
  rw [hdel] at hrun
  simp only [Outcome.ok.injEq, Prod.mk.injEq] at hrun
  obtain ⟨-, rfl⟩ := hrun
  refine ⟨by simp only [hlen, htl], ?_, rfl, rfl, rfl, hlow⟩
  intro j hj
  simp only at hj ⊢
  rw [hlow j (by omega)]
  exact hb j (by omega)

theorem PushBackGrow_tail_inv {T : Type} [Inhabited T] {B : Nat} {h h2 : Heap}
    {a1 a2 : DynamicArray T} {flag : Bool} (hI : ArrayInv B a1)
    (hrun : (if flag = true then do
        let theSize ← BufSize B a1.mBufferCount
        allocBuffer h a1 theSize
      else (pure (h, a1) : Outcome T (Heap × DynamicArray T))) = .ok (h2, a2)) :
    ArrayInv B a2 ∧ a2.mSize = a1.mSize ∧ a2.mLastBufferIdx = a1.mLastBufferIdx ∧
      (flag = true → a2.mBufferCount = a1.mBufferCount + 1) ∧
      (flag = false → a2.mBufferCount = a1.mBufferCount) ∧
      ∀ j, j < a1.mBufferCount → a2.mBuffersPtr[j]? = a1.mBuffersPtr[j]? := by
  cases flag with
  | true =>
    simp only [if_true] at hrun
    obtain ⟨n, hn, halloc⟩ := bind_eq_ok hrun
    obtain ⟨hn1, -⟩ := BufSize_inv hn
    obtain ⟨t1, t2, t3, t4, t5⟩ := allocBuffer_table hI.tbl_len hI.bufs hn1 halloc
    obtain ⟨hidx, -, -, -, buf, -, htbl⟩ := allocBuffer_inv halloc
    refine ⟨⟨t1, t2, ?_, ?_⟩, t4, t5, fun _ => t3, fun hf => by simp at hf, fun j hj => ?_⟩
    · rw [t4, t3]
      exact le_trans hI.size_le (capOf_mono B (by omega))
    · rw [t5, t3]
      have := hI.last_le
      omega
    · rw [htbl, List.getElem?_set_ne (by omega)]
  | false =>
    simp only [Bool.false_eq_true, if_false, pure_eq_ok, Outcome.ok.injEq, Prod.mk.injEq] at hrun
    obtain ⟨-, rfl⟩ := hrun
    exact ⟨hI, rfl, rfl, fun hf => by simp at hf, fun _ => rfl, fun _ _ => rfl⟩

theorem PushBackGrow_inv {T : Type} [Inhabited T] {B : Nat} {h h2 : Heap}
    {a a2 : DynamicArray T} (hI : ArrayInv B a) (hrun : PushBackGrow B h a = .ok (h2, a2)) :
    ArrayInv B a2 ∧ a2.mSize = a.mSize ∧
      (a.mSize < capOf B a2.mBufferCount ∨
        (a2.mLastBufferIdx < a2.mBufferCount ∧ capOf B a2.mLastBufferIdx ≤ a.mSize)) := by
  have hcl := ArrayInv_count_le hI
  have hll := hI.last_le
  unfold PushBackGrow at hrun
  by_cases hc : a.mLastBufferIdx ≥ a.mBufferCount
  · simp only [hc, if_true, pure_eq_ok, bind_ok] at hrun
    obtain ⟨hI2, hs, -, hcnt, -, -⟩ :=
      @PushBackGrow_tail_inv T _ B h h2 a a2 true hI (by simpa using hrun)
    refine ⟨hI2, hs, Or.inl ?_⟩
    rw [hcnt rfl, capOf_succ]
    have := hI.size_le
    have := Nat.two_pow_pos (B + a.mBufferCount)
    omega
  · simp only [hc, if_false] at hrun
    obtain ⟨cap, hcap, hrun⟩ := bind_eq_ok hrun
    have hw : wadd a.mLastBufferIdx 1 = a.mLastBufferIdx + 1 :=
      wadd_of_lt (by simp only [sizeMod]; omega)
    rw [hw] at hcap
    obtain ⟨-, -, rfl⟩ := Capacity_inv (by omega) hcap
    by_cases hfull : capOf B (a.mLastBufferIdx + 1) ≤ a.mSize
    · simp only [hfull, if_true, pure_eq_ok, bind_ok] at hrun
      have hI0 : ArrayInv B { a with mLastBufferIdx := wadd a.mLastBufferIdx 1 } :=
        ⟨hI.tbl_len, hI.bufs, hI.size_le, by simp only [hw]; omega⟩
      obtain ⟨hI2, hs, hl, hcnt1, hcnt0, -⟩ := @PushBackGrow_tail_inv T _ B h h2
        { a with mLastBufferIdx := wadd a.mLastBufferIdx 1 } a2 _ hI0 hrun
      simp only [hw] at hs hl hcnt1 hcnt0
      refine ⟨hI2, hs, ?_⟩
      by_cases hge : a.mLastBufferIdx + 1 ≥ a.mBufferCount
      · left
        rw [hcnt1 (by simpa using hge), capOf_succ]
        have := hI.size_le
        have := Nat.two_pow_pos (B + a.mBufferCount)
        omega
      · right
        rw [hcnt0 (by simpa using hge), hl]
        exact ⟨by omega, hfull⟩
    · simp only [hfull, if_false, pure_eq_ok, bind_ok] at hrun
      obtain ⟨hI2, hs, -, -, hcnt0, -⟩ :=
        @PushBackGrow_tail_inv T _ B h h2 a a2 false hI (by simpa using hrun)
      refine ⟨hI2, hs, Or.inl ?_⟩
      rw [hcnt0 rfl]
      have := capOf_mono B (show a.mLastBufferIdx + 1 ≤ a.mBufferCount by omega)
      omega

theorem PushBack_keeps_inv {T : Type} [Inhabited T] {B : Nat} {h h1 : Heap}
    {a a1 : DynamicArray T} {v : T} {r : ElemRef T} (hI : ArrayInv B a)
    (hrun : PushBack B h a v = .ok (h1, a1, r)) : ArrayInv B a1 := by
  unfold PushBack at hrun
  obtain ⟨⟨h2, a2⟩, hgrow, hrun⟩ := bind_eq_ok hrun
  obtain ⟨cap, hcap, hrun⟩ := bind_eq_ok hrun
  obtain ⟨⟨a3, r3⟩, hstore, hrun⟩ := bind_eq_ok hrun
  simp only [pure_eq_ok, Outcome.ok.injEq, Prod.mk.injEq] at hrun
  obtain ⟨-, rfl, -⟩ := hrun
  try simp only at hcap
  try simp only at hstore
  obtain ⟨hI2, hs2, hcase⟩ := PushBackGrow_inv hI hgrow
  obtain ⟨b, hb, hoff, -, ha3⟩ := store_inv hstore
  subst ha3
  have hcl := ArrayInv_count_le hI2
  have hll := hI2.last_le
  obtain ⟨-, -, rfl⟩ := Capacity_inv (by omega) hcap
  have hlt : a.mSize < capOf B a2.mBufferCount := by
    rcases hcase with hl | ⟨hlast, hle⟩
    · exact hl
    · obtain ⟨b2, hb2, hlen2⟩ := hI2.bufs _ hlast
      rw [hb] at hb2
      simp only [Option.some.injEq] at hb2
      subst hb2
      have hsz := (ArrayInv_size_bound hI).1
      rw [hs2, wsub_of_le hle hsz] at hoff
      have h1 := capOf_succ B a2.mLastBufferIdx
      have h2 := capOf_mono B (show a2.mLastBufferIdx + 1 ≤ a2.mBufferCount by omega)
      omega
  refine ⟨by simpa using hI2.tbl_len, ?_, ?_, hI2.last_le⟩
  · exact BufsWithin_set hI2.bufs hb (by simp)
  · simp only [hs2]
    have := wadd_le a.mSize 1
    omega

theorem bufIdxOf_zero (B : Nat) : bufIdxOf B 0 = 0 := by
  simp [bufIdxOf]

/-- On a state that satisfies the invariant, `RemoveBack(c)` with `c ≥ 1` returns; the
state it leaves is spelled out. -/
theorem RemoveBack_run {T : Type} {B : Nat} {a : DynamicArray T} (hI : ArrayInv B a)
    (h : Heap) {c : Nat} (hc : 1 ≤ c) :
    ∃ h1 tbl, RemoveBack B h a c =
        .ok (h1, { mSize := a.mSize - min c a.mSize,
                   mBufferCount :=
                     min a.mBufferCount (bufIdxOf B (a.mSize - min c a.mSize) + 2),
                   mLastBufferIdx := bufIdxOf B (a.mSize - min c a.mSize),
                   mBuffersPtr := tbl }, a.mSize - min c a.mSize) ∧
      tbl.length = a.mBuffersPtr.length ∧
      (∀ i, i < bufIdxOf B (a.mSize - min c a.mSize) + 2 → tbl[i]? = a.mBuffersPtr[i]?) ∧
      bufIdxOf B (a.mSize - min c a.mSize) ≤ a.mBufferCount ∧
      a.mSize - min c a.mSize < capOf B (bufIdxOf B (a.mSize - min c a.mSize) + 1) ∧
      h.avail ≤ h1.avail := by
  have hcl := BufsWithin_count_le hI.bufs
  have hml : a.mBuffersPtr.length = 64 - B := hI.tbl_len
  have hc0 : ¬ c ≤ 0 := by omega
  obtain ⟨hsz, hpos⟩ := ArrayInv_size_bound hI
  by_cases hge : c ≥ a.mSize
  · have hs0 : a.mSize - min c a.mSize = 0 := by omega
    rw [hs0, bufIdxOf_zero]
    have hw : wadd 0 2 = 2 := by decide
    obtain ⟨h3, tbl, hdel, htl, hlow, -, -, -, hav⟩ :=
      DeleteBuffers_run h { a with mSize := 0, mLastBufferIdx := 0 } 2 hcl
        (by simp only [sizeMod]; omega)
    simp only at hdel htl hlow
    refine ⟨h3, tbl, ?_, htl, hlow, Nat.zero_le _, ?_, hav⟩
    · simp only [RemoveBack, if_neg hc0, if_pos hge, pure_eq_ok, bind_ok, hw, hdel]
    · rw [capOf_succ, capOf_zero]
      have := Nat.two_pow_pos (B + 0)
      omega
  · have hlt : c < a.mSize := by omega
    obtain ⟨hB, hlim⟩ := hpos (by omega)
    have hs1 : a.mSize - min c a.mSize = a.mSize - c := by omega
    rw [hs1]
    have hws : wsub a.mSize c = a.mSize - c := wsub_of_le (by omega) hsz
    obtain ⟨b, -, hb2, hb3, hb4⟩ := indexLoop_run B 65 0 (a.mSize - c)
      (by simp only [Nat.add_zero]; omega) (by omega)
    simp only [Nat.add_zero] at hb2 hb3 hb4
    have hidx : bufIdxOf B (a.mSize - c) = b := bufIdxOf_eq hb2 hb3
    rw [hidx]
    have hcap1 := capOf_add_pow B b
    have hcap2 := capOf_add_pow B (b + 1)
    have e : B + (b + 1) = B + b + 1 := by omega
    rw [e] at hcap2
    have hbc : b < a.mBufferCount := by
      apply lt_of_capOf_lt B
      have := hI.size_le
      omega
    have hw : wadd b 2 = b + 2 := wadd_of_lt (by simp only [sizeMod]; omega)
    obtain ⟨h3, tbl, hdel, htl, hlow, -, -, -, hav⟩ :=
      DeleteBuffers_run h { a with mSize := a.mSize - c, mLastBufferIdx := b } (b + 2) hcl
        (by simp only [sizeMod]; omega)
    simp only at hdel htl hlow
    refine ⟨h3, tbl, ?_, htl, hlow, by omega, by omega, hav⟩
    simp only [RemoveBack, if_neg hc0, if_neg hge, hws, FirstBufSize_of_lt hB, bind_ok, hb4,
      pure_eq_ok, hw, hdel]

theorem RemoveBack_keeps_inv {T : Type} {B : Nat} {h h1 : Heap} {a a1 : DynamicArray T}
    {c n : Nat} (hI : ArrayInv B a) (hrun : RemoveBack B h a c = .ok (h1, a1, n)) :
    ArrayInv B a1 := by
  by_cases hc : c ≤ 0
  · simp only [RemoveBack, if_pos hc, Outcome.ok.injEq, Prod.mk.injEq] at hrun
    obtain ⟨-, rfl, -⟩ := hrun
    exact hI
  · obtain ⟨h3, tbl, hrun2, htl, hlow, hidx, hcap, -⟩ :=
      RemoveBack_run hI h (show 1 ≤ c by omega)
    rw [hrun2] at hrun
    simp only [Outcome.ok.injEq, Prod.mk.injEq] at hrun
    obtain ⟨-, rfl, -⟩ := hrun
    refine ⟨by simp only [htl, hI.tbl_len], ?_, ?_, ?_⟩
    · intro j hj
      simp only at hj ⊢
      rw [hlow j (by omega)]
      exact hI.bufs j (by omega)
    · simp only
      rcases Nat.le_total a.mBufferCount (bufIdxOf B (a.mSize - min c a.mSize) + 2) with h1 | h1
      · rw [Nat.min_eq_left h1]
        have := hI.size_le
        omega
      · rw [Nat.min_eq_right h1]
        have := capOf_mono B (show bufIdxOf B (a.mSize - min c a.mSize) + 1 ≤
          bufIdxOf B (a.mSize - min c a.mSize) + 2 by omega)
        omega
    · simp only
      omega

theorem PopBack_keeps_inv {T : Type} {B : Nat} {h h1 : Heap} {a a1 : DynamicArray T}
    {n : Nat} (hI : ArrayInv B a) (hrun : PopBack B h a = .ok (h1, a1, n)) :
    ArrayInv B a1 := by
  have hcl := ArrayInv_count_le hI
  have hll := hI.last_le
  have hsl := hI.size_le
  obtain ⟨hsz, -⟩ := ArrayInv_size_bound hI
  unfold PopBack at hrun
  by_cases h0 : a.mSize ≤ 0
  · rw [if_pos h0] at hrun
    simp only [Outcome.ok.injEq, Prod.mk.injEq] at hrun
    obtain ⟨-, rfl, -⟩ := hrun
    exact hI
  · rw [if_neg h0] at hrun
    have hws : wsub a.mSize 1 = a.mSize - 1 := wsub_of_le (by omega) hsz
    simp only [hws] at hrun
    have hI1 : ArrayInv B { a with mSize := a.mSize - 1 } :=
      ⟨hI.tbl_len, hI.bufs, by simp only; omega, hI.last_le⟩
    by_cases hl : a.mLastBufferIdx > 0
    · rw [if_pos hl] at hrun
      obtain ⟨cap, hcap, hrun⟩ := bind_eq_ok hrun
      obtain ⟨-, -, rfl⟩ := Capacity_inv (by omega) hcap
      by_cases heq : capOf B a.mLastBufferIdx = a.mSize - 1
      · rw [if_pos heq] at hrun
        obtain ⟨⟨h2, a2⟩, hdel, hrun⟩ := bind_eq_ok hrun
        simp only [pure_eq_ok, Outcome.ok.injEq, Prod.mk.injEq] at hrun
        obtain ⟨-, rfl, -⟩ := hrun
        obtain ⟨d1, d2, d3, d4, d5, -⟩ := DeleteBuffers_inv hI1.tbl_len hI1.bufs hdel
        simp only at d3 d4 d5
        have hwl : wsub a.mLastBufferIdx 1 = a.mLastBufferIdx - 1 :=
          wsub_of_le (by omega) (by simp only [sizeMod]; omega)
        refine ⟨d1, d2, ?_, ?_⟩
        · simp only [d4, d3]
          rcases Nat.le_total a.mBufferCount a.mLastBufferIdx with h1 | h1
          · rw [Nat.min_eq_left h1]; omega
          · rw [Nat.min_eq_right h1]; omega
        · simp only [d5, d3, hwl]
          omega
      · rw [if_neg heq] at hrun
        simp only [pure_eq_ok, Outcome.ok.injEq, Prod.mk.injEq] at hrun
        obtain ⟨-, rfl, -⟩ := hrun
        exact hI1
    · rw [if_neg hl] at hrun
      simp only [Outcome.ok.injEq, Prod.mk.injEq] at hrun
      obtain ⟨-, rfl, -⟩ := hrun
      exact hI1

theorem Clear_keeps_inv {T : Type} {B : Nat} {h h1 : Heap} {a a1 : DynamicArray T}
    (hI : ArrayInv B a) (hrun : Clear h a = .ok (h1, a1)) : ArrayInv B a1 := by
  unfold Clear at hrun
  obtain ⟨⟨h2, a2⟩, hdel, hrun⟩ := bind_eq_ok hrun
  simp only [pure_eq_ok, Outcome.ok.injEq, Prod.mk.injEq] at hrun
  obtain ⟨-, rfl⟩ := hrun
  obtain ⟨d1, d2, d3, -, -, -⟩ := DeleteBuffers_inv hI.tbl_len hI.bufs hdel
  exact ⟨d1, d2, Nat.zero_le _, Nat.zero_le _⟩

theorem Swap_keeps_inv {T : Type} {B : Nat} {a b a1 b1 : DynamicArray T}
    (hIa : ArrayInv B a) (hIb : ArrayInv B b) (hrun : Swap B a b = .ok (a1, b1)) :
    ArrayInv B a1 ∧ ArrayInv B b1 := by
  rw [Swap_eq B a b hIa.tbl_len hIb.tbl_len] at hrun
  simp only [Outcome.ok.injEq, Prod.mk.injEq] at hrun
  obtain ⟨rfl, rfl⟩ := hrun
  exact ⟨hIb, hIa⟩

theorem ResizeLoop_inv {T : Type} [Inhabited T] {B n : Nat} {h1 : Heap}
    {a1 : DynamicArray T} :
    ∀ (fuel : Nat) (h : Heap) (a : DynamicArray T) (cap bs : Nat),
      a.mBuffersPtr.length = MaxBufferCount B → BufsWithin B a.mBuffersPtr a.mBufferCount →
      a.mLastBufferIdx ≤ a.mBufferCount → bs ≤ 2 ^ (B + a.mLastBufferIdx) →
      cap ≤ capOf B (min (a.mLastBufferIdx + 1) a.mBufferCount) →
      ResizeLoop fuel h a cap bs n = .ok (h1, a1) →
      a1.mBuffersPtr.length = MaxBufferCount B ∧
        BufsWithin B a1.mBuffersPtr a1.mBufferCount ∧
        a1.mLastBufferIdx ≤ a1.mBufferCount ∧ n ≤ capOf B a1.mBufferCount := by
  intro fuel
  induction fuel with
  | zero => intro h a cap bs _ _ _ _ _ hrun; simp [ResizeLoop] at hrun
  | succ fuel ih =>
    intro h a cap bs htl hb hll hbs hcap hrun
    have hcl := BufsWithin_count_le hb
    have hml : a.mBuffersPtr.length = 64 - B := htl
    unfold ResizeLoop at hrun
    by_cases hc : cap < n
    · rw [if_pos hc] at hrun
      obtain ⟨⟨h2, a2⟩, halloc, hrest⟩ := bind_eq_ok hrun
      have hw : wadd a.mLastBufferIdx 1 = a.mLastBufferIdx + 1 :=
        wadd_of_lt (by simp only [sizeMod]; omega)
      simp only [hw] at halloc hrest
      have hpow : (2:Nat) ^ (B + (a.mLastBufferIdx + 1)) = 2 * 2 ^ (B + a.mLastBufferIdx) := by
        rw [← Nat.add_assoc, pow_succ]; ring
      have hbs2 : wadd bs bs ≤ 2 ^ (B + (a.mLastBufferIdx + 1)) := by
        have := wadd_le bs bs
        omega
      have hcap2 := wadd_le cap bs
      by_cases hge : a.mLastBufferIdx + 1 ≥ a.mBufferCount
      · have hlc : a.mLastBufferIdx + 1 = a.mBufferCount ∨
            a.mLastBufferIdx = a.mBufferCount := by omega
        unfold allocIfBeyond at halloc
        rw [if_pos (by simpa using hge)] at halloc
        have hbs3 : bs ≤ 2 ^ (B + a.mBufferCount) :=
          le_trans hbs (Nat.pow_le_pow_right (by norm_num) (by omega))
        obtain ⟨t1, t2, t3, -, t5⟩ := @allocBuffer_table T _ B h h2
          { a with mLastBufferIdx := a.mLastBufferIdx + 1 } a2 bs htl hb hbs3 halloc
        simp only at t3 t5
        refine ih h2 a2 _ _ t1 t2 (by omega) (by rw [t5]; exact hbs2) ?_ hrest
        have hmin : min (a2.mLastBufferIdx + 1) a2.mBufferCount = a.mBufferCount + 1 := by
          omega
        rw [hmin, capOf_succ]
        have h3 := capOf_mono B (show min (a.mLastBufferIdx + 1) a.mBufferCount ≤
          a.mBufferCount by omega)
        omega
      · unfold allocIfBeyond at halloc
        rw [if_neg (by simpa using hge)] at halloc
        simp only [Outcome.ok.injEq, Prod.mk.injEq] at halloc
        obtain ⟨-, rfl⟩ := halloc
        refine ih h2 { a with mLastBufferIdx := a.mLastBufferIdx + 1 } _ _ htl hb
          (by simp only; omega) (by simp only; exact hbs2) ?_ hrest
        simp only
        have hmin1 : min (a.mLastBufferIdx + 1) a.mBufferCount = a.mLastBufferIdx + 1 := by
          omega
        have hmin2 : min (a.mLastBufferIdx + 1 + 1) a.mBufferCount =
            a.mLastBufferIdx + 1 + 1 := by omega
        rw [hmin1] at hcap
        rw [hmin2, capOf_succ]
        have : (2:Nat) ^ (B + a.mLastBufferIdx) ≤ 2 ^ (B + (a.mLastBufferIdx + 1)) := by omega
        omega
    · rw [if_neg hc] at hrun
      simp only [Outcome.ok.injEq, Prod.mk.injEq] at hrun
      obtain ⟨-, rfl⟩ := hrun
      refine ⟨htl, hb, hll, ?_⟩
      have := capOf_mono B (show min (a.mLastBufferIdx + 1) a.mBufferCount ≤
        a.mBufferCount by omega)
      omega

theorem Resize_keeps_inv {T : Type} [Inhabited T] {B : Nat} {h h1 : Heap}
    {a a1 : DynamicArray T} {n : Nat} (hI : ArrayInv B a)
    (hrun : Resize B h a n = .ok (h1, a1)) : ArrayInv B a1 := by
  have hcl := ArrayInv_count_le hI
  have hll := hI.last_le
  unfold Resize at hrun
  by_cases hc : n ≤ a.mSize
  · rw [if_pos hc] at hrun
    obtain ⟨⟨h2, a2, m⟩, hrem, hrun⟩ := bind_eq_ok hrun
    simp only [pure_eq_ok, Outcome.ok.injEq, Prod.mk.injEq] at hrun
    obtain ⟨-, rfl⟩ := hrun
    exact RemoveBack_keeps_inv hI hrem
  · rw [if_neg hc] at hrun
    obtain ⟨bs, hbs, hrun⟩ := bind_eq_ok hrun
    obtain ⟨cap, hcap, hrun⟩ := bind_eq_ok hrun
    obtain ⟨⟨h2, a2⟩, hloop, hrun⟩ := bind_eq_ok hrun
    simp only [pure_eq_ok, Outcome.ok.injEq, Prod.mk.injEq] at hrun
    obtain ⟨-, rfl⟩ := hrun
    obtain ⟨hbs1, -⟩ := BufSize_inv hbs
    obtain ⟨-, -, rfl⟩ := Capacity_inv (by omega) hcap
    have hinit : wadd (capOf B a.mLastBufferIdx)
        (if a.mLastBufferIdx < a.mBufferCount then bs else 0) ≤
        capOf B (min (a.mLastBufferIdx + 1) a.mBufferCount) := by
      refine le_trans (wadd_le _ _) ?_
      by_cases hlt : a.mLastBufferIdx < a.mBufferCount
      · rw [if_pos hlt, Nat.min_eq_left (by omega), capOf_succ]
        omega
      · rw [if_neg hlt, Nat.min_eq_right (by omega)]
        have : a.mLastBufferIdx = a.mBufferCount := by omega
        rw [this]; omega
    obtain ⟨r1, r2, r3, r4⟩ :=
      ResizeLoop_inv 200 h a _ _ hI.tbl_len hI.bufs hI.last_le hbs1 hinit hloop
    exact ⟨r1, r2, r4, r3⟩

theorem copyCells_len {T : Type} {s : Option (Buffer T)} {b : Buffer T}
    {d1 : Option (Buffer T)} {n : Nat} (hrun : copyCells s (some b) n = .ok d1) :
    ∃ b1, d1 = some b1 ∧ b1.cells.length = b.cells.length ∧ (0 < n → n ≤ b.cells.length) := by
  unfold copyCells at hrun
  by_cases hn : n = 0
  · rw [if_pos hn] at hrun
    simp only [Outcome.ok.injEq] at hrun
    exact ⟨b, hrun.symm, rfl, fun h => by omega⟩
  · rw [if_neg hn] at hrun
    cases s with
    | none => simp at hrun
    | some sb =>
      simp only at hrun
      by_cases hle : n ≤ sb.cells.length ∧ n ≤ b.cells.length
      · rw [if_pos hle] at hrun
        simp only [Outcome.ok.injEq] at hrun
        refine ⟨_, hrun.symm, ?_, fun _ => hle.2⟩
        simp only [List.length_append, List.length_take, List.length_drop]
        omega
      · rw [if_neg hle] at hrun
        simp at hrun

theorem AssignLoop_inv {T : Type} [Inhabited T] {B : Nat} {src : DynamicArray T} {h1 : Heap}
    {a1 : DynamicArray T} {jf : Nat} :
    ∀ (fuel : Nat) (h : Heap) (a : DynamicArray T) (j bs c : Nat),
      a.mBuffersPtr.length = MaxBufferCount B → BufsWithin B a.mBuffersPtr a.mBufferCount →
      bs ≤ 2 ^ (B + j) → bs < sizeMod → c < sizeMod → j ≤ a.mBufferCount →
      AssignLoop fuel h a src j bs c = .ok (h1, a1, jf) →
      a1.mBuffersPtr.length = MaxBufferCount B ∧
        BufsWithin B a1.mBuffersPtr a1.mBufferCount ∧
        (0 < c → c + capOf B j ≤ capOf B (jf + 1) ∧ jf < a1.mBufferCount) ∧
        (c = 0 → jf = j) := by
  intro fuel
  induction fuel with
  | zero => intro h a j bs c _ _ _ _ _ _ hrun; simp [AssignLoop] at hrun
  | succ fuel ih =>
    intro h a j bs c htl hb hbs hbsm hcm hj hrun
    unfold AssignLoop at hrun
    by_cases hc : c > 0
    · rw [if_pos hc] at hrun
      obtain ⟨⟨h2, a2⟩, halloc, hrun⟩ := bind_eq_ok hrun
      obtain ⟨sp, -, hrun⟩ := bind_eq_ok hrun
      obtain ⟨dp, hdp, hrun⟩ := bind_eq_ok hrun
      try simp only at hrun
      try simp only at hdp
      obtain ⟨t1, t2, t3, -, t5, -, -⟩ := allocIfBeyond_table htl hb hj hbs halloc
      have hcl := BufsWithin_count_le t2
      have hml : a2.mBuffersPtr.length = 64 - B := t1
      obtain ⟨b, hb1, hb2⟩ := t2 j t5
      have hdp2 := ptrAt_inv hdp
      rw [hb1] at hdp2
      simp only [Option.some.injEq] at hdp2
      subst hdp2
      have hwj : wadd j 1 = j + 1 := wadd_of_lt (by simp only [sizeMod]; omega)
      have hpow : (2:Nat) ^ (B + (j + 1)) = 2 * 2 ^ (B + j) := by
        rw [← Nat.add_assoc, pow_succ]; ring
      by_cases hbig : c > bs
      · rw [if_pos hbig] at hrun
        obtain ⟨d1, hcopy, hrec⟩ := bind_eq_ok hrun
        obtain ⟨b1, rfl, hlen1, -⟩ := copyCells_len hcopy
        have hws : wsub c bs = c - bs := wsub_of_le (by omega) hcm
        rw [hwj, hws] at hrec
        obtain ⟨r1, r2, r3, -⟩ := ih h2 _ (j + 1) (wadd bs bs) (c - bs)
          (by simpa using t1) (BufsWithin_set t2 hb1 hlen1)
          (by have := wadd_le bs bs; omega) (wadd_lt _ _) (by omega) (by simp only; omega) hrec
        obtain ⟨r3a, r3b⟩ := r3 (by omega)
        refine ⟨r1, r2, fun _ => ⟨?_, r3b⟩, fun h0 => by omega⟩
        rw [capOf_succ] at r3a
        omega
      · rw [if_neg hbig] at hrun
        obtain ⟨d1, hcopy, hrec⟩ := bind_eq_ok hrun
        obtain ⟨b1, rfl, hlen1, hcb⟩ := copyCells_len hcopy
        obtain ⟨r1, r2, -, r4⟩ := ih h2 _ j bs 0
          (by simpa using t1) (BufsWithin_set t2 hb1 hlen1) hbs hbsm (by decide)
          (by simp only; omega) hrec
        have hjf := r4 rfl
        subst hjf
        have hcnt : a2.mBufferCount ≤ a1.mBufferCount := by
          obtain ⟨-, hh, -, -⟩ := AssignLoop_frame fuel h2 _ jf bs 0
            (by simp only [List.length_set, sizeMod]; omega) hrec
          exact hh
        refine ⟨r1, r2, fun _ => ⟨?_, by omega⟩, fun h0 => by omega⟩
        rw [capOf_succ]
        have := hcb hc
        omega
    · rw [if_neg hc] at hrun
      simp only [Outcome.ok.injEq, Prod.mk.injEq] at hrun
      obtain ⟨-, rfl, rfl⟩ := hrun
      exact ⟨htl, hb, fun h0 => by omega, fun _ => rfl⟩

theorem assign_keeps_inv {T : Type} [Inhabited T] {B : Nat} {h h1 : Heap}
    {a src a1 : DynamicArray T} (htl : a.mBuffersPtr.length = MaxBufferCount B)
    (hb : BufsWithin B a.mBuffersPtr a.mBufferCount) (hs : ArrayInv B src)
    (hrun : assign B h a src = .ok (h1, a1)) : ArrayInv B a1 := by
  unfold assign at hrun
  obtain ⟨bs, hbs, hrun⟩ := bind_eq_ok hrun
  obtain ⟨⟨h2, a2, jf⟩, hloop, hrun⟩ := bind_eq_ok hrun
  obtain ⟨⟨h3, a3⟩, hdel, hrun⟩ := bind_eq_ok hrun
  simp only [pure_eq_ok, Outcome.ok.injEq, Prod.mk.injEq] at hrun
  obtain ⟨-, rfl⟩ := hrun
  try simp only at hdel
  obtain ⟨hbs1, hbs2⟩ := BufSize_inv hbs
  obtain ⟨hsz, -⟩ := ArrayInv_size_bound hs
  obtain ⟨r1, r2, r3, r4⟩ :=
    AssignLoop_inv 65 h a 0 bs src.mSize htl hb hbs1 hbs2 hsz (Nat.zero_le _) hloop
  have hcl := BufsWithin_count_le r2
  have hml : a2.mBuffersPtr.length = 64 - B := r1
  obtain ⟨d1, d2, d3, -, d5, -⟩ :=
    @DeleteBuffers_inv T B h2 h3 { a2 with mLastBufferIdx := jf } a3 (wadd jf 2) r1 r2 hdel
  simp only at d3 d5
  rcases Nat.eq_zero_or_pos src.mSize with h0 | hpos
  · have hjf := r4 h0
    subst hjf
    exact ⟨d1, d2, by simp only [h0]; omega, by simp only [d5]; omega⟩
  · obtain ⟨r3a, r3b⟩ := r3 hpos
    have hw : wadd jf 2 = jf + 2 := wadd_of_lt (by simp only [sizeMod]; omega)
    rw [hw] at d3
    rw [capOf_zero] at r3a
    refine ⟨d1, d2, ?_, by simp only [d5, d3]; omega⟩
    simp only [d3]
    have := capOf_mono B (show jf + 1 ≤ min a2.mBufferCount (jf + 2) by omega)
    omega

theorem PushBack_badAlloc_state {T : Type} [Inhabited T] {B : Nat} {h h1 : Heap}
    {a st : DynamicArray T} {v : T} (hrun : PushBack B h a v = .badAlloc h1 st) :
    h1 = h ∧ (st = a ∨ (a.mLastBufferIdx < a.mBufferCount ∧
      st = { a with mLastBufferIdx := wadd a.mLastBufferIdx 1 })) := by
  unfold PushBack at hrun
  rcases bind_eq_badAlloc hrun with hg | ⟨⟨h2, a2⟩, -, hrest⟩
  · unfold PushBackGrow at hg
    by_cases hc : a.mLastBufferIdx ≥ a.mBufferCount
    · simp only [hc, if_true, pure_eq_ok, bind_ok] at hg
      obtain ⟨e1, e2⟩ := @PushBackGrow_tail_badAlloc T _ B h h1 a st true (by simpa using hg)
      exact ⟨e1, Or.inl e2⟩
    · simp only [hc, if_false] at hg
      rcases bind_eq_badAlloc hg with hcap | ⟨cap, -, hg2⟩
      · exact absurd hcap (Capacity_ne_badAlloc _ _ _ _)
      · by_cases hfull : cap ≤ a.mSize
        · simp only [hfull, if_true, pure_eq_ok, bind_ok] at hg2
          obtain ⟨e1, e2⟩ := @PushBackGrow_tail_badAlloc T _ B h h1
            { a with mLastBufferIdx := wadd a.mLastBufferIdx 1 } st _ hg2
          exact ⟨e1, Or.inr ⟨by omega, e2⟩⟩
        · simp only [hfull, if_false, pure_eq_ok, bind_ok] at hg2
          exact absurd hg2 (by simp)
  · rcases bind_eq_badAlloc hrest with hcap | ⟨cap, -, hrest2⟩
    · exact absurd hcap (Capacity_ne_badAlloc _ _ _ _)
    · rcases bind_eq_badAlloc hrest2 with hst | ⟨p, -, hrest3⟩
      · exact absurd hst (store_ne_badAlloc _ _ _ _ _ _)
      · simp at hrest3

theorem PushBack_badAlloc_keeps_inv {T : Type} [Inhabited T] {B : Nat} {h h1 : Heap}
    {a st : DynamicArray T} {v : T} (hI : ArrayInv B a)
    (hrun : PushBack B h a v = .badAlloc h1 st) : ArrayInv B st := by
  have hcl := ArrayInv_count_le hI
  rcases (PushBack_badAlloc_state hrun).2 with rfl | ⟨hlt, rfl⟩
  · exact hI
  · have hw : wadd a.mLastBufferIdx 1 = a.mLastBufferIdx + 1 :=
      wadd_of_lt (by simp only [sizeMod]; omega)
    exact ⟨hI.tbl_len, hI.bufs, hI.size_le, by simp only [hw]; omega⟩

theorem ptrAt_ne_badAlloc {T : Type} (tbl : List (Option (Buffer T))) (i : Nat) (h : Heap)
    (st : DynamicArray T) : ptrAt tbl i ≠ .badAlloc h st := by
  unfold ptrAt; split <;> simp

theorem copyCells_ne_badAlloc {T : Type} (s d : Option (Buffer T)) (n : Nat) (h : Heap)
    (st : DynamicArray T) : copyCells s d n ≠ .badAlloc h st := by
  unfold copyCells
  split
  · simp
  · split
    · split <;> simp
    · simp

theorem allocIfBeyond_badAlloc {T : Type} [Inhabited T] {h h1 : Heap} {a st : DynamicArray T}
    {i n : Nat} (hrun : allocIfBeyond h a i n = .badAlloc h1 st) : h1 = h ∧ st = a := by
  unfold allocIfBeyond at hrun
  split at hrun
  · exact allocBuffer_badAlloc hrun
  · simp at hrun

/-- When `operator=` throws inside its loop, the object at the throw has its table in
order, at least the buffers it had, and the size and `mLastBufferIdx` it had. -/
theorem AssignLoop_badAlloc {T : Type} [Inhabited T] {B : Nat} {src : DynamicArray T}
    {h1 : Heap} {st : DynamicArray T} :
    ∀ (fuel : Nat) (h : Heap) (a : DynamicArray T) (j bs c : Nat),
      a.mBuffersPtr.length = MaxBufferCount B → BufsWithin B a.mBuffersPtr a.mBufferCount →
      bs ≤ 2 ^ (B + j) → j ≤ a.mBufferCount →
      AssignLoop fuel h a src j bs c = .badAlloc h1 st →
      st.mBuffersPtr.length = MaxBufferCount B ∧
        BufsWithin B st.mBuffersPtr st.mBufferCount ∧ a.mBufferCount ≤ st.mBufferCount ∧
        st.mSize = a.mSize ∧ st.mLastBufferIdx = a.mLastBufferIdx := by
  intro fuel
  induction fuel with
  | zero => intro h a j bs c _ _ _ _ hrun; simp [AssignLoop] at hrun
  | succ fuel ih =>
    intro h a j bs c htl hb hbs hj hrun
    unfold AssignLoop at hrun
    by_cases hc : c > 0
    · rw [if_pos hc] at hrun
      rcases bind_eq_badAlloc hrun with halloc | ⟨⟨h2, a2⟩, halloc, hrun⟩
      · obtain ⟨-, rfl⟩ := allocIfBeyond_badAlloc halloc
        exact ⟨htl, hb, le_refl _, rfl, rfl⟩
      rcases bind_eq_badAlloc hrun with hsp | ⟨sp, -, hrun⟩
      · exact absurd hsp (ptrAt_ne_badAlloc _ _ _ _)
      rcases bind_eq_badAlloc hrun with hdp | ⟨dp, hdp, hrun⟩
      · exact absurd hdp (ptrAt_ne_badAlloc _ _ _ _)
      try simp only at hrun
      try simp only at hdp
      obtain ⟨t1, t2, t3, -, t5, t6, t7⟩ := allocIfBeyond_table htl hb hj hbs halloc
      have hcl := BufsWithin_count_le t2
      have hml : a2.mBuffersPtr.length = 64 - B := t1
      obtain ⟨b, hb1, hb2⟩ := t2 j t5
      have hdp2 := ptrAt_inv hdp
      rw [hb1] at hdp2
      simp only [Option.some.injEq] at hdp2
      subst hdp2
      have hwj : wadd j 1 = j + 1 := wadd_of_lt (by simp only [sizeMod]; omega)
      have hpow : (2:Nat) ^ (B + (j + 1)) = 2 * 2 ^ (B + j) := by
        rw [← Nat.add_assoc, pow_succ]; ring
      by_cases hbig : c > bs
      · rw [if_pos hbig] at hrun
        rcases bind_eq_badAlloc hrun with hcp | ⟨d1, hcopy, hrec⟩
        · exact absurd hcp (copyCells_ne_badAlloc _ _ _ _ _)
        obtain ⟨b1, rfl, hlen1, -⟩ := copyCells_len hcopy
        rw [hwj] at hrec
        obtain ⟨r1, r2, r3, r4, r5⟩ := ih h2 _ (j + 1) (wadd bs bs) _
          (by simpa using t1) (BufsWithin_set t2 hb1 hlen1)
          (by have := wadd_le bs bs; omega) (by simp only; omega) hrec
        simp only at r3 r4 r5
        exact ⟨r1, r2, by omega, by rw [r4, t6], by rw [r5, t7]⟩
      · rw [if_neg hbig] at hrun
        rcases bind_eq_badAlloc hrun with hcp | ⟨d1, hcopy, hrec⟩
        · exact absurd hcp (copyCells_ne_badAlloc _ _ _ _ _)
        obtain ⟨b1, rfl, hlen1, -⟩ := copyCells_len hcopy
        obtain ⟨r1, r2, r3, r4, r5⟩ := ih h2 _ j bs 0
          (by simpa using t1) (BufsWithin_set t2 hb1 hlen1) hbs (by simp only; omega) hrec
        simp only at r3 r4 r5
        exact ⟨r1, r2, by omega, by rw [r4, t6], by rw [r5, t7]⟩
    · rw [if_neg hc] at hrun
      simp at hrun

theorem DeleteBuffersLoop_ne_badAlloc {T : Type} (n : Nat) (h1 : Heap) (st : DynamicArray T) :
    ∀ (fuel : Nat) (h : Heap) (a : DynamicArray T),
      DeleteBuffersLoop fuel h a n ≠ .badAlloc h1 st := by
  intro fuel
  induction fuel with
  | zero =>
    intro h a hc
    unfold DeleteBuffersLoop at hc
    split at hc <;> simp at hc
  | succ fuel ih =>
    intro h a hc
    unfold DeleteBuffersLoop at hc
    split at hc
    · rcases bind_eq_badAlloc hc with hp | ⟨p, -, hrec⟩
      · exact ptrAt_ne_badAlloc _ _ _ _ hp
      · exact ih _ _ hrec
    · simp at hc

theorem assign_badAlloc_keeps_inv {T : Type} [Inhabited T] {B : Nat} {h h1 : Heap}
    {a src st : DynamicArray T} (hI : ArrayInv B a)
    (hrun : assign B h a src = .badAlloc h1 st) : ArrayInv B st := by
  unfold assign at hrun
  rcases bind_eq_badAlloc hrun with hbs | ⟨bs, hbs, hrun⟩
  · exact absurd hbs (BufSize_ne_badAlloc _ _ _ _)
  obtain ⟨hbs1, -⟩ := BufSize_inv hbs
  rcases bind_eq_badAlloc hrun with hloop | ⟨⟨h2, a2, jf⟩, hloop, hrun⟩
  · obtain ⟨r1, r2, r3, r4, r5⟩ :=
      AssignLoop_badAlloc 65 h a 0 bs src.mSize hI.tbl_len hI.bufs hbs1 (Nat.zero_le _) hloop
    refine ⟨r1, r2, ?_, ?_⟩
    · rw [r4]; exact le_trans hI.size_le (capOf_mono B r3)
    · rw [r5]; exact le_trans hI.last_le r3
  · exfalso
    rcases bind_eq_badAlloc hrun with hdel | ⟨⟨h3, a3⟩, -, hrun⟩
    · exact DeleteBuffersLoop_ne_badAlloc _ _ _ _ _ _ hdel
    · simp at hrun

/-- Every reachable state satisfies the invariant. -/
theorem Reachable_inv {T : Type} [Inhabited T] {B : Nat} {a : DynamicArray T}
    (hr : Reachable B a) : ArrayInv B a := by
  induction hr with
  | ctor => exact ArrayInv_empty T B
  | copyCtor hraw _ hrun ih =>
    unfold copyConstruct at hrun
    exact assign_keeps_inv hraw (fun j hj => absurd hj (Nat.not_lt_zero j)) ih hrun
  | assigned _ _ hrun iha ihs => exact assign_keeps_inv iha.tbl_len iha.bufs ihs hrun
  | assignThrew _ _ hrun iha _ => exact assign_badAlloc_keeps_inv iha hrun
  | cleared _ hrun ih => exact Clear_keeps_inv ih hrun
  | swapThis _ _ hrun iha ihb => exact (Swap_keeps_inv iha ihb hrun).1
  | swapOther _ _ hrun iha ihb => exact (Swap_keeps_inv iha ihb hrun).2
  | pushed _ hrun ih => exact PushBack_keeps_inv ih hrun
  | pushThrew _ hrun ih => exact PushBack_badAlloc_keeps_inv ih hrun
  | popped _ hrun ih => exact PopBack_keeps_inv ih hrun
  | removed _ hrun ih => exact RemoveBack_keeps_inv ih hrun
  | resized _ hrun ih => exact Resize_keeps_inv ih hrun

theorem Reachable_pushAll {T : Type} [Inhabited T] {B : Nat} :
    ∀ (vs : List T) (h h1 : Heap) (a a1 : DynamicArray T), Reachable B a →
      pushAll B h a vs = .ok (h1, a1) → Reachable B a1 := by
  intro vs
  induction vs with
  | nil =>
    intro h h1 a a1 hr hrun
    simp only [pushAll, Outcome.ok.injEq, Prod.mk.injEq] at hrun
    obtain ⟨-, rfl⟩ := hrun
    exact hr
  | cons v vs ih =>
    intro h h1 a a1 hr hrun
    unfold pushAll at hrun
    obtain ⟨⟨h2, a2, r⟩, hpush, hrest⟩ := bind_eq_ok hrun
    exact ih h2 h1 a2 a1 (Reachable.pushed hr hpush) hrest

/-- Claim C13 as amended: in every array state reachable from the empty array by calls of
`PushBack`, `PopBack`, `RemoveBack`, `Resize`, `Clear`, `Swap` and assignment (and the copy
constructor), with any free store and any arguments, among which no `Resize` has ended in
`std::bad_alloc` (a `PushBack` or an assignment may have), the logical size is at most
`2 ^ (B + mBufferCount) - 2 ^ B`, the cumulative capacity `Capacity(mBufferCount)` of the
allocated buffers (and, being a `size_t`, it is at least 0). -/
theorem size_le_capacity_of_reachable {T : Type} [Inhabited T] (B : Nat)
    (a : DynamicArray T) (hr : Reachable B a) :
    0 ≤ a.mSize ∧ a.mSize ≤ 2 ^ (B + a.mBufferCount) - 2 ^ B :=
  ⟨Nat.zero_le _, (Reachable_inv hr).size_le⟩

theorem size_le_capacity_of_reachable_witness :
    Reachable 2 sixElems ∧ sixElems.mSize = 6 ∧ sixElems.mBufferCount = 2 ∧
      0 ≤ sixElems.mSize ∧ sixElems.mSize ≤ 2 ^ (2 + sixElems.mBufferCount) - 2 ^ 2 :=
  have hr : Reachable 2 sixElems :=
    Reachable_pushAll [0, 1, 2, 3, 4, 5] heap0 { next := 3, avail := 988 } (empty Nat 2)
      sixElems Reachable.ctor (by decide)
  ⟨hr, rfl, rfl, size_le_capacity_of_reachable 2 sixElems hr⟩

/-! ## RemoveBack on the reachable states -/

theorem Reachable_tenElems : Reachable 2 tenElems :=
  Reachable_pushAll [0, 1, 2, 3, 4, 5, 6, 7, 8, 9] heap0 { next := 3, avail := 988 }
    (empty Nat 2) tenElems Reachable.ctor (by decide)

theorem Reachable_fullFirst : Reachable 2 fullFirst :=
  Reachable_pushAll [0, 1, 2, 3] { next := 1, avail := 4 } heapEmpty (empty Nat 2) fullFirst
    Reachable.ctor (by decide)

/-- Claim C11: for every array state reachable by the public operations, with size `s`,
and every count `c`, `RemoveBack(c)` returns `s - min c s` and leaves that size (so
`c ≥ s` empties the array), and for every index `i < s - min c s` the call `operator[](i)`
has the same outcome as before: the same slot (buffer address and offset) holding the same
value. -/
theorem RemoveBack_clamps_and_keeps_front {T : Type} [Inhabited T] (B : Nat) (h : Heap)
    (a : DynamicArray T) (c : Nat) (hr : Reachable B a) :
    ∃ h1 a1, RemoveBack B h a c = .ok (h1, a1, a.mSize - min c a.mSize) ∧
      GetSize a1 = a.mSize - min c a.mSize ∧
      ∀ i, i < a.mSize - min c a.mSize → index B a1 i = index B a i := by
  have hI := Reachable_inv hr
  by_cases hc : c ≤ 0
  · have hc0 : c = 0 := by omega
    subst hc0
    refine ⟨h, a, ?_, by simp [GetSize], fun _ _ => rfl⟩
    simp [RemoveBack]
  · obtain ⟨h3, tbl, hrun, -, hlow, -, hcap, -⟩ :=
      RemoveBack_run hI h (show 1 ≤ c by omega)
    refine ⟨h3, _, hrun, rfl, fun i hi => ?_⟩
    obtain ⟨-, hpos⟩ := ArrayInv_size_bound hI
    obtain ⟨hB, hlim⟩ := hpos (by omega)
    obtain ⟨hloc, hle, -⟩ := @locate_eq T B i (by omega)
    apply index_eq_of_table
    intro bi off hl
    rw [hloc] at hl
    simp only [Outcome.ok.injEq, Prod.mk.injEq] at hl
    obtain ⟨rfl, -⟩ := hl
    have hbi : bufIdxOf B i < bufIdxOf B (a.mSize - min c a.mSize) + 1 :=
      lt_of_capOf_lt B (by omega)
    exact hlow _ (by omega)

theorem RemoveBack_clamps_and_keeps_front_witness :
    (RemoveBack 2 heap0 tenElems 7 = .ok (heap0, tenElemsCut, 3) ∧ tenElemsCut.mSize = 3 ∧
      index 2 tenElemsCut 0 = .ok { addr := 1, off := 0, val := 0 } ∧
      index 2 tenElemsCut 1 = .ok { addr := 1, off := 1, val := 1 } ∧
      index 2 tenElemsCut 2 = .ok { addr := 1, off := 2, val := 2 }) ∧
      ∃ h1 a1, RemoveBack 2 heap0 tenElems 7 =
          .ok (h1, a1, tenElems.mSize - min 7 tenElems.mSize) ∧
        GetSize a1 = tenElems.mSize - min 7 tenElems.mSize ∧
        ∀ i, i < tenElems.mSize - min 7 tenElems.mSize → index 2 a1 i = index 2 tenElems i :=
  ⟨by decide, RemoveBack_clamps_and_keeps_front 2 heap0 tenElems 7 Reachable_tenElems⟩

/-- Claim C17 as amended: for every array state reachable by the public operations and
every count `c ≥ 1`, `RemoveBack(c)` returns the new size `s`, leaves `mLastBufferIdx`
equal to `floor (log2 (s / 2 ^ B + 1))` (the closed-form buffer index of `s`), leaves
`min mBufferCount (mLastBufferIdx + 2)` allocated buffers, hence at most
`mLastBufferIdx + 2`, and every table entry below `mLastBufferIdx + 2` is the buffer it
was before the call. -/
theorem RemoveBack_recomputes_last_index {T : Type} [Inhabited T] (B : Nat) (h : Heap)
    (a : DynamicArray T) (c : Nat) (hr : Reachable B a) (hc : 1 ≤ c) :
    ∃ h1 a1 s, RemoveBack B h a c = .ok (h1, a1, s) ∧ a1.mSize = s ∧
      s = a.mSize - min c a.mSize ∧
      a1.mLastBufferIdx = Nat.log 2 (s / 2 ^ B + 1) ∧
      a1.mBufferCount = min a.mBufferCount (a1.mLastBufferIdx + 2) ∧
      a1.mBufferCount ≤ a1.mLastBufferIdx + 2 ∧
      ∀ j, j < a1.mLastBufferIdx + 2 → a1.mBuffersPtr[j]? = a.mBuffersPtr[j]? := by
  obtain ⟨h3, tbl, hrun, -, hlow, -, -⟩ := RemoveBack_run (Reachable_inv hr) h hc
  exact ⟨h3, _, _, hrun, rfl, rfl, rfl, rfl, Nat.min_le_right _ _, hlow⟩

/-- Claim C17 as stated fails for the count 0: base exponent 2, after `PushBack` of 0..3
(the reachable array `fullFirst`, size 4, `mLastBufferIdx = 0`) the call `RemoveBack(0)`
takes the early return `if (inCnt <= 0) return mSize;` and changes nothing, so
`mLastBufferIdx` is still 0 while `floor (log2 (4 / 2 ^ 2 + 1)) = 1`. -/
theorem RemoveBack_zero_keeps_last_index :
    Reachable 2 fullFirst ∧ RemoveBack 2 heap0 fullFirst 0 = .ok (heap0, fullFirst, 4) ∧
      fullFirst.mLastBufferIdx = 0 ∧ Nat.log 2 (4 / 2 ^ 2 + 1) = 1 ∧
      ¬ (∃ h1 a1 s, RemoveBack 2 heap0 fullFirst 0 = .ok (h1, a1, s) ∧
          a1.mLastBufferIdx = Nat.log 2 (s / 2 ^ 2 + 1)) := by
  have hlog : Nat.log 2 (4 / 2 ^ 2 + 1) = 1 := @bufIdxOf_eq 2 4 1 (by decide) (by decide)
  have hrun : RemoveBack 2 heap0 fullFirst 0 = .ok (heap0, fullFirst, 4) := by decide
  refine ⟨Reachable_fullFirst, hrun, rfl, hlog, ?_⟩
  rintro ⟨h1, a1, s, hr, hl⟩
  rw [hrun] at hr
  simp only [Outcome.ok.injEq, Prod.mk.injEq] at hr
  obtain ⟨-, rfl, rfl⟩ := hr
  rw [hlog] at hl
  exact absurd hl (by decide)

theorem RemoveBack_recomputes_last_index_witness :
    1 ≤ 7 ∧ ∃ h1 a1 s, RemoveBack 2 heap0 tenElems 7 = .ok (h1, a1, s) ∧ a1.mSize = s ∧
      s = tenElems.mSize - min 7 tenElems.mSize ∧
      a1.mLastBufferIdx = Nat.log 2 (s / 2 ^ 2 + 1) ∧
      a1.mBufferCount = min tenElems.mBufferCount (a1.mLastBufferIdx + 2) ∧
      a1.mBufferCount ≤ a1.mLastBufferIdx + 2 ∧
      ∀ j, j < a1.mLastBufferIdx + 2 → a1.mBuffersPtr[j]? = tenElems.mBuffersPtr[j]? :=
  ⟨by decide, RemoveBack_recomputes_last_index 2 heap0 tenElems 7 Reachable_tenElems
    (by decide)⟩

/-! ## Resize: growing, shrinking and growing again -/

theorem pow_succ_two (e : Nat) : (2:Nat) ^ (e + 1) = 2 * 2 ^ e := by
  rw [pow_succ]; ring

/-- The growing loop of `Resize` on a state with `mLastBufferIdx = mBufferCount = j` (the
empty array has `j = 0`): every round allocates one buffer of its nominal size, and the
loop ends with `mLastBufferIdx = mBufferCount = c`, the least `c ≥ j` with
`n ≤ capOf B c`. -/
theorem ResizeLoop_fresh {T : Type} [Inhabited T] {B k n X : Nat} (hn : n ≤ capOf B k)
    (hBk : B + k ≤ 63) (hXk : capOf B k ≤ X) :
    ∀ (fuel : Nat) (h : Heap) (a : DynamicArray T) (j : Nat), a.mLastBufferIdx = j →
      a.mBufferCount = j → a.mBuffersPtr.length = MaxBufferCount B → j ≤ k →
      k + 1 ≤ fuel + j → X ≤ h.avail + capOf B j →
      ∃ h1 a1, ResizeLoop fuel h a (capOf B j) (2 ^ (B + j)) n = .ok (h1, a1) ∧
        a1.mLastBufferIdx = a1.mBufferCount ∧ j ≤ a1.mBufferCount ∧ a1.mBufferCount ≤ k ∧
        n ≤ capOf B a1.mBufferCount ∧
        (a1.mBufferCount = j ∨ capOf B (a1.mBufferCount - 1) < n) ∧
        a1.mSize = a.mSize ∧ X ≤ h1.avail + capOf B a1.mBufferCount := by
  intro fuel
  induction fuel with
  | zero => intro h a j _ _ _ hjk hf _; omega
  | succ fuel ih =>
    intro h a j hl hc htl hjk hf hX
    have hml : a.mBuffersPtr.length = 64 - B := htl
    unfold ResizeLoop
    by_cases hlt : capOf B j < n
    · rw [if_pos hlt]
      have hjk2 : j < k := lt_of_capOf_lt B (by omega)
      have hw : wadd a.mLastBufferIdx 1 = j + 1 := by
        rw [hl]; exact wadd_of_lt (by simp only [sizeMod]; omega)
      have hsucc := capOf_succ B j
      have hmono := capOf_mono B (show j + 1 ≤ k by omega)
      have hpow := pow_succ_two (B + j)
      have hlim : (2:Nat) ^ (B + j) < 2 ^ 63 := pow_lt_limit (by omega)
      have hcs := @capOf_lt_sizeMod B (j + 1) (by omega)
      have hpos : 0 < 2 ^ B := Nat.two_pow_pos B
      have hwc : wadd (capOf B j) (2 ^ (B + j)) = capOf B (j + 1) := by
        rw [wadd_of_lt (by omega), hsucc]
      have hwb : wadd (2 ^ (B + j)) (2 ^ (B + j)) = 2 ^ (B + (j + 1)) := by
        rw [wadd_of_lt (by simp only [sizeMod]; omega), ← Nat.add_assoc, hpow]; omega
      have halloc := @allocBuffer_ok T _ h { a with mLastBufferIdx := j + 1 } (2 ^ (B + j))
        (by omega) hlim (by simp only [hc]; omega) (by simp only [hc, sizeMod]; omega)
      simp only [hc] at halloc
      obtain ⟨h1, a1, hrun, r1, r2, r3, r4, r5, r6, r7⟩ :=
        ih { next := h.next + 1, avail := h.avail - 2 ^ (B + j) }
          { mSize := a.mSize, mBufferCount := j + 1, mLastBufferIdx := j + 1,
            mBuffersPtr := a.mBuffersPtr.set j
              (some { addr := h.next, cells := List.replicate (2 ^ (B + j)) default }) }
          (j + 1) rfl rfl (by simpa using htl) (by omega) (by omega) (by simp only; omega)
      refine ⟨h1, a1, ?_, r1, by omega, r3, r4, Or.inr ?_, r6, r7⟩
      · simp only [hw, allocIfBeyond, hc, ge_iff_le, Nat.le_add_right, if_true, halloc,
          bind_ok, hwc, hwb]
        exact hrun
      · rcases r5 with h5 | h5
        · rw [h5]; simpa using hlt
        · exact h5
    · rw [if_neg hlt]
      exact ⟨h, a, rfl, by rw [hl, hc], by omega, by omega, by rw [hc]; omega,
        Or.inl hc, rfl, by rw [hc]; exact hX⟩

/-- The growing loop of `Resize` on a state with `mLastBufferIdx = L < mBufferCount`,
entered at `mLastBufferIdx = idx`: the running capacity is
`2 ^ (B + idx) + 2 ^ (B + L) - 2 ^ B`, and the loop ends at the least `L` from which that
is at least `n`, with `max mBufferCount (L + 1)` buffers. -/
theorem ResizeLoop_regrow {T : Type} [Inhabited T] {B c n idx : Nat} (hn : n ≤ capOf B c)
    (hBc : B + c ≤ 63) :
    ∀ (fuel : Nat) (h : Heap) (a : DynamicArray T) (L : Nat), a.mLastBufferIdx = L →
      L < a.mBufferCount → a.mBufferCount ≤ a.mBuffersPtr.length →
      a.mBuffersPtr.length = MaxBufferCount B → idx ≤ L → L ≤ c → c + 1 ≤ fuel + L →
      2 ^ (B + c) ≤ h.avail + 2 ^ (B + L) →
      ∃ h1 a1, ResizeLoop fuel h a (2 ^ (B + idx) + 2 ^ (B + L) - 2 ^ B) (2 ^ (B + L)) n =
          .ok (h1, a1) ∧
        a1.mBufferCount = max a.mBufferCount (a1.mLastBufferIdx + 1) ∧
        a1.mLastBufferIdx ≤ c ∧ L ≤ a1.mLastBufferIdx ∧
        n ≤ 2 ^ (B + idx) + 2 ^ (B + a1.mLastBufferIdx) - 2 ^ B ∧ a1.mSize = a.mSize := by
  intro fuel
  induction fuel with
  | zero => intro h a L _ _ _ _ _ hLc hf _; omega
  | succ fuel ih =>
    intro h a L hl hcnt hcl htl hiL hLc hf hX
    have hml : a.mBuffersPtr.length = 64 - B := htl
    have hpB : 0 < 2 ^ B := Nat.two_pow_pos B
    have hpi : 2 ^ B ≤ 2 ^ (B + idx) := Nat.pow_le_pow_right (by norm_num) (by omega)
    have hiL2 : 2 ^ (B + idx) ≤ 2 ^ (B + L) := Nat.pow_le_pow_right (by norm_num) (by omega)
    have hLc2 : 2 ^ (B + L) ≤ 2 ^ (B + c) := Nat.pow_le_pow_right (by norm_num) (by omega)
    have hcap := capOf_add_pow B c
    unfold ResizeLoop
    by_cases hlt : 2 ^ (B + idx) + 2 ^ (B + L) - 2 ^ B < n
    · rw [if_pos hlt]
      have hLc3 : L < c := by
        rcases Nat.lt_or_ge L c with h1 | h1
        · exact h1
        · have : L = c := by omega
          subst this
          omega
      have hw : wadd a.mLastBufferIdx 1 = L + 1 := by
        rw [hl]; exact wadd_of_lt (by simp only [sizeMod]; omega)
      have hpow := pow_succ_two (B + L)
      have hLc4 : 2 ^ (B + (L + 1)) ≤ 2 ^ (B + c) :=
        Nat.pow_le_pow_right (by norm_num) (by omega)
      rw [← Nat.add_assoc] at hLc4
      have hlim : (2:Nat) ^ (B + L) < 2 ^ 63 := pow_lt_limit (by omega)
      have h63 : (2:Nat) ^ (B + c) ≤ 2 ^ 63 := Nat.pow_le_pow_right (by norm_num) hBc
      have hwc : wadd (2 ^ (B + idx) + 2 ^ (B + L) - 2 ^ B) (2 ^ (B + L)) =
          2 ^ (B + idx) + 2 ^ (B + (L + 1)) - 2 ^ B := by
        rw [wadd_of_lt (by simp only [sizeMod]; omega), ← Nat.add_assoc, hpow]; omega
      have hwb : wadd (2 ^ (B + L)) (2 ^ (B + L)) = 2 ^ (B + (L + 1)) := by
        rw [wadd_of_lt (by simp only [sizeMod]; omega), ← Nat.add_assoc, hpow]; omega
      by_cases hge : L + 1 ≥ a.mBufferCount
      · have hcL : a.mBufferCount = L + 1 := by omega
        have halloc := @allocBuffer_ok T _ h { a with mLastBufferIdx := L + 1 } (2 ^ (B + L))
          (by omega) hlim (by simp only [hcL]; omega) (by simp only [hcL, sizeMod]; omega)
        simp only [hcL] at halloc
        obtain ⟨h1, a1, hrun, r1, r2, r3, r4, r5⟩ :=
          ih { next := h.next + 1, avail := h.avail - 2 ^ (B + L) }
            { mSize := a.mSize, mBufferCount := L + 1 + 1, mLastBufferIdx := L + 1,
              mBuffersPtr := a.mBuffersPtr.set (L + 1)
                (some { addr := h.next, cells := List.replicate (2 ^ (B + L)) default }) }
            (L + 1) rfl (by simp only; omega) (by simp only [List.length_set]; omega)
            (by simpa using htl) (by omega) (by omega) (by omega)
            (by simp only; rw [← Nat.add_assoc, hpow]; omega)
        simp only at r1 r5
        refine ⟨h1, a1, ?_, by omega, r2, by omega, r4, r5⟩
        simp only [hw, allocIfBeyond, hcL, ge_iff_le, le_refl, if_true, halloc, bind_ok, hwc,
          hwb]
        exact hrun
      · obtain ⟨h1, a1, hrun, r1, r2, r3, r4, r5⟩ :=
          ih h { a with mLastBufferIdx := L + 1 } (L + 1) rfl (by simp only; omega)
            (by simpa using hcl) (by simpa using htl) (by omega) (by omega) (by omega)
            (by rw [← Nat.add_assoc, hpow]; omega)
        simp only at r1 r5
        refine ⟨h1, a1, ?_, r1, r2, by omega, r4, r5⟩
        simp only [hw, allocIfBeyond, if_neg hge, bind_ok, hwc, hwb]
        exact hrun
    · rw [if_neg hlt]
      refine ⟨h, a, rfl, ?_, by omega, by omega, by rw [hl]; omega, rfl⟩
      rw [hl]; omega

/-- Claim C18: for every base exponent `B` and all `m < n` (with `n` within the capacity of
`k` buffers, `B + k ≤ 63`, and a free store with room for `2 ^ (B + k + 1)` elements, so
that no allocation fails), starting from an empty array the three calls `Resize(n)`,
`Resize(m)`, `Resize(n)` all return, and the buffer count `c'` after them satisfies
`c ≤ c' ≤ c + 2` (indeed `c' ≤ c + 1`), where `c` is the buffer count after the first
`Resize(n)`, that is, after a single `Resize(n)` on an empty array. -/
theorem Resize_regrow_buffer_count {T : Type} [Inhabited T] (B k : Nat) (h : Heap)
    (m n : Nat) (hmn : m < n) (hn : n ≤ 2 ^ (B + k) - 2 ^ B) (hBk : B + k ≤ 63)
    (hmem : 2 ^ (B + k + 1) ≤ h.avail) :
    ∃ h1 a1 h2 a2 h3 a3, Resize B h (empty T B) n = .ok (h1, a1) ∧
      Resize B h1 a1 m = .ok (h2, a2) ∧ Resize B h2 a2 n = .ok (h3, a3) ∧
      a1.mBufferCount ≤ a3.mBufferCount ∧ a3.mBufferCount ≤ a1.mBufferCount + 2 ∧
      a3.mBufferCount ≤ a1.mBufferCount + 1 := by
  have hB : B < 64 := by omega
  have hpB : 0 < 2 ^ B := Nat.two_pow_pos B
  have hkk := capOf_add_pow B k
  have hpk := pow_succ_two (B + k)
  have hks := @capOf_lt_sizeMod B k (by omega)
  have hnk : n ≤ capOf B k := hn
  -- the first Resize(n)
  obtain ⟨h1, a1, hloop1, r1, -, r3, r4, r5, r6, r7⟩ :=
    @ResizeLoop_fresh T _ B k n (2 ^ (B + k + 1)) hnk hBk (by omega) 200 h (empty T B) 0
      rfl rfl (by simp [empty]) (Nat.zero_le _) (by omega) (by rw [capOf_zero]; omega)
  have hrun1 : Resize B h (empty T B) n = .ok (h1, { a1 with mSize := n }) := by
    have e0 : (empty T B).mSize = 0 := rfl
    have e1 : (empty T B).mLastBufferIdx = 0 := rfl
    have e2 : (empty T B).mBufferCount = 0 := rfl
    have e3 : wadd (capOf B 0) 0 = capOf B 0 := by rw [capOf_zero]; rfl
    simp only [Resize, e0, e1, e2, if_neg (show ¬ n ≤ 0 by omega), @BufSize_eq T B 0 (by omega),
      @Capacity_eq T B 0 (by omega), bind_ok, Nat.lt_irrefl, if_false, e3, hloop1, pure_eq_ok]
  have hc1 : 1 ≤ a1.mBufferCount := by
    rcases Nat.eq_zero_or_pos a1.mBufferCount with h0 | h0
    · rw [h0, capOf_zero] at r4; omega
    · exact h0
  have hlow : capOf B (a1.mBufferCount - 1) < n := by
    rcases r5 with h5 | h5
    · omega
    · exact h5
  have hI1 : ArrayInv B { a1 with mSize := n } :=
    Reachable_inv (Reachable.resized Reachable.ctor hrun1)
  -- Resize(m) is RemoveBack(n - m)
  obtain ⟨h2, tbl2, hrem, htl2, -, hidx, hcap2, hav2⟩ :=
    RemoveBack_run hI1 h1 (show 1 ≤ n - m by omega)
  have hsz : n - min (n - m) n = m := by omega
  simp only [hsz] at hrem hidx hcap2
  have hws : wsub n m = n - m := wsub_of_le (by omega) (by omega)
  have hrun2 : Resize B h1 { a1 with mSize := n } m =
      .ok (h2, { mSize := m,
                 mBufferCount := min a1.mBufferCount (bufIdxOf B m + 2),
                 mLastBufferIdx := bufIdxOf B m, mBuffersPtr := tbl2 }) := by
    simp only [Resize, if_pos (show m ≤ n by omega), hws, hrem, bind_ok, pure_eq_ok]
  obtain ⟨-, hle, -⟩ := @locate_eq T B m (by omega)
  have hic : bufIdxOf B m < a1.mBufferCount := lt_of_capOf_lt B (by omega)
  -- the second Resize(n)
  have hmono := capOf_mono B r3
  have hcc := capOf_add_pow B a1.mBufferCount
  have hii := capOf_add_pow B (bufIdxOf B m)
  have hml : a1.mBuffersPtr.length = 64 - B := hI1.tbl_len
  have hcl1 := ArrayInv_count_le hI1
  have hpi : 2 ^ B ≤ 2 ^ (B + bufIdxOf B m) := Nat.pow_le_pow_right (by norm_num) (by omega)
  obtain ⟨h3, a3, hloop3, s1, s2, s3, s4, s5⟩ :=
    @ResizeLoop_regrow T _ B a1.mBufferCount n (bufIdxOf B m) r4 (by omega) 200 h2
      { mSize := m, mBufferCount := min a1.mBufferCount (bufIdxOf B m + 2),
        mLastBufferIdx := bufIdxOf B m, mBuffersPtr := tbl2 }
      (bufIdxOf B m) rfl (by simp only; omega) (by simp only [htl2]; omega)
      (by simp only [htl2]; exact hI1.tbl_len) (le_refl _) (by omega) (by omega)
      (by omega)
  simp only at s1 s5
  have hcapw : wadd (capOf B (bufIdxOf B m)) (2 ^ (B + bufIdxOf B m)) =
      2 ^ (B + bufIdxOf B m) + 2 ^ (B + bufIdxOf B m) - 2 ^ B := by
    have h63 : (2:Nat) ^ (B + bufIdxOf B m) ≤ 2 ^ 63 :=
      Nat.pow_le_pow_right (by norm_num) (by omega)
    rw [wadd_of_lt (by simp only [sizeMod]; omega)]
    omega
  have hrun3 : Resize B h2
      { mSize := m, mBufferCount := min a1.mBufferCount (bufIdxOf B m + 2),
        mLastBufferIdx := bufIdxOf B m, mBuffersPtr := tbl2 } n =
      .ok (h3, { a3 with mSize := n }) := by
    simp only [Resize, if_neg (show ¬ n ≤ m by omega),
      @BufSize_eq T B (bufIdxOf B m) (by omega), @Capacity_eq T B (bufIdxOf B m) (by omega),
      bind_ok, if_pos (show bufIdxOf B m < min a1.mBufferCount (bufIdxOf B m + 2) by omega),
      hcapw, hloop3, pure_eq_ok]
  have hlast : a1.mBufferCount ≤ a3.mLastBufferIdx + 1 := by
    have hp1 : 2 ^ (B + bufIdxOf B m) ≤ 2 ^ (B + a3.mLastBufferIdx) :=
      Nat.pow_le_pow_right (by norm_num) (by omega)
    have hp2 := capOf_add_pow B (a3.mLastBufferIdx + 1)
    have hp3 := pow_succ_two (B + a3.mLastBufferIdx)
    rw [← Nat.add_assoc] at hp2
    have : a1.mBufferCount - 1 < a3.mLastBufferIdx + 1 := lt_of_capOf_lt B (by omega)
    omega
  refine ⟨h1, _, h2, _, h3, _, hrun1, hrun2, hrun3, ?_, ?_, ?_⟩
  · simp only; omega
  · simp only; omega
  · simp only; omega

theorem Resize_regrow_buffer_count_witness :
    (3 < 9 ∧ 9 ≤ 2 ^ (2 + 2) - 2 ^ 2) ∧
      ∃ h1 a1 h2 a2 h3 a3, Resize 2 heap0 (empty Nat 2) 9 = .ok (h1, a1) ∧
        Resize 2 h1 a1 3 = .ok (h2, a2) ∧ Resize 2 h2 a2 9 = .ok (h3, a3) ∧
        a1.mBufferCount ≤ a3.mBufferCount ∧ a3.mBufferCount ≤ a1.mBufferCount + 2 ∧
        a3.mBufferCount ≤ a1.mBufferCount + 1 :=
  ⟨by decide, Resize_regrow_buffer_count 2 2 heap0 3 9 (by decide) (by decide) (by decide)
    (by decide)⟩

/-! ## A `Resize` that throws -/

/-- Claim C13 as stated fails once a `Resize` has thrown: with base exponent 2 and an
exhausted free store, `Resize(5)` on the empty array throws `std::bad_alloc` after
`++mLastBufferIdx`, leaving size 0, no buffer and `mLastBufferIdx = 1` (`emptyStepped`).
On that object a later `Resize(3)` finds `theCapacity = Capacity(1) = 4 ≥ 3`, allocates
nothing and returns with size 3 and still no buffer (`threeNoBuffer`): the size 3 is
above `2 ^ (2 + 0) - 2 ^ 2 = 0`. -/
theorem size_exceeds_capacity_after_failed_Resize :
    Resize 2 heapEmpty (empty Nat 2) 5 = .badAlloc heapEmpty emptyStepped ∧
      Resize 2 heap0 emptyStepped 3 = .ok (heap0, threeNoBuffer) ∧
      threeNoBuffer.mSize = 3 ∧ threeNoBuffer.mBufferCount = 0 ∧
      ¬ (threeNoBuffer.mSize ≤ 2 ^ (2 + threeNoBuffer.mBufferCount) - 2 ^ 2) := by
  decide

/-! ## Growth keeps the elements and the buffers -/

theorem allocBuffer_avail {T : Type} [Inhabited T] {h h1 : Heap} {a a1 : DynamicArray T}
    {n : Nat} (hrun : allocBuffer h a n = .ok (h1, a1)) : h1.avail ≤ h.avail := by
  unfold allocBuffer at hrun
  cases hn : (newArray h n : Option (Heap × Buffer T)) with
  | none => rw [hn] at hrun; simp at hrun
  | some p =>
    obtain ⟨h2, buf⟩ := p
    rw [hn] at hrun
    simp only at hrun
    split at hrun
    · simp only [Outcome.ok.injEq, Prod.mk.injEq] at hrun
      obtain ⟨rfl, -⟩ := hrun
      simp only [newArray] at hn
      split at hn
      · simp only [Option.some.injEq, Prod.mk.injEq] at hn
        obtain ⟨rfl, -⟩ := hn
        exact Nat.sub_le _ _
      · simp at hn
    · simp at hrun

theorem allocIfBeyond_avail {T : Type} [Inhabited T] {h h1 : Heap} {a a1 : DynamicArray T}
    {i n : Nat} (hrun : allocIfBeyond h a i n = .ok (h1, a1)) : h1.avail ≤ h.avail := by
  unfold allocIfBeyond at hrun
  split at hrun
  · exact allocBuffer_avail hrun
  · simp only [Outcome.ok.injEq, Prod.mk.injEq] at hrun
    rw [hrun.1]

theorem ResizeLoop_avail {T : Type} [Inhabited T] {n : Nat} {h1 : Heap}
    {a1 : DynamicArray T} :
    ∀ (fuel : Nat) (h : Heap) (a : DynamicArray T) (cap bs : Nat),
      ResizeLoop fuel h a cap bs n = .ok (h1, a1) → h1.avail ≤ h.avail := by
  intro fuel
  induction fuel with
  | zero => intro h a cap bs hrun; simp [ResizeLoop] at hrun
  | succ fuel ih =>
    intro h a cap bs hrun
    unfold ResizeLoop at hrun
    by_cases hc : cap < n
    · rw [if_pos hc] at hrun
      obtain ⟨⟨h2, a2⟩, halloc, hrest⟩ := bind_eq_ok hrun
      exact le_trans (ih h2 a2 _ _ hrest) (allocIfBeyond_avail halloc)
    · rw [if_neg hc] at hrun
      simp only [Outcome.ok.injEq, Prod.mk.injEq] at hrun
      rw [hrun.1]

/-- When the growing loop of `Resize` throws, the object at the throw has at least the
buffers it had, every table entry that was allocated is the same buffer with the same
cells, and the size is as it was. -/
theorem ResizeLoop_badAlloc {T : Type} [Inhabited T] {n : Nat} {h1 : Heap}
    {st : DynamicArray T} :
    ∀ (fuel : Nat) (h : Heap) (a : DynamicArray T) (cap bs : Nat),
      a.mBuffersPtr.length < sizeMod → ResizeLoop fuel h a cap bs n = .badAlloc h1 st →
      a.mBufferCount ≤ st.mBufferCount ∧ st.mSize = a.mSize ∧ h1.avail ≤ h.avail ∧
        ∀ j, j < a.mBufferCount → st.mBuffersPtr[j]? = a.mBuffersPtr[j]? := by
  intro fuel
  induction fuel with
  | zero => intro h a cap bs _ hrun; simp [ResizeLoop] at hrun
  | succ fuel ih =>
    intro h a cap bs hlen hrun
    unfold ResizeLoop at hrun
    by_cases hc : cap < n
    · rw [if_pos hc] at hrun
      rcases bind_eq_badAlloc hrun with halloc | ⟨⟨h2, a2⟩, halloc, hrest⟩
      · obtain ⟨rfl, rfl⟩ := allocIfBeyond_badAlloc halloc
        exact ⟨le_refl _, rfl, le_refl _, fun _ _ => rfl⟩
      · obtain ⟨hc2, hs2, -, hl2, ht2⟩ := allocIfBeyond_frame (by simpa using hlen) halloc
        simp only at hc2 hs2 hl2 ht2 hrest
        obtain ⟨hc3, hs3, hv3, ht3⟩ := ih h2 a2 _ _ (by omega) hrest
        refine ⟨by omega, by rw [hs3, hs2], le_trans hv3 (allocIfBeyond_avail halloc),
          fun j hj => ?_⟩
        rw [ht3 j (by omega), ht2 j hj]
    · rw [if_neg hc] at hrun
      simp at hrun

theorem PushBackGrow_tail_avail {T : Type} [Inhabited T] {B : Nat} {h h2 : Heap}
    {a1 a2 : DynamicArray T} {flag : Bool}
    (hrun : (if flag = true then do
        let theSize ← BufSize B a1.mBufferCount
        allocBuffer h a1 theSize
      else (pure (h, a1) : Outcome T (Heap × DynamicArray T))) = .ok (h2, a2)) :
    h2.avail ≤ h.avail := by
  cases flag with
  | true =>
    simp only [if_true] at hrun
    obtain ⟨n, -, halloc⟩ := bind_eq_ok hrun
    exact allocBuffer_avail halloc
  | false =>
    simp only [Bool.false_eq_true, if_false, pure_eq_ok, Outcome.ok.injEq, Prod.mk.injEq] at hrun
    rw [hrun.1]

theorem PushBackGrow_avail {T : Type} [Inhabited T] {B : Nat} {h h2 : Heap}
    {a a2 : DynamicArray T} (hrun : PushBackGrow B h a = .ok (h2, a2)) :
    h2.avail ≤ h.avail := by
  unfold PushBackGrow at hrun
  by_cases hc : a.mLastBufferIdx ≥ a.mBufferCount
  · simp only [hc, if_true, pure_eq_ok, bind_ok] at hrun
    exact @PushBackGrow_tail_avail T _ B h h2 a a2 true (by simpa using hrun)
  · simp only [hc, if_false] at hrun
    obtain ⟨cap, -, hrun⟩ := bind_eq_ok hrun
    by_cases hfull : cap ≤ a.mSize
    · simp only [hfull, if_true, pure_eq_ok, bind_ok] at hrun
      exact @PushBackGrow_tail_avail T _ B h h2
        { a with mLastBufferIdx := wadd a.mLastBufferIdx 1 } a2 _ hrun
    · simp only [hfull, if_false, pure_eq_ok, bind_ok] at hrun
      exact @PushBackGrow_tail_avail T _ B h h2 a a2 false (by simpa using hrun)

/-- Where a returning `PushBack` stores: when `mLastBufferIdx` after the call is a buffer
the array had before, the offset of the returned reference is the size before the call
less the capacity of the buffers in front. -/
theorem PushBack_slot {T : Type} [Inhabited T] {B : Nat} {h h1 : Heap}
    {a a1 : DynamicArray T} {v : T} {r : ElemRef T} (hI : ArrayInv B a)
    (hrun : PushBack B h a v = .ok (h1, a1, r)) (hl : a1.mLastBufferIdx < a.mBufferCount) :
    h1.avail ≤ h.avail ∧ capOf B a1.mLastBufferIdx ≤ a.mSize ∧
      r.off = a.mSize - capOf B a1.mLastBufferIdx := by
  unfold PushBack at hrun
  obtain ⟨⟨h2, a2⟩, hgrow, hrun⟩ := bind_eq_ok hrun
  obtain ⟨cap, hcap, hrun⟩ := bind_eq_ok hrun
  obtain ⟨⟨a3, r3⟩, hstore, hrun⟩ := bind_eq_ok hrun
  simp only [pure_eq_ok, Outcome.ok.injEq, Prod.mk.injEq] at hrun
  obtain ⟨rfl, rfl, rfl⟩ := hrun
  try simp only at hcap
  try simp only at hstore
  obtain ⟨hI2, hs2, -⟩ := PushBackGrow_inv hI hgrow
  have hml : a.mBuffersPtr.length = 64 - B := hI.tbl_len
  obtain ⟨hc2, -, -, -⟩ := PushBackGrow_frame (by rw [hml]; simp only [sizeMod]; omega) hgrow
  obtain ⟨b, hb, hoff, hr, ha3⟩ := store_inv hstore
  subst ha3
  subst hr
  simp only at hl ⊢
  have hcl := ArrayInv_count_le hI2
  obtain ⟨-, hlim, rfl⟩ := Capacity_inv (show a2.mLastBufferIdx ≤ 64 by omega) hcap
  obtain ⟨b2, hb2, hlen2⟩ := hI2.bufs a2.mLastBufferIdx (by omega)
  rw [hb] at hb2
  simp only [Option.some.injEq] at hb2
  subst hb2
  have hsz := (ArrayInv_size_bound hI).1
  have hcp := capOf_add_pow B a2.mLastBufferIdx
  have hpB := Nat.two_pow_pos B
  have h63 : (2:Nat) ^ (B + a2.mLastBufferIdx) ≤ 2 ^ 63 :=
    Nat.pow_le_pow_right (by norm_num) (by omega)
  rw [hs2] at hoff ⊢
  have hle : capOf B a2.mLastBufferIdx ≤ a.mSize := by
    by_contra hc
    simp only [wsub, sizeMod] at hoff hsz
    omega
  exact ⟨PushBackGrow_avail hgrow, hle, wsub_of_le hle hsz⟩

theorem index_eq_of_low_entries {T : Type} {B : Nat} {a a1 : DynamicArray T} {i : Nat}
    (hI : ArrayInv B a) (hi : i < a.mSize)
    (ht : ∀ j, j < a.mBufferCount → a1.mBuffersPtr[j]? = a.mBuffersPtr[j]?) :
    index B a1 i = index B a i := by
  obtain ⟨-, hpos⟩ := ArrayInv_size_bound hI
  obtain ⟨hB, hlim⟩ := hpos (by omega)
  obtain ⟨hloc, hle, -⟩ := @locate_eq T B i (by omega)
  apply index_eq_of_table
  intro bi off hl
  rw [hloc] at hl
  simp only [Outcome.ok.injEq, Prod.mk.injEq] at hl
  obtain ⟨rfl, -⟩ := hl
  have := hI.size_le
  exact ht _ (lt_of_capOf_lt B (by omega))

theorem PushBack_keeps_index {T : Type} [Inhabited T] {B : Nat} {h h1 : Heap}
    {a a1 : DynamicArray T} {v : T} {r : ElemRef T} {i : Nat} (hI : ArrayInv B a)
    (hrun : PushBack B h a v = .ok (h1, a1, r)) (hi : i < a.mSize) :
    index B a1 i = index B a i := by
  have hml : a.mBuffersPtr.length = 64 - B := hI.tbl_len
  obtain ⟨-, -, -, hother, hsame⟩ := PushBack_keeps_buffers B h h1 a a1 v r
    (by rw [hml]; simp only [sizeMod]; omega) hrun
  obtain ⟨-, hpos⟩ := ArrayInv_size_bound hI
  obtain ⟨hB, hlim⟩ := hpos (by omega)
  obtain ⟨hloc, hle, hoff⟩ := @locate_eq T B i (by omega)
  have hsl := hI.size_le
  have hbi : bufIdxOf B i < a.mBufferCount := lt_of_capOf_lt B (by omega)
  by_cases hne : bufIdxOf B i = a1.mLastBufferIdx
  · have hl : a1.mLastBufferIdx < a.mBufferCount := by rw [← hne]; exact hbi
    obtain ⟨b, hb, -, hb1⟩ := hsame hl
    obtain ⟨-, hcap, hro⟩ := PushBack_slot hI hrun hl
    rw [hne] at hle
    have hoffne : r.off ≠ i - capOf B a1.mLastBufferIdx := by
      rw [hro]; omega
    simp only [index, hloc, bind_ok, ptrAt, hne, hb, hb1, deref, List.getElem?_set_ne hoffne]
  · apply index_eq_of_table
    intro bi off hl
    rw [hloc] at hl
    simp only [Outcome.ok.injEq, Prod.mk.injEq] at hl
    obtain ⟨rfl, -⟩ := hl
    exact hother _ hbi hne
theorem PushBack_avail {T : Type} [Inhabited T] {B : Nat} {h h1 : Heap}
    {a a1 : DynamicArray T} {v : T} {r : ElemRef T}
    (hrun : PushBack B h a v = .ok (h1, a1, r)) : h1.avail ≤ h.avail := by
  unfold PushBack at hrun
  obtain ⟨⟨h2, a2⟩, hgrow, hrun⟩ := bind_eq_ok hrun
  obtain ⟨cap, -, hrun⟩ := bind_eq_ok hrun
  obtain ⟨⟨a3, r3⟩, -, hrun⟩ := bind_eq_ok hrun
  simp only [pure_eq_ok, Outcome.ok.injEq, Prod.mk.injEq] at hrun
  obtain ⟨rfl, -, -⟩ := hrun
  exact PushBackGrow_avail hgrow

theorem Resize_grow_avail {T : Type} [Inhabited T] {B : Nat} {h h1 : Heap}
    {a a1 : DynamicArray T} {n : Nat} (hgrow : a.mSize < n)
    (hrun : Resize B h a n = .ok (h1, a1)) : h1.avail ≤ h.avail := by
  unfold Resize at hrun
  rw [if_neg (show ¬ n ≤ a.mSize by omega)] at hrun
  obtain ⟨bs, -, hrun⟩ := bind_eq_ok hrun
  obtain ⟨cap, -, hrun⟩ := bind_eq_ok hrun
  obtain ⟨⟨h2, a2⟩, hloop, hrun⟩ := bind_eq_ok hrun
  simp only [pure_eq_ok, Outcome.ok.injEq, Prod.mk.injEq] at hrun
  obtain ⟨rfl, -⟩ := hrun
  exact ResizeLoop_avail 200 h a _ _ hloop

theorem Resize_grow_badAlloc {T : Type} [Inhabited T] {B : Nat} {h h1 : Heap}
    {a st : DynamicArray T} {n : Nat} (hlen : a.mBuffersPtr.length < sizeMod)
    (hgrow : a.mSize < n) (hrun : Resize B h a n = .badAlloc h1 st) :
    a.mBufferCount ≤ st.mBufferCount ∧ st.mSize = a.mSize ∧ h1.avail ≤ h.avail ∧
      ∀ j, j < a.mBufferCount → st.mBuffersPtr[j]? = a.mBuffersPtr[j]? := by
  unfold Resize at hrun
  rw [if_neg (show ¬ n ≤ a.mSize by omega)] at hrun
  rcases bind_eq_badAlloc hrun with hbs | ⟨bs, -, hrun⟩
  · exact absurd hbs (BufSize_ne_badAlloc _ _ _ _)
  rcases bind_eq_badAlloc hrun with hcap | ⟨cap, -, hrun⟩
  · exact absurd hcap (Capacity_ne_badAlloc _ _ _ _)
  rcases bind_eq_badAlloc hrun with hloop | ⟨⟨h2, a2⟩, -, hrun⟩
  · exact ResizeLoop_badAlloc 200 h a _ _ hlen hloop
  · simp at hrun

/-- Claim C6: for every array state reachable by the public operations and every index
`i` below the size, whenever a subsequent `PushBack(v)` or a growing `Resize(n)` (`n` above
the size) returns, `operator[](i)` has the same outcome as before the call (the same buffer
address, the same offset, the same value), no buffer was freed (the buffer count did not
go down and the free store did not grow), and every table entry allocated before the call
is the same buffer in the same place: after `Resize` with the same cells, after `PushBack`
with the same cells but for the one cell the returned reference designates, which is no
cell of an element below the size. When the call ends in `std::bad_alloc` instead, the same
holds of the object at the throw. -/
theorem growth_keeps_elements_and_buffers {T : Type} [Inhabited T] (B : Nat) (h : Heap)
    (a : DynamicArray T) (i : Nat) (hr : Reachable B a) (hi : i < a.mSize) :
    (∀ (v : T) (h1 : Heap) (a1 : DynamicArray T) (r : ElemRef T),
        PushBack B h a v = .ok (h1, a1, r) →
        index B a1 i = index B a i ∧ a.mBufferCount ≤ a1.mBufferCount ∧
          h1.avail ≤ h.avail ∧
          (∀ j, j < a.mBufferCount → j ≠ a1.mLastBufferIdx →
            a1.mBuffersPtr[j]? = a.mBuffersPtr[j]?) ∧
          (a1.mLastBufferIdx < a.mBufferCount → ∃ b,
            a.mBuffersPtr[a1.mLastBufferIdx]? = some (some b) ∧
            a1.mBuffersPtr[a1.mLastBufferIdx]? =
              some (some { b with cells := b.cells.set r.off v }))) ∧
      (∀ (n : Nat) (h1 : Heap) (a1 : DynamicArray T), a.mSize < n →
        Resize B h a n = .ok (h1, a1) →
        index B a1 i = index B a i ∧ a.mBufferCount ≤ a1.mBufferCount ∧
          h1.avail ≤ h.avail ∧
          ∀ j, j < a.mBufferCount → a1.mBuffersPtr[j]? = a.mBuffersPtr[j]?) ∧
      (∀ (v : T) (h1 : Heap) (st : DynamicArray T), PushBack B h a v = .badAlloc h1 st →
        index B st i = index B a i ∧ st.mBufferCount = a.mBufferCount ∧ h1 = h ∧
          st.mBuffersPtr = a.mBuffersPtr) ∧
      (∀ (n : Nat) (h1 : Heap) (st : DynamicArray T), a.mSize < n →
        Resize B h a n = .badAlloc h1 st →
        index B st i = index B a i ∧ a.mBufferCount ≤ st.mBufferCount ∧
          h1.avail ≤ h.avail ∧
          ∀ j, j < a.mBufferCount → st.mBuffersPtr[j]? = a.mBuffersPtr[j]?) := by
  have hI := Reachable_inv hr
  have hml : a.mBuffersPtr.length = 64 - B := hI.tbl_len
  have hlen : a.mBuffersPtr.length < sizeMod := by rw [hml]; simp only [sizeMod]; omega
  refine ⟨fun v h1 a1 r hrun => ?_, fun n h1 a1 hn hrun => ?_, fun v h1 st hrun => ?_,
    fun n h1 st hn hrun => ?_⟩
  · obtain ⟨-, hc, -, hother, hsame⟩ := PushBack_keeps_buffers B h h1 a a1 v r hlen hrun
    refine ⟨PushBack_keeps_index hI hrun hi, hc, PushBack_avail hrun, hother, fun hl => ?_⟩
    obtain ⟨b, hb, -, hb1⟩ := hsame hl
    exact ⟨b, hb, hb1⟩
  · obtain ⟨-, hc, ht⟩ := Resize_grow_keeps_buffers B h h1 a a1 n hlen hn hrun
    exact ⟨index_eq_of_low_entries hI hi ht, hc, Resize_grow_avail hn hrun, ht⟩
  · obtain ⟨hh, hst⟩ := PushBack_badAlloc_state hrun
    rcases hst with rfl | ⟨-, rfl⟩
    · exact ⟨rfl, rfl, hh, rfl⟩
    · exact ⟨rfl, rfl, hh, rfl⟩
  · obtain ⟨hc, -, hv, ht⟩ := Resize_grow_badAlloc hlen hn hrun
    exact ⟨index_eq_of_low_entries hI hi ht, hc, hv, ht⟩

theorem growth_keeps_elements_and_buffers_witness :
    (3 < tenElems.mSize ∧
      PushBack 2 heapAfterTen tenElems 7 =
        .ok (heapAfterTen, elevenElems, { addr := 2, off := 6, val := 7 }) ∧
      Resize 2 heapAfterTen tenElems 13 = .ok ({ next := 4, avail := 980 }, tenElemsGrown) ∧
      index 2 tenElems 3 = .ok { addr := 1, off := 3, val := 3 } ∧
      index 2 elevenElems 3 = .ok { addr := 1, off := 3, val := 3 } ∧
      index 2 tenElemsGrown 3 = .ok { addr := 1, off := 3, val := 3 }) ∧
    ((∀ (v : Nat) (h1 : Heap) (a1 : DynamicArray Nat) (r : ElemRef Nat),
        PushBack 2 heapAfterTen tenElems v = .ok (h1, a1, r) →
        index 2 a1 3 = index 2 tenElems 3 ∧ tenElems.mBufferCount ≤ a1.mBufferCount ∧
          h1.avail ≤ heapAfterTen.avail ∧
          (∀ j, j < tenElems.mBufferCount → j ≠ a1.mLastBufferIdx →
            a1.mBuffersPtr[j]? = tenElems.mBuffersPtr[j]?) ∧
          (a1.mLastBufferIdx < tenElems.mBufferCount → ∃ b,
            tenElems.mBuffersPtr[a1.mLastBufferIdx]? = some (some b) ∧
            a1.mBuffersPtr[a1.mLastBufferIdx]? =
              some (some { b with cells := b.cells.set r.off v }))) ∧
      (∀ (n : Nat) (h1 : Heap) (a1 : DynamicArray Nat), tenElems.mSize < n →
        Resize 2 heapAfterTen tenElems n = .ok (h1, a1) →
        index 2 a1 3 = index 2 tenElems 3 ∧ tenElems.mBufferCount ≤ a1.mBufferCount ∧
          h1.avail ≤ heapAfterTen.avail ∧
          ∀ j, j < tenElems.mBufferCount → a1.mBuffersPtr[j]? = tenElems.mBuffersPtr[j]?) ∧
      (∀ (v : Nat) (h1 : Heap) (st : DynamicArray Nat),
        PushBack 2 heapAfterTen tenElems v = .badAlloc h1 st →
        index 2 st 3 = index 2 tenElems 3 ∧ st.mBufferCount = tenElems.mBufferCount ∧
          h1 = heapAfterTen ∧ st.mBuffersPtr = tenElems.mBuffersPtr) ∧
      (∀ (n : Nat) (h1 : Heap) (st : DynamicArray Nat), tenElems.mSize < n →
        Resize 2 heapAfterTen tenElems n = .badAlloc h1 st →
        index 2 st 3 = index 2 tenElems 3 ∧ tenElems.mBufferCount ≤ st.mBufferCount ∧
          h1.avail ≤ heapAfterTen.avail ∧
          ∀ j, j < tenElems.mBufferCount → st.mBuffersPtr[j]? = tenElems.mBuffersPtr[j]?)) :=
  ⟨by decide, growth_keeps_elements_and_buffers 2 heapAfterTen tenElems 3 Reachable_tenElems
    (by decide)⟩

end KFS
